import Mathlib

/-!
# Verification of the MPT visualization core (Merkle Patricia Trie engine)

Shallow embedding of the trie engine of this repository: byte/nibble
utilities and hex marshaling (`src/mpt/bytes.ts`), the compact ("hex-prefix")
path codec (`src/mpt/hexPrefix.ts`), node serialization (`nodeCodec.ts`),
the in-memory KV store (`src/store/kv.ts`), and the recursive
insert/lookup/finalize/resolve engine (`trie.ts`).

Modelling conventions:
* JavaScript `Uint8Array` values are `List Nat` together with a validity
  predicate `ByteOk` (every entry `< 256`); nibble arrays are `List Nat`
  with `NibbleOk` (every entry `≤ 15`).
* Hex strings are `List Char`.
* Code that can `throw` is modelled in `Option` (`none` = exception).
* The mutable KV store and the per-call cache are threaded explicitly as a
  state record `St`; the JS recursion (unbounded) is modelled with an
  explicit fuel parameter, one unit per recursive call.
* The cryptographic hash (`keccak`, from `@noble/hashes`, an external
  collaborator per the spec) is an explicit function parameter.
* RLP (`@ethereumjs/rlp`, an external dependency) is modelled from the
  spec's description: list-of-byte-strings encoding with the standard
  short/long string and list headers.
-/

namespace MPT

/-- A JS `Uint8Array` is modelled as a `List Nat`; this predicate says every
entry is a valid byte. -/
def ByteOk (b : List Nat) : Prop := ∀ x ∈ b, x < 256

/-- Valid nibble list: every entry in `0–15`. -/
def NibbleOk (n : List Nat) : Prop := ∀ x ∈ n, x ≤ 15

instance (b : List Nat) : Decidable (ByteOk b) := by
  unfold ByteOk; infer_instance

instance (n : List Nat) : Decidable (NibbleOk n) := by
  unfold NibbleOk; infer_instance

/-- `EMPTY_BYTES` from `bytes.ts`. -/
def EMPTY_BYTES : List Nat := []

/-- `equalBytes` from `bytes.ts`: length check plus element-wise comparison. -/
def equalBytes : List Nat → List Nat → Bool
  | [], [] => true
  | a :: as, b :: bs => a == b && equalBytes as bs
  | _, _ => false

theorem equalBytes_iff (a b : List Nat) : equalBytes a b = true ↔ a = b := by
  induction a generalizing b with
  | nil => cases b <;> simp [equalBytes]
  | cons x xs ih =>
    cases b with
    | nil => simp [equalBytes]
    | cons y ys => simp [equalBytes, ih]

/-- `toNibbles` from `bytes.ts`: split each byte into high and low nibble. -/
def toNibbles : List Nat → List Nat
  | [] => []
  | byte :: rest => ((byte >>> 4) &&& 0x0f) :: (byte &&& 0x0f) :: toNibbles rest

/-- `nibblesToPackedBytes` from `bytes.ts`; the source throws on odd length,
modelled as `none`. -/
def nibblesToPackedBytes : List Nat → Option (List Nat)
  | [] => some []
  | [_] => none
  | a :: b :: rest =>
    (nibblesToPackedBytes rest).map (fun p => (((a &&& 0x0f) <<< 4) ||| (b &&& 0x0f)) :: p)

/-- `packedBytesToNibbles` from `bytes.ts` (alias of `toNibbles`). -/
def packedBytesToNibbles (bytes : List Nat) : List Nat := toNibbles bytes

/-- `commonPrefixLength` from `trie.ts`. -/
def commonPrefixLength : List Nat → List Nat → Nat
  | a :: as, b :: bs => if a = b then commonPrefixLength as bs + 1 else 0
  | _, _ => 0

/-- `startsWith` from `trie.ts`: `pref` is an initial segment of `source`. -/
def nibblesStartWith (source pref : List Nat) : Bool :=
  decide (pref <+: source)

/-- `validateNibbles` from `hexPrefix.ts` as a boolean check (the source
throws on failure). -/
def validateNibbles (nibbles : List Nat) : Bool :=
  nibbles.all (fun n => n ≤ 0x0f)

/-- `encodeCompactPath` from `hexPrefix.ts`: flag nibble (bit 1 = leaf,
bit 0 = odd length), zero pad nibble when even, then packed nibbles.
Throws (`none`) on an invalid nibble. -/
def encodeCompactPath (nibbles : List Nat) (isLf : Bool) : Option (List Nat) :=
  if validateNibbles nibbles then
    let odd : Bool := nibbles.length % 2 == 1
    let flags : Nat := (if isLf then 2 else 0) + (if odd then 1 else 0)
    let prefixed := if odd then flags :: nibbles else flags :: 0 :: nibbles
    nibblesToPackedBytes prefixed
  else none

/-- `decodeCompactPath` from `hexPrefix.ts`: unpack, fail on empty, read the
flag nibble, strip flag (and pad when even: `slice(1)` vs `slice(2)` of the
unpacked list), validate the rest. -/
def decodeCompactPath (encoded : List Nat) : Option (List Nat × Bool) :=
  match packedBytesToNibbles encoded with
  | [] => none
  | flags :: rest =>
    let isLf : Bool := flags &&& 0x2 == 0x2
    let odd : Bool := flags &&& 0x1 == 0x1
    let path := if odd then rest else rest.drop 1
    if validateNibbles path then some (path, isLf) else none

theorem and15_lt (a : Nat) : a &&& 0x0f < 16 :=
  lt_of_le_of_lt Nat.and_le_right (by norm_num)

theorem pack_pair_lt_aux : ∀ x < 16, ∀ y < 16, (x <<< 4) ||| y < 256 := by decide

theorem pack_pair_lt (a b : Nat) : (((a &&& 0x0f) <<< 4) ||| (b &&& 0x0f)) < 256 :=
  pack_pair_lt_aux _ (and15_lt a) _ (and15_lt b)

theorem unpack_pair_aux :
    ∀ x < 16, ∀ y < 16,
      (((x <<< 4) ||| y) >>> 4) &&& 0x0f = x ∧ ((x <<< 4) ||| y) &&& 0x0f = y := by
  decide

theorem and15_self : ∀ a < 16, a &&& 0x0f = a := by decide

theorem unpack_pair (a b : Nat) (ha : a ≤ 15) (hb : b ≤ 15) :
    ((((a &&& 0x0f) <<< 4) ||| (b &&& 0x0f)) >>> 4) &&& 0x0f = a ∧
      (((a &&& 0x0f) <<< 4) ||| (b &&& 0x0f)) &&& 0x0f = b := by
  have ha' : a &&& 0x0f = a := and15_self a (by omega)
  have hb' : b &&& 0x0f = b := and15_self b (by omega)
  rw [ha', hb']
  exact unpack_pair_aux a (by omega) b (by omega)

/-- Packing an even-length valid nibble list succeeds and unpacking recovers
it; the packed bytes are valid bytes. -/
theorem pack_unpack (l : List Nat) (hv : validateNibbles l = true)
    (he : l.length % 2 = 0) :
    ∃ p, nibblesToPackedBytes l = some p ∧ toNibbles p = l ∧ ByteOk p := by
  induction l using nibblesToPackedBytes.induct with
  | case1 =>
    exact ⟨[], rfl, rfl, by simp [ByteOk]⟩
  | case2 a => simp at he
  | case3 a b rest ih =>
    simp only [validateNibbles, List.all_cons, Bool.and_eq_true, decide_eq_true_eq] at hv
    have hrest : validateNibbles rest = true := by
      simp only [validateNibbles]
      exact hv.2.2
    have hlen : rest.length % 2 = 0 := by
      simp only [List.length_cons] at he
      omega
    obtain ⟨p, hp, hup, hbo⟩ := ih hrest hlen
    refine ⟨(((a &&& 0x0f) <<< 4) ||| (b &&& 0x0f)) :: p, ?_, ?_, ?_⟩
    · simp [nibblesToPackedBytes, hp]
    · obtain ⟨h1, h2⟩ := unpack_pair a b hv.1 hv.2.1
      simp [toNibbles, h1, h2, hup]
    · intro x hx
      rcases List.mem_cons.mp hx with hx | hx
      · subst hx
        exact pack_pair_lt a b
      · exact hbo x hx

/-- C3 core: the compact-path codec round-trips on every valid nibble list
(empty, odd and even lengths alike) and every flag. -/
theorem compactPath_roundtrip (n : List Nat) (f : Bool) (hv : NibbleOk n) :
    ∃ e, encodeCompactPath n f = some e ∧ decodeCompactPath e = some (n, f) := by
  have hvb : validateNibbles n = true := by
    simp only [validateNibbles, List.all_eq_true, decide_eq_true_eq]
    exact hv
  by_cases ho : n.length % 2 = 1
  · -- odd length
    have hob : (n.length % 2 == 1) = true := by simpa using ho
    have hfle : ((if f then 2 else 0) + 1) ≤ 15 := by cases f <;> decide
    have hpref : validateNibbles (((if f then 2 else 0) + 1) :: n) = true := by
      simp only [validateNibbles, List.all_cons, Bool.and_eq_true, decide_eq_true_eq]
      exact ⟨hfle, by simpa [validateNibbles, List.all_eq_true] using hv⟩
    have hlen : ((((if f then 2 else 0) + 1)) :: n).length % 2 = 0 := by
      simp only [List.length_cons]
      omega
    obtain ⟨p, hp, hup, _⟩ := pack_unpack _ hpref hlen
    refine ⟨p, ?_, ?_⟩
    · simp only [encodeCompactPath, hvb, if_true, hob]
      simpa using hp
    · have hflag1 : ((((if f then 2 else 0) + 1) &&& 0x1) == 0x1) = true := by
        cases f <;> decide
      have hflag2 : ((((if f then 2 else 0) + 1) &&& 0x2) == 0x2) = f := by
        cases f <;> decide
      simp only [decodeCompactPath, packedBytesToNibbles, hup, hflag1, hflag2, if_true, hvb]
  · -- even length
    have hob : (n.length % 2 == 1) = false := by
      simp only [beq_eq_false_iff_ne, ne_eq]
      exact ho
    have hfle : ((if f then 2 else 0) + 0) ≤ 15 := by cases f <;> decide
    have hpref : validateNibbles (((if f then 2 else 0) + 0) :: 0 :: n) = true := by
      simp only [validateNibbles, List.all_cons, Bool.and_eq_true, decide_eq_true_eq]
      exact ⟨hfle, by norm_num, by simpa [validateNibbles, List.all_eq_true] using hv⟩
    have hlen : ((((if f then 2 else 0) + 0)) :: 0 :: n).length % 2 = 0 := by
      simp only [List.length_cons]
      omega
    obtain ⟨p, hp, hup, _⟩ := pack_unpack _ hpref hlen
    refine ⟨p, ?_, ?_⟩
    · simp only [encodeCompactPath, hvb, if_true, hob]
      simpa using hp
    · have hflag1 : ((((if f then 2 else 0) + 0) &&& 0x1) == 0x1) = false := by
        cases f <;> decide
      have hflag2 : ((((if f then 2 else 0) + 0) &&& 0x2) == 0x2) = f := by
        cases f <;> decide
      simp only [decodeCompactPath, packedBytesToNibbles, hup, hflag1, hflag2,
        Bool.false_eq_true, if_false, List.drop_one, List.tail_cons, hvb, if_true]


/-! ## Hex marshaling (`bytesToHex`, `hexToBytes`, `normalizeHex`) -/

/-- One byte rendered as in JS `byte.toString(16).padStart(2, '0')`:
`Nat.toDigits 16` is core Lean's lowercase base-16 rendering. -/
def byteHexChars (b : Nat) : List Char :=
  let s := Nat.toDigits 16 b
  if s.length < 2 then List.replicate (2 - s.length) '0' ++ s else s

/-- The body of `bytesToHex` from `bytes.ts` (the loop accumulating
two hex chars per byte). -/
def bytesHexBody : List Nat → List Char
  | [] => []
  | b :: rest => byteHexChars b ++ bytesHexBody rest

/-- `bytesToHex` from `bytes.ts`. -/
def bytesToHex (bytes : List Nat) (withPrefix : Bool := true) : List Char :=
  (if withPrefix then ['0', 'x'] else []) ++ bytesHexBody bytes

/-- Is `c` a hex digit as accepted by JS `parseInt(_, 16)`. -/
def isHexDigitChar (c : Char) : Bool :=
  ('0' ≤ c && c ≤ '9') || ('a' ≤ c && c ≤ 'f') || ('A' ≤ c && c ≤ 'F')

/-- Value of a hex digit char. -/
def hexDigitVal (c : Char) : Nat :=
  if '0' ≤ c && c ≤ '9' then c.toNat - '0'.toNat
  else if 'a' ≤ c && c ≤ 'f' then c.toNat - 'a'.toNat + 10
  else if 'A' ≤ c && c ≤ 'F' then c.toNat - 'A'.toNat + 10
  else 0

/-- JS `Number.parseInt` on a two-char slice (maximal valid prefix; `NaN`
coerces to `0` when stored in a `Uint8Array`). -/
def pairVal (c1 c2 : Char) : Nat :=
  if isHexDigitChar c1 then
    if isHexDigitChar c2 then 16 * hexDigitVal c1 + hexDigitVal c2
    else hexDigitVal c1
  else 0

/-- The parsing loop of `hexToBytes` (two chars per byte). -/
def parseHexPairs : List Char → List Nat
  | c1 :: c2 :: rest => pairVal c1 c2 :: parseHexPairs rest
  | _ => []

/-- `hexToBytes` from `bytes.ts`. -/
def hexToBytes (hex : List Char) : List Nat :=
  let raw := if ['0', 'x'].isPrefixOf hex then hex.drop 2 else hex
  if raw.length = 0 then []
  else parseHexPairs (if raw.length % 2 = 0 then raw else '0' :: raw)

/-- `normalizeHex` from `store/kv.ts`: lowercase, ensure a `0x` prefix. -/
def normalizeHex (hex : List Char) : List Char :=
  let lower := hex.map Char.toLower
  if ['0', 'x'].isPrefixOf lower then lower else '0' :: 'x' :: lower

/-- `bytesSizeFromHex` from `store/kv.ts`. -/
def bytesSizeFromHex (hex : List Char) : Nat :=
  (if ['0', 'x'].isPrefixOf hex then hex.drop 2 else hex).length / 2

set_option maxRecDepth 4096 in
theorem byteHex_len2 : ∀ b < 256, (byteHexChars b).length = 2 := by decide

set_option maxRecDepth 4096 in
theorem byteHex_pairVal :
    ∀ b < 256,
      (match byteHexChars b with
        | c1 :: c2 :: _ => pairVal c1 c2
        | _ => 0) = b := by
  decide

set_option maxRecDepth 4096 in
theorem byteHex_lower : ∀ b < 256, (byteHexChars b).map Char.toLower = byteHexChars b := by
  decide

theorem bytesHexBody_length (b : List Nat) (h : ByteOk b) :
    (bytesHexBody b).length = 2 * b.length := by
  induction b with
  | nil => rfl
  | cons x rest ih =>
    have hx : x < 256 := h x (List.mem_cons_self x rest)
    have hrest : ByteOk rest := fun y hy => h y (List.mem_cons_of_mem x hy)
    simp only [bytesHexBody, List.length_append, byteHex_len2 x hx, ih hrest, List.length_cons]
    omega

theorem parseHexPairs_body (b : List Nat) (h : ByteOk b) :
    parseHexPairs (bytesHexBody b) = b := by
  induction b with
  | nil => rfl
  | cons x rest ih =>
    have hx : x < 256 := h x (List.mem_cons_self x rest)
    have hrest : ByteOk rest := fun y hy => h y (List.mem_cons_of_mem x hy)
    obtain ⟨c1, c2, hc⟩ := List.length_eq_two.mp (byteHex_len2 x hx)
    have hval := byteHex_pairVal x hx
    rw [hc] at hval
    have hval' : pairVal c1 c2 = x := by simpa using hval
    simp only [bytesHexBody, hc, List.cons_append, List.nil_append, parseHexPairs]
    rw [hval', ih hrest]

/-- `hexToBytes` inverts `bytesToHex` on valid byte lists. -/
theorem hexToBytes_bytesToHex (b : List Nat) (h : ByteOk b) :
    hexToBytes (bytesToHex b) = b := by
  cases b with
  | nil => rfl
  | cons x rest =>
    have hlen : (bytesHexBody (x :: rest)).length = 2 * (x :: rest).length :=
      bytesHexBody_length _ h
    simp only [hexToBytes, bytesToHex, if_pos, List.cons_append, List.nil_append]
    rw [show (['0', 'x'].isPrefixOf ('0' :: 'x' :: bytesHexBody (x :: rest))) = true by
      simp [List.isPrefixOf]]
    simp only [if_true, List.drop_succ_cons, List.drop_zero]
    rw [if_neg (by rw [hlen]; simp)]
    rw [if_pos (by rw [hlen]; omega)]
    exact parseHexPairs_body _ h

theorem toLower_0x : Char.toLower '0' = '0' ∧ Char.toLower 'x' = 'x' := by decide

theorem bytesHexBody_lower (b : List Nat) (h : ByteOk b) :
    (bytesHexBody b).map Char.toLower = bytesHexBody b := by
  induction b with
  | nil => rfl
  | cons x rest ih =>
    have hx : x < 256 := h x (List.mem_cons_self x rest)
    have hrest : ByteOk rest := fun y hy => h y (List.mem_cons_of_mem x hy)
    simp only [bytesHexBody, List.map_append, byteHex_lower x hx, ih hrest]

/-- `normalizeHex` is the identity on `bytesToHex` output (already lowercase
and `0x`-prefixed). -/
theorem normalizeHex_bytesToHex (b : List Nat) (h : ByteOk b) :
    normalizeHex (bytesToHex b) = bytesToHex b := by
  simp only [normalizeHex, bytesToHex, if_pos, List.cons_append, List.nil_append, List.map_cons]
  rw [toLower_0x.1, toLower_0x.2, bytesHexBody_lower b h]
  rw [show (['0', 'x'].isPrefixOf ('0' :: 'x' :: bytesHexBody b)) = true by
    simp [List.isPrefixOf]]
  simp

/-- `bytesToHex` is injective on valid byte lists. -/
theorem bytesToHex_inj {a b : List Nat} (ha : ByteOk a) (hb : ByteOk b)
    (h : bytesToHex a = bytesToHex b) : a = b := by
  have := congrArg hexToBytes h
  rwa [hexToBytes_bytesToHex a ha, hexToBytes_bytesToHex b hb] at this

/-! ## Minimal big-endian integers (RLP length fields) -/

/-- Minimal big-endian base-256 representation (empty for `0`). -/
def beBytes (n : Nat) : List Nat := (Nat.digits 256 n).reverse

/-- Big-endian base-256 value of a byte list. -/
def beVal (l : List Nat) : Nat := l.foldl (fun acc d => acc * 256 + d) 0

theorem beVal_foldl (l : List Nat) :
    ∀ acc, List.foldl (fun acc d => acc * 256 + d) acc l
      = acc * 256 ^ l.length + Nat.ofDigits 256 l.reverse := by
  induction l with
  | nil => intro acc; simp [Nat.ofDigits]
  | cons d rest ih =>
    intro acc
    simp only [List.foldl_cons, List.reverse_cons, List.length_cons]
    rw [ih (acc * 256 + d), Nat.ofDigits_append]
    simp [Nat.ofDigits, pow_succ]
    ring

theorem beVal_beBytes (n : Nat) : beVal (beBytes n) = n := by
  simp only [beVal, beBytes, beVal_foldl, List.reverse_reverse, Nat.ofDigits_digits]
  simp

theorem beBytes_ByteOk (n : Nat) : ByteOk (beBytes n) := by
  intro x hx
  exact Nat.digits_lt_base (by norm_num) (List.mem_reverse.mp hx)

theorem beBytes_len_le {n k : Nat} (h : n < 256 ^ k) : (beBytes n).length ≤ k := by
  simp only [beBytes, List.length_reverse]
  by_cases hn : n = 0
  · subst hn; simp
  · by_contra hk
    push_neg at hk
    have h1 : 256 ^ (Nat.digits 256 n).length ≤ 256 * n :=
      Nat.base_pow_length_digits_le 256 n (by norm_num) hn
    have h2 : 256 ^ (k + 1) ≤ 256 ^ (Nat.digits 256 n).length :=
      Nat.pow_le_pow_right (by norm_num) hk
    have : 256 ^ (k + 1) ≤ 256 * n := le_trans h2 h1
    rw [pow_succ] at this
    have : 256 ^ k ≤ n := by
      have h256 : 0 < 256 := by norm_num
      nlinarith
    omega

/-! ## Trie node data model (`types.ts`) and RLP (`@ethereumjs/rlp`)

RLP is an external dependency. Modelled from the spec: "list-of-byte-strings
encoding" with the standard headers: a single byte `< 0x80` stands for
itself; a byte string of length `< 56` gets header `0x80 + len`; longer
strings get `0xb7 + lenOfLen` followed by the big-endian length; a list
whose payload is shorter than 56 bytes gets header `0xc0 + len`, longer
payloads `0xf7 + lenOfLen` plus the big-endian length. -/

/-- `NodeType` from `types.ts`, extended by the `'unknown'` tag used by the
KV store rows. -/
inductive NodeTag
  | branch
  | extension
  | leaf
  | unknown
deriving DecidableEq, Repr

/-- `TrieNode` from `types.ts`: the three node variants. -/
inductive TrieNode
  | branch (children : List (List Nat)) (value : List Nat)
  | extension (path : List Nat) (child : List Nat)
  | leaf (path : List Nat) (value : List Nat)
deriving DecidableEq, Repr

/-- `node.type` as the KV-store tag. -/
def TrieNode.tag : TrieNode → NodeTag
  | .branch _ _ => .branch
  | .extension _ _ => .extension
  | .leaf _ _ => .leaf

/-- RLP encoding of one byte string. -/
def encBytes (b : List Nat) : List Nat :=
  if b.length = 1 ∧ b.headD 0 < 0x80 then b
  else if b.length < 56 then (0x80 + b.length) :: b
  else (0xb7 + (beBytes b.length).length) :: (beBytes b.length ++ b)

/-- RLP list header around an already-encoded payload. -/
def encList (payload : List Nat) : List Nat :=
  if payload.length < 56 then (0xc0 + payload.length) :: payload
  else (0xf7 + (beBytes payload.length).length) :: (beBytes payload.length ++ payload)

/-- `encodeTrieNode` from `nodeCodec.ts`: a branch is the 17-item list of its
children plus value; leaf/extension are 2-item lists of compact path and
payload. Throws (`none`) on a branch without exactly 16 child slots or an
invalid compact path. -/
def encodeTrieNode : TrieNode → Option (List Nat)
  | .branch children value =>
    if children.length = 16 then
      some (encList (((children ++ [value]).map encBytes).flatten))
    else none
  | .leaf path value =>
    (encodeCompactPath path true).map (fun cp => encList (encBytes cp ++ encBytes value))
  | .extension path child =>
    (encodeCompactPath path false).map (fun cp => encList (encBytes cp ++ encBytes child))

/-- Parse one RLP byte-string item from the front of the input; fails
(`none`) on a list header, mirroring `asBytes` in `nodeCodec.ts` which
throws when an item is not a byte string. -/
def parseBytesItem : List Nat → Option (List Nat × List Nat)
  | [] => none
  | h :: rest =>
    if h < 0x80 then some ([h], rest)
    else if h < 0xb8 then
      let len := h - 0x80
      if rest.length < len then none
      else some (rest.take len, rest.drop len)
    else if h < 0xc0 then
      let k := h - 0xb7
      if rest.length < k then none
      else
        let len := beVal (rest.take k)
        let body := rest.drop k
        if body.length < len then none
        else some (body.take len, body.drop len)
    else none

/-- Parse a sequence of RLP byte-string items filling the whole payload
(fuelled; each item consumes at least one byte, so `payload.length` fuel is
always enough). -/
def parseItemsF : Nat → List Nat → Option (List (List Nat))
  | _, [] => some []
  | 0, _ :: _ => none
  | fuel + 1, x :: xs => do
    let (item, rest) ← parseBytesItem (x :: xs)
    let items ← parseItemsF fuel rest
    pure (item :: items)

/-- Parse the top-level RLP list header, returning the payload; fails on a
byte string (`asList` in `nodeCodec.ts` throws) or trailing bytes
(`@ethereumjs/rlp` rejects a non-empty remainder). -/
def rlpListPayload (input : List Nat) : Option (List Nat) :=
  match input with
  | [] => none
  | h :: rest =>
    if h < 0xc0 then none
    else if h < 0xf8 then
      let len := h - 0xc0
      if rest.length = len then some rest else none
    else
      let k := h - 0xf7
      if rest.length < k then none
      else
        let len := beVal (rest.take k)
        let payload := rest.drop k
        if payload.length = len then some payload else none

/-- `decodeTrieNode` from `nodeCodec.ts`: a 17-item list is a branch, a
2-item list is leaf/extension by its compact-path flag, anything else is an
error. -/
def decodeTrieNode (encoded : List Nat) : Option TrieNode := do
  let payload ← rlpListPayload encoded
  let items ← parseItemsF payload.length payload
  if items.length = 17 then
    pure (.branch (items.take 16) ((items.drop 16).headD []))
  else
    match items with
    | [first, second] => do
      let (path, isLf) ← decodeCompactPath first
      pure (if isLf then .leaf path second else .extension path second)
    | _ => none

/-! ## RLP round-trip lemmas -/

theorem beBytes_len_pos {n : Nat} (h : n ≠ 0) : 1 ≤ (beBytes n).length := by
  have hne : beBytes n ≠ [] := by
    simp only [beBytes, ne_eq, List.reverse_eq_nil_iff, Nat.digits_eq_nil_iff_eq_zero]
    omega
  cases hbe : beBytes n with
  | nil => exact absurd hbe hne
  | cons y ys => simp

theorem encBytes_ne_nil (b : List Nat) : encBytes b ≠ [] := by
  unfold encBytes
  split
  · rename_i h
    intro hc
    rw [hc] at h
    simp at h
  · split <;> simp

theorem parseBytesItem_enc (b rest : List Nat) (hb : b.length < 2 ^ 64) :
    parseBytesItem (encBytes b ++ rest) = some (b, rest) := by
  unfold encBytes
  split
  · -- single byte < 0x80
    rename_i h
    obtain ⟨hl, hh⟩ := h
    obtain ⟨x, hx⟩ := List.length_eq_one.mp hl
    subst hx
    simp only [List.headD_cons] at hh
    simp [parseBytesItem, hh]
  · split
    · -- short string
      rename_i hsing hlen
      simp only [List.cons_append, parseBytesItem]
      rw [if_neg (by omega), if_pos (by omega)]
      have hskip : ¬ ((b ++ rest).length < 0x80 + b.length - 0x80) := by
        simp [List.length_append]
      rw [if_neg hskip]
      have htk : 0x80 + b.length - 0x80 = b.length := by omega
      rw [htk, List.take_left, List.drop_left]
    · -- long string
      rename_i hsing hlen
      push_neg at hlen
      have hk1 : 1 ≤ (beBytes b.length).length := beBytes_len_pos (by omega)
      have hk8 : (beBytes b.length).length ≤ 8 := by
        apply beBytes_len_le
        calc b.length < 2 ^ 64 := hb
        _ = 256 ^ 8 := by norm_num
      simp only [List.cons_append, parseBytesItem]
      rw [if_neg (by omega), if_neg (by omega), if_pos (by omega)]
      have hkk : 0xb7 + (beBytes b.length).length - 0xb7 = (beBytes b.length).length := by
        omega
      rw [hkk, List.append_assoc]
      rw [if_neg (by simp [List.length_append])]
      rw [List.take_left, List.drop_left, beVal_beBytes]
      rw [if_neg (by simp [List.length_append])]
      rw [List.take_left, List.drop_left]

theorem rlpListPayload_enc (payload : List Nat) (h : payload.length < 2 ^ 64) :
    rlpListPayload (encList payload) = some payload := by
  unfold encList
  split
  · rename_i hlen
    simp only [rlpListPayload]
    rw [if_neg (by omega), if_pos (by omega)]
    simp
  · rename_i hlen
    push_neg at hlen
    have hk1 : 1 ≤ (beBytes payload.length).length := beBytes_len_pos (by omega)
    have hk8 : (beBytes payload.length).length ≤ 8 := by
      apply beBytes_len_le
      calc payload.length < 2 ^ 64 := h
      _ = 256 ^ 8 := by norm_num
    simp only [rlpListPayload]
    rw [if_neg (by omega), if_neg (by omega)]
    have hkk : 0xf7 + (beBytes payload.length).length - 0xf7
        = (beBytes payload.length).length := by omega
    rw [hkk]
    rw [if_neg (by simp [List.length_append])]
    rw [List.take_left, List.drop_left, beVal_beBytes]
    simp

theorem parseItemsF_enc (items : List (List Nat)) :
    ∀ fuel, (∀ b ∈ items, b.length < 2 ^ 64) → items.length ≤ fuel →
      parseItemsF fuel ((items.map encBytes).flatten) = some items := by
  induction items with
  | nil =>
    intro fuel _ _
    simp [parseItemsF]
  | cons b bs ih =>
    intro fuel hb hf
    obtain ⟨f, rfl⟩ : ∃ f, fuel = f + 1 := by
      refine ⟨fuel - 1, ?_⟩
      simp only [List.length_cons] at hf
      omega
    obtain ⟨x, xs, hx⟩ := List.exists_cons_of_ne_nil (encBytes_ne_nil b)
    simp only [List.map_cons, List.flatten_cons]
    rw [hx, List.cons_append]
    show parseItemsF (f + 1) (x :: (xs ++ (bs.map encBytes).flatten)) = _
    simp only [parseItemsF]
    rw [← List.cons_append, ← hx,
      parseBytesItem_enc b _ (hb b (List.mem_cons_self b bs))]
    have hbs : ∀ c ∈ bs, c.length < 2 ^ 64 :=
      fun c hc => hb c (List.mem_cons_of_mem b hc)
    have hfs : bs.length ≤ f := by
      simp only [List.length_cons] at hf
      omega
    simp [ih f hbs hfs]

theorem parseItemsF_items_le (items : List (List Nat)) :
    items.length ≤ ((items.map encBytes).flatten).length := by
  induction items with
  | nil => simp
  | cons b bs ih =>
    obtain ⟨x, xs, hx⟩ := List.exists_cons_of_ne_nil (encBytes_ne_nil b)
    simp only [List.map_cons, List.flatten_cons, List.length_cons, hx,
      List.cons_append, List.length_append]
    omega

theorem encBytes_length_le (b : List Nat) (hb : b.length < 2 ^ 64) :
    (encBytes b).length ≤ b.length + 9 := by
  have hk8 : (beBytes b.length).length ≤ 8 := by
    apply beBytes_len_le
    calc b.length < 2 ^ 64 := hb
    _ = 256 ^ 8 := by norm_num
  unfold encBytes
  split
  · omega
  · split
    · simp
    · simp only [List.length_cons, List.length_append]
      omega

/-- Length of a successfully packed nibble list. -/
theorem nibblesToPackedBytes_length :
    ∀ l p, nibblesToPackedBytes l = some p → l.length = 2 * p.length := by
  intro l
  induction l using nibblesToPackedBytes.induct with
  | case1 =>
    intro p hp
    simp only [nibblesToPackedBytes, Option.some.injEq] at hp
    subst hp
    rfl
  | case2 a =>
    intro p hp
    simp [nibblesToPackedBytes] at hp
  | case3 a b rest ih =>
    intro p hp
    simp only [nibblesToPackedBytes, Option.map_eq_some'] at hp
    obtain ⟨q, hq, rfl⟩ := hp
    simp only [List.length_cons]
    rw [ih q hq]
    omega

theorem encodeCompactPath_length (n : List Nat) (f : Bool) (e : List Nat)
    (h : encodeCompactPath n f = some e) : 2 * e.length ≤ n.length + 2 := by
  simp only [encodeCompactPath] at h
  split at h
  · split at h
    · have := nibblesToPackedBytes_length _ _ h
      simp only [List.length_cons] at this
      omega
    · have := nibblesToPackedBytes_length _ _ h
      simp only [List.length_cons] at this
      omega
  · exact absurd h (by simp)

/-- Structural validity of a `TrieNode` as built by the engine: a branch has
exactly 16 child slots, paths are nibble sequences, and every byte string is
small enough to be a JS `Uint8Array` (whose length is below `2 ^ 53`; we use
the RLP limit `2 ^ 59` as a generous bound). -/
def NodeOk : TrieNode → Prop
  | .branch children value =>
      children.length = 16 ∧ (∀ c ∈ children, c.length < 2 ^ 59) ∧ value.length < 2 ^ 59
  | .extension path child => NibbleOk path ∧ path.length < 2 ^ 59 ∧ child.length < 2 ^ 59
  | .leaf path value => NibbleOk path ∧ path.length < 2 ^ 59 ∧ value.length < 2 ^ 59

theorem flattenEnc_length_le (items : List (List Nat))
    (h : ∀ b ∈ items, b.length < 2 ^ 59) :
    ((items.map encBytes).flatten).length ≤ items.length * (2 ^ 59 + 9) := by
  induction items with
  | nil => simp
  | cons b bs ih =>
    have hb : b.length < 2 ^ 59 := h b (List.mem_cons_self b bs)
    have hbs : ∀ c ∈ bs, c.length < 2 ^ 59 := fun c hc => h c (List.mem_cons_of_mem b hc)
    have henc : (encBytes b).length ≤ b.length + 9 :=
      encBytes_length_le b (lt_trans hb (by norm_num))
    simp only [List.map_cons, List.flatten_cons, List.length_append, List.length_cons]
    have := ih hbs
    have hstep : (encBytes b).length ≤ 2 ^ 59 + 9 := by omega
    calc (encBytes b).length + ((bs.map encBytes).flatten).length
        ≤ (2 ^ 59 + 9) + bs.length * (2 ^ 59 + 9) := by omega
    _ = (bs.length + 1) * (2 ^ 59 + 9) := by ring

/-- C4 core: `decodeTrieNode` inverts `encodeTrieNode` on all three node
variants. -/
theorem decode_encode_node (n : TrieNode) (h : NodeOk n) :
    ∃ e, encodeTrieNode n = some e ∧ decodeTrieNode e = some n := by
  cases n with
  | branch children value =>
    obtain ⟨h16, hc, hv⟩ := h
    have hitems_len : (children ++ [value]).length = 17 := by simp [h16]
    have hitems_b60 : ∀ b ∈ children ++ [value], b.length < 2 ^ 59 := by
      intro b hbm
      rcases List.mem_append.mp hbm with hbm | hbm
      · exact hc b hbm
      · simp only [List.mem_singleton] at hbm
        subst hbm
        exact hv
    have hitems_bound : ∀ b ∈ children ++ [value], b.length < 2 ^ 64 :=
      fun b hbm => lt_trans (hitems_b60 b hbm) (by norm_num)
    have hpay : (((children ++ [value]).map encBytes).flatten).length < 2 ^ 64 := by
      have := flattenEnc_length_le (children ++ [value]) hitems_b60
      rw [hitems_len] at this
      calc (((children ++ [value]).map encBytes).flatten).length
          ≤ 17 * (2 ^ 59 + 9) := this
      _ < 2 ^ 64 := by norm_num
    refine ⟨encList (((children ++ [value]).map encBytes).flatten), ?_, ?_⟩
    · simp [encodeTrieNode, h16]
    · have hfuel : (children ++ [value]).length
          ≤ (((children ++ [value]).map encBytes).flatten).length :=
        parseItemsF_items_le _
      simp only [decodeTrieNode, rlpListPayload_enc _ hpay, Option.bind_eq_bind,
        Option.some_bind, parseItemsF_enc _ _ hitems_bound hfuel, hitems_len, if_true]
      rw [List.take_left' h16, List.drop_left' h16]
      simp
  | extension path child =>
    obtain ⟨hp, hplen, hclen⟩ := h
    obtain ⟨cp, hcp_enc, hcp_dec⟩ := compactPath_roundtrip path false hp
    have hcp_len : 2 * cp.length ≤ path.length + 2 := encodeCompactPath_length _ _ _ hcp_enc
    have hcp64 : cp.length < 2 ^ 64 := by omega
    have hc64 : child.length < 2 ^ 64 := lt_trans hclen (by norm_num)
    have hpay : (encBytes cp ++ encBytes child).length < 2 ^ 64 := by
      have h1 := encBytes_length_le cp hcp64
      have h2 := encBytes_length_le child hc64
      simp only [List.length_append]
      have h60 : (2 : Nat) ^ 60 < 2 ^ 64 := by norm_num
      omega
    have hitems : encBytes cp ++ encBytes child = (([cp, child]).map encBytes).flatten := by
      simp
    refine ⟨encList (encBytes cp ++ encBytes child), ?_, ?_⟩
    · simp [encodeTrieNode, hcp_enc]
    · have hbound : ∀ b ∈ [cp, child], b.length < 2 ^ 64 := by
        intro b hbm
        rcases List.mem_cons.mp hbm with hbm | hbm
        · subst hbm; exact hcp64
        · simp only [List.mem_singleton] at hbm
          subst hbm; exact hc64
      have hfuel : ([cp, child] : List (List Nat)).length
          ≤ ((([cp, child]).map encBytes).flatten).length := parseItemsF_items_le _
      rw [hitems] at hpay ⊢
      simp only [decodeTrieNode, rlpListPayload_enc _ hpay, Option.bind_eq_bind,
        Option.some_bind, parseItemsF_enc _ _ hbound hfuel]
      simp [hcp_dec]
  | leaf path value =>
    obtain ⟨hp, hplen, hvlen⟩ := h
    obtain ⟨cp, hcp_enc, hcp_dec⟩ := compactPath_roundtrip path true hp
    have hcp_len : 2 * cp.length ≤ path.length + 2 := encodeCompactPath_length _ _ _ hcp_enc
    have hcp64 : cp.length < 2 ^ 64 := by omega
    have hc64 : value.length < 2 ^ 64 := lt_trans hvlen (by norm_num)
    have hpay : (encBytes cp ++ encBytes value).length < 2 ^ 64 := by
      have h1 := encBytes_length_le cp hcp64
      have h2 := encBytes_length_le value hc64
      simp only [List.length_append]
      have h60 : (2 : Nat) ^ 60 < 2 ^ 64 := by norm_num
      omega
    have hitems : encBytes cp ++ encBytes value = (([cp, value]).map encBytes).flatten := by
      simp
    refine ⟨encList (encBytes cp ++ encBytes value), ?_, ?_⟩
    · simp [encodeTrieNode, hcp_enc]
    · have hbound : ∀ b ∈ [cp, value], b.length < 2 ^ 64 := by
        intro b hbm
        rcases List.mem_cons.mp hbm with hbm | hbm
        · subst hbm; exact hcp64
        · simp only [List.mem_singleton] at hbm
          subst hbm; exact hc64
      have hfuel : ([cp, value] : List (List Nat)).length
          ≤ ((([cp, value]).map encBytes).flatten).length := parseItemsF_items_le _
      rw [hitems] at hpay ⊢
      simp only [decodeTrieNode, rlpListPayload_enc _ hpay, Option.bind_eq_bind,
        Option.some_bind, parseItemsF_enc _ _ hbound hfuel]
      simp [hcp_dec]

/-! ## The in-memory KV store (`src/store/kv.ts`) -/

/-- `DbEntry` from `store/kv.ts`. -/
structure DbEntry where
  keyHex : List Char
  valueHex : List Char
  valueSize : Nat
  nodeType : NodeTag
  insertedAt : Nat
deriving DecidableEq, Repr

/-- `InMemoryKvStore` state. The source keeps a `Map` plus a separate
`insertionOrder` array and a `clock`; since rows are never deleted and every
key enters `insertionOrder` exactly once, a single association list kept in
insertion order represents both faithfully. -/
structure Db where
  rows : List DbEntry
  clock : Nat
deriving DecidableEq, Repr

def Db.empty : Db := { rows := [], clock := 0 }

/-- `InMemoryKvStore.get`. -/
def Db.get (db : Db) (keyHex : List Char) : Option (List Char) :=
  (db.rows.find? (fun e => e.keyHex == normalizeHex keyHex)).map (·.valueHex)

/-- The `{isNew, entry}` record returned by `InMemoryKvStore.put`. -/
structure PutResult where
  isNew : Bool
  entry : DbEntry
deriving DecidableEq, Repr

/-- `InMemoryKvStore.put`: an existing row is returned as-is apart from a
one-time `unknown → known` node-type upgrade; otherwise a fresh row is
appended, stamped with the current clock. -/
def Db.put (db : Db) (keyHex valueHex : List Char) (nodeType : NodeTag) :
    PutResult × Db :=
  let key := normalizeHex keyHex
  let value := normalizeHex valueHex
  match db.rows.find? (fun e => e.keyHex == key) with
  | some existing =>
    let upgraded :=
      if existing.nodeType = .unknown ∧ nodeType ≠ .unknown then
        { existing with nodeType := nodeType }
      else existing
    ({ isNew := false, entry := upgraded },
     { db with rows := db.rows.map (fun e => if e.keyHex == key then upgraded else e) })
  | none =>
    let entry : DbEntry :=
      { keyHex := key, valueHex := value, valueSize := bytesSizeFromHex value,
        nodeType := nodeType, insertedAt := db.clock }
    ({ isNew := true, entry := entry },
     { rows := db.rows ++ [entry], clock := db.clock + 1 })

/-- `InMemoryKvStore.entries`: rows in insertion order. -/
def Db.entries (db : Db) : List DbEntry := db.rows

/-- Store well-formedness: the clock dominates every stamp, rows are in
strictly increasing `insertedAt` order, and keys are unique. -/
def Db.WF (db : Db) : Prop :=
  (∀ e ∈ db.rows, e.insertedAt < db.clock) ∧
    db.rows.Pairwise (fun a b => a.insertedAt < b.insertedAt) ∧
    (db.rows.map (·.keyHex)).Nodup

instance (db : Db) : Decidable db.WF := by
  unfold Db.WF; infer_instance

theorem Db.empty_WF : Db.empty.WF := by
  refine ⟨?_, ?_, ?_⟩ <;> simp [Db.empty]

theorem pairwise_map_of_mem {α β : Type} {l : List α} {f : α → β}
    {R : β → β → Prop} {S : α → α → Prop} (h : l.Pairwise S)
    (hf : ∀ a ∈ l, ∀ b ∈ l, S a b → R (f a) (f b)) : (l.map f).Pairwise R := by
  induction l with
  | nil => simp
  | cons x xs ih =>
    rw [List.pairwise_cons] at h
    rw [List.map_cons, List.pairwise_cons]
    constructor
    · intro b hb
      obtain ⟨a, ha, rfl⟩ := List.mem_map.mp hb
      exact hf x (List.mem_cons_self x xs) a (List.mem_cons_of_mem x ha) (h.1 a ha)
    · exact ih h.2 (fun a ha b hb hS =>
        hf a (List.mem_cons_of_mem x ha) b (List.mem_cons_of_mem x hb) hS)

/-- With unique keys, any member sharing the key found by `find?` is that
very row. -/
theorem find?_key_unique {db : Db} {key : List Char} {existing : DbEntry}
    (hnd : (db.rows.map (·.keyHex)).Nodup)
    (hfind : db.rows.find? (fun e => e.keyHex == key) = some existing)
    {e : DbEntry} (he : e ∈ db.rows) (hk : e.keyHex = key) : e = existing := by
  have hmem : existing ∈ db.rows := List.mem_of_find?_eq_some hfind
  have hpred : existing.keyHex = key := by
    have := List.find?_some hfind
    simpa using this
  have hinj := List.inj_on_of_nodup_map hnd
  exact hinj he hmem (by rw [hk, hpred])

/-- C7 core: behaviour of a single `put` against a well-formed store. -/
theorem put_invariants (db : Db) (hwf : db.WF) (k v : List Char) (t : NodeTag) :
    ((db.put k v t).2.rows.length = db.rows.length ∨
      (db.put k v t).2.rows.length = db.rows.length + 1) ∧
    (∀ e ∈ db.rows, ∃ e' ∈ (db.put k v t).2.rows,
      e'.keyHex = e.keyHex ∧ e'.valueHex = e.valueHex ∧ e'.valueSize = e.valueSize ∧
      e'.insertedAt = e.insertedAt ∧
      (e'.nodeType = e.nodeType ∨
        (e.nodeType = .unknown ∧ t ≠ .unknown ∧ e'.nodeType = t))) ∧
    ((db.put k v t).1.isNew = true →
      ∀ e ∈ db.rows, e.insertedAt < (db.put k v t).1.entry.insertedAt) ∧
    (db.put k v t).2.WF := by
  obtain ⟨hclk, hpw, hnd⟩ := hwf
  unfold Db.put
  cases hfind : db.rows.find? (fun e => e.keyHex == normalizeHex k) with
  | some existing =>
    simp only [hfind]
    have hexmem : existing ∈ db.rows := List.mem_of_find?_eq_some hfind
    have hexkey : existing.keyHex = normalizeHex k := by
      have := List.find?_some hfind
      simpa using this
    set upgraded := if existing.nodeType = .unknown ∧ t ≠ .unknown then
        { existing with nodeType := t } else existing with hupg
    have hupg_key : upgraded.keyHex = existing.keyHex := by
      rw [hupg]; split <;> rfl
    have hupg_val : upgraded.valueHex = existing.valueHex := by
      rw [hupg]; split <;> rfl
    have hupg_size : upgraded.valueSize = existing.valueSize := by
      rw [hupg]; split <;> rfl
    have hupg_at : upgraded.insertedAt = existing.insertedAt := by
      rw [hupg]; split <;> rfl
    have hf_key : ∀ e ∈ db.rows,
        ((if e.keyHex == normalizeHex k then upgraded else e) : DbEntry).keyHex
          = e.keyHex := by
      intro e he
      split
      · rename_i hkk
        have : e = existing := find?_key_unique hnd hfind he (by simpa using hkk)
        rw [hupg_key, this]
      · rfl
    have hf_at : ∀ e ∈ db.rows,
        ((if e.keyHex == normalizeHex k then upgraded else e) : DbEntry).insertedAt
          = e.insertedAt := by
      intro e he
      split
      · rename_i hkk
        have : e = existing := find?_key_unique hnd hfind he (by simpa using hkk)
        rw [hupg_at, this]
      · rfl
    refine ⟨Or.inl (by simp), ?_, ?_, ?_, ?_, ?_⟩
    · -- every old row survives with its fields
      intro e he
      refine ⟨(if e.keyHex == normalizeHex k then upgraded else e), ?_, ?_⟩
      · exact List.mem_map_of_mem _ he
      · split
        · rename_i hkk
          have heq : e = existing := find?_key_unique hnd hfind he (by simpa using hkk)
          subst heq
          refine ⟨hupg_key, hupg_val, hupg_size, hupg_at, ?_⟩
          rw [hupg]
          split
          · rename_i hcond
            exact Or.inr ⟨hcond.1, hcond.2, rfl⟩
          · exact Or.inl rfl
        · exact ⟨rfl, rfl, rfl, rfl, Or.inl rfl⟩
    · -- isNew is false here
      intro hcontra
      simp at hcontra
    · -- clock still dominates
      intro e' he'
      obtain ⟨e, he, rfl⟩ := List.mem_map.mp he'
      rw [hf_at e he]
      exact hclk e he
    · -- still sorted by insertedAt
      refine pairwise_map_of_mem hpw ?_
      intro a ha b hb hS
      rw [hf_at a ha, hf_at b hb]
      exact hS
    · -- keys still unique
      rw [List.map_map]
      have : db.rows.map ((·.keyHex) ∘ fun e =>
          if e.keyHex == normalizeHex k then upgraded else e) = db.rows.map (·.keyHex) :=
        List.map_congr_left (fun e he => hf_key e he)
      rw [this]
      exact hnd
  | none =>
    simp only [hfind]
    have hnotin : ∀ e ∈ db.rows, ¬ (e.keyHex = normalizeHex k) := by
      intro e he
      have := List.find?_eq_none.mp hfind e he
      simpa using this
    refine ⟨Or.inr (by simp), ?_, ?_, ?_, ?_, ?_⟩
    · intro e he
      exact ⟨e, List.mem_append_left _ he, rfl, rfl, rfl, rfl, Or.inl rfl⟩
    · intro _ e he
      exact hclk e he
    · intro e he
      rcases List.mem_append.mp he with he | he
      · exact lt_trans (hclk e he) (Nat.lt_succ_self _)
      · simp only [List.mem_singleton] at he
        subst he
        exact Nat.lt_succ_self _
    · rw [List.pairwise_append]
      refine ⟨hpw, by simp, ?_⟩
      intro a ha b hb
      simp only [List.mem_singleton] at hb
      subst hb
      exact hclk a ha
    · rw [List.map_append, List.nodup_append]
      refine ⟨hnd, by simp, ?_⟩
      intro x hx
      obtain ⟨e, he, rfl⟩ := List.mem_map.mp hx
      simp only [List.map_cons, List.map_nil, List.mem_singleton]
      exact fun hc => hnotin e he hc

/-! ## The trie engine (`trie.ts`)

The engine threads an explicit state `St` (the mutable KV store, the
optional per-call cache, and a ghost `clean` flag recording the value
returned by `db.put` — present in the source, discarded by the caller —
which is `true` as long as every hash-keyed write was either fresh or
byte-identical to the existing row). The JS recursion is modelled with a
fuel parameter; trace events and the `consumed` bookkeeping that only feeds
them are not modelled (the `consumed` parameter is kept for signature
fidelity). `keccak` (external collaborator) is a function parameter. -/

/-- `RLP_EMPTY_STRING` from `crypto.ts`: the canonical empty serialization. -/
def RLP_EMPTY_STRING : List Nat := [0x80]

/-- `EMPTY_TRIE_ROOT` from `crypto.ts`. -/
def EMPTY_TRIE_ROOT (keccak : List Nat → List Nat) : List Nat :=
  keccak RLP_EMPTY_STRING

/-- `nodeIdFromRef` from `nodeCodec.ts`. -/
def nodeIdFromRef (keccak : List Nat → List Nat) (ref : List Nat) : List Char :=
  if ref.length = 0 then String.toList "empty"
  else if ref.length = 32 then bytesToHex ref
  else String.toList "embedded:" ++ (bytesToHex (keccak ref) false).take 24

/-- `nibblesToString` from `bytes.ts`. -/
def nibblesToString (nibbles : List Nat) : List Char :=
  (nibbles.map (Nat.toDigits 16)).flatten

/-- Engine state: the store plus the per-call resolution cache (the source's
`options.cache` with `options.useCache`; a `none` cache is folded into
`useCache = false`) and the ghost cleanliness flag. -/
structure St where
  db : Db
  cache : List (List Char × List Nat)
  useCache : Bool
  clean : Bool
deriving Repr, DecidableEq

def cacheGet (c : List (List Char × List Nat)) (k : List Char) : Option (List Nat) :=
  (c.find? (fun p => p.1 == k)).map (fun p => p.2)

def cacheSet (c : List (List Char × List Nat)) (k : List Char) (v : List Nat) :
    List (List Char × List Nat) :=
  if (c.find? (fun p => p.1 == k)).isSome then
    c.map (fun p => if p.1 == k then (k, v) else p)
  else c ++ [(k, v)]

/-- `ResolvedNode` from `trie.ts`. -/
structure ResolvedNode where
  node : TrieNode
  rlp : List Nat
  id : List Char
deriving Repr, DecidableEq

/-- `FinalizedNode` from `trie.ts`. -/
structure FinalizedNode where
  ref : List Nat
  id : List Char
deriving Repr, DecidableEq

/-- `resolveNode` from `trie.ts`: a 32-byte ref is looked up in the cache
and then the store (throwing on a miss); a shorter ref is its own bytes;
either way the bytes are decoded. No integrity check relates the fetched
bytes to the hash. -/
def resolveNode (keccak : List Nat → List Nat) (ref : List Nat) (st : St) :
    Option (ResolvedNode × St) :=
  if ref.length = 32 then
    let keyHex := bytesToHex ref
    match (if st.useCache then cacheGet st.cache keyHex else none) with
    | some rlp =>
      (decodeTrieNode rlp).map
        (fun node => ({ node := node, rlp := rlp, id := nodeIdFromRef keccak ref }, st))
    | none =>
      match st.db.get keyHex with
      | none => none
      | some dbHex =>
        let rlp := hexToBytes dbHex
        let st' := if st.useCache then { st with cache := cacheSet st.cache keyHex rlp }
          else st
        (decodeTrieNode rlp).map
          (fun node => ({ node := node, rlp := rlp, id := nodeIdFromRef keccak ref }, st'))
  else
    (decodeTrieNode ref).map
      (fun node => ({ node := node, rlp := ref, id := nodeIdFromRef keccak ref }, st))

/-- `finalizeNode` from `trie.ts`: serialize; under 32 bytes the bytes are
the ref (no store write); otherwise hash, write `hash -> bytes` to the
store, update the cache, and return the hash. The ghost `clean` flag
records `put`'s result. -/
def finalizeNode (keccak : List Nat → List Nat) (node : TrieNode) (st : St) :
    Option (FinalizedNode × St) :=
  match encodeTrieNode node with
  | none => none
  | some rlp =>
    if rlp.length < 32 then
      some ({ ref := rlp, id := nodeIdFromRef keccak rlp }, st)
    else
      let hash := keccak rlp
      let keyHex := bytesToHex hash
      let pr := st.db.put keyHex (bytesToHex rlp) node.tag
      let cache' := if st.useCache then cacheSet st.cache keyHex rlp else st.cache
      let clean' := st.clean && (pr.1.isNew || pr.1.entry.valueHex == bytesToHex rlp)
      some ({ ref := hash, id := keyHex },
        { db := pr.2, cache := cache', useCache := st.useCache, clean := clean' })

/-- `InsertOutcome` from `trie.ts`. -/
structure InsertOutcome where
  rootRef : List Nat
  changedNodeIds : List (List Char)
deriving Repr, DecidableEq

/-- `LookupOutcome` from `trie.ts`. -/
structure LookupOutcome where
  found : Bool
  value : Option (List Nat)
  mismatchReason : Option (List Char)
deriving Repr, DecidableEq

/-- `emptyBranch` from `trie.ts`. -/
def emptyBranch (value : List Nat := EMPTY_BYTES) : TrieNode :=
  .branch (List.replicate 16 EMPTY_BYTES) value

/-- `cloneChildren` from `trie.ts` (cloning is the identity on values). -/
def cloneChildren (children : List (List Nat)) : List (List Nat) :=
  children.map (fun child => if child.length = 0 then EMPTY_BYTES else child)

/-- `insertAt` from `trie.ts`, fuelled (`none` on fuel exhaustion models the
unbounded JS recursion; `key.length + 1` units suffice on well-formed
tries). The split of an extension whose whole path was already consumed is
unreachable (`shared < path.length` guarantees a non-empty remainder) and is
mapped to `none`. -/
def insertAt (keccak : List Nat → List Nat) :
    Nat → List Nat → List Nat → List Nat → Nat → St → Option (InsertOutcome × St)
  | 0, _, _, _, _, _ => none
  | fuel + 1, ref, key, value, consumed, st =>
    if ref.length = 0 then
      (finalizeNode keccak (.leaf key value) st).map
        (fun r => ({ rootRef := r.1.ref, changedNodeIds := [r.1.id] }, r.2))
    else do
      let (resolved, st₁) ← resolveNode keccak ref st
      match resolved.node with
      | .leaf lpath lvalue =>
        let shared := commonPrefixLength lpath key
        if shared = lpath.length ∧ shared = key.length then do
          let (updated, st₂) ← finalizeNode keccak (.leaf lpath value) st₁
          pure ({ rootRef := updated.ref, changedNodeIds := [updated.id] }, st₂)
        else do
          let (bval₀, ch₀, changed₀, st₂) ←
            match lpath.drop shared with
            | [] =>
              some (lvalue, List.replicate 16 EMPTY_BYTES, ([] : List (List Char)), st₁)
            | oldIndex :: oldRest => do
              let (oldLeaf, st₂) ← finalizeNode keccak (.leaf oldRest lvalue) st₁
              pure (EMPTY_BYTES, (List.replicate 16 EMPTY_BYTES).set oldIndex oldLeaf.ref,
                [oldLeaf.id], st₂)
          let (bval₁, ch₁, changed₁, st₃) ←
            match key.drop shared with
            | [] => some (value, ch₀, changed₀, st₂)
            | newIndex :: newRest => do
              let (newLeaf, st₃) ← finalizeNode keccak (.leaf newRest value) st₂
              pure (bval₀, ch₀.set newIndex newLeaf.ref, changed₀ ++ [newLeaf.id], st₃)
          let (branchFinal, st₄) ← finalizeNode keccak (.branch ch₁ bval₁) st₃
          if 0 < shared then do
            let (extFinal, st₅) ←
              finalizeNode keccak (.extension (key.take shared) branchFinal.ref) st₄
            pure ({ rootRef := extFinal.ref,
                    changedNodeIds := changed₁ ++ [branchFinal.id] ++ [extFinal.id] }, st₅)
          else
            pure ({ rootRef := branchFinal.ref,
                    changedNodeIds := changed₁ ++ [branchFinal.id] }, st₄)
      | .extension epath echild =>
        let shared := commonPrefixLength epath key
        if shared = epath.length then do
          let (childInsert, st₂) ←
            insertAt keccak fuel echild (key.drop shared) value (consumed + shared) st₁
          let (rebuilt, st₃) ←
            finalizeNode keccak (.extension epath childInsert.rootRef) st₂
          pure ({ rootRef := rebuilt.ref,
                  changedNodeIds := childInsert.changedNodeIds ++ [rebuilt.id] }, st₃)
        else do
          match epath.drop shared with
          | [] => none
          | oldIndex :: oldRest => do
            let (ch₀, changed₀, st₂) ←
              if oldRest.length = 0 then
                some ((List.replicate 16 EMPTY_BYTES).set oldIndex echild,
                  ([] : List (List Char)), st₁)
              else do
                let (oldExt, st₂) ← finalizeNode keccak (.extension oldRest echild) st₁
                pure ((List.replicate 16 EMPTY_BYTES).set oldIndex oldExt.ref,
                  [oldExt.id], st₂)
            let (bval₁, ch₁, changed₁, st₃) ←
              match key.drop shared with
              | [] => some (value, ch₀, changed₀, st₂)
              | newIndex :: newRest => do
                let (newLeaf, st₃) ← finalizeNode keccak (.leaf newRest value) st₂
                pure (EMPTY_BYTES, ch₀.set newIndex newLeaf.ref,
                  changed₀ ++ [newLeaf.id], st₃)
            let (branchFinal, st₄) ← finalizeNode keccak (.branch ch₁ bval₁) st₃
            if 0 < shared then do
              let (extFinal, st₅) ←
                finalizeNode keccak (.extension (key.take shared) branchFinal.ref) st₄
              pure ({ rootRef := extFinal.ref,
                      changedNodeIds := changed₁ ++ [branchFinal.id] ++ [extFinal.id] }, st₅)
            else
              pure ({ rootRef := branchFinal.ref,
                      changedNodeIds := changed₁ ++ [branchFinal.id] }, st₄)
      | .branch bchildren bvalue =>
        let nextChildren := cloneChildren bchildren
        let nextValue := if bvalue.length = 0 then EMPTY_BYTES else bvalue
        match key with
        | [] => do
          let (rebuilt, st₂) ← finalizeNode keccak (.branch nextChildren value) st₁
          pure ({ rootRef := rebuilt.ref, changedNodeIds := [rebuilt.id] }, st₂)
        | index :: keyRest => do
          let (childUpdate, st₂) ←
            insertAt keccak fuel (nextChildren.getD index EMPTY_BYTES) keyRest value
              (consumed + 1) st₁
          let (rebuilt, st₃) ←
            finalizeNode keccak (.branch (nextChildren.set index childUpdate.rootRef) nextValue)
              st₂
          pure ({ rootRef := rebuilt.ref,
                  changedNodeIds := childUpdate.changedNodeIds ++ [rebuilt.id] }, st₃)

/-- `insertKeyValue` from `trie.ts` (fuel `key.length + 1`: one unit per
recursive call, each of which consumes at least one key nibble on
well-formed tries). -/
def insertKeyValue (keccak : List Nat → List Nat) (rootRef key value : List Nat)
    (st : St) : Option (InsertOutcome × St) :=
  insertAt keccak (key.length + 1) rootRef key value 0 st

/-- `lookupAt` from `trie.ts`, fuelled like `insertAt`. -/
def lookupAt (keccak : List Nat → List Nat) :
    Nat → List Nat → List Nat → Nat → St → Option (LookupOutcome × St)
  | 0, _, _, _, _ => none
  | fuel + 1, ref, key, consumed, st =>
    if ref.length = 0 then
      some ({ found := false, value := none,
              mismatchReason := some (String.toList "Missing child reference") }, st)
    else do
      let (resolved, st₁) ← resolveNode keccak ref st
      match resolved.node with
      | .leaf lpath lvalue =>
        if equalBytes lpath key then
          some ({ found := true, value := some lvalue, mismatchReason := none }, st₁)
        else
          some ({ found := false, value := none,
                  mismatchReason := some (String.toList "Leaf mismatch (expected "
                    ++ nibblesToString lpath ++ String.toList ", got "
                    ++ nibblesToString key ++ String.toList ")") }, st₁)
      | .extension epath echild =>
        if nibblesStartWith key epath then
          lookupAt keccak fuel echild (key.drop epath.length) (consumed + epath.length) st₁
        else
          some ({ found := false, value := none,
                  mismatchReason := some (String.toList "Extension mismatch at path "
                    ++ nibblesToString epath) }, st₁)
      | .branch bchildren bvalue =>
        match key with
        | [] =>
          if bvalue.length = 0 then
            some ({ found := false, value := none,
                    mismatchReason := some (String.toList "Branch value slot empty") }, st₁)
          else
            some ({ found := true, value := some bvalue, mismatchReason := none }, st₁)
        | index :: keyRest =>
          lookupAt keccak fuel (bchildren.getD index EMPTY_BYTES) keyRest (consumed + 1) st₁

/-- `lookupKey` from `trie.ts`. -/
def lookupKey (keccak : List Nat → List Nat) (rootRef key : List Nat) (st : St) :
    Option (LookupOutcome × St) :=
  lookupAt keccak (key.length + 1) rootRef key 0 st

/-- `RootDisplay` from `types.ts` (the fields `describeRoot` populates). -/
structure RootDisplay where
  isEmpty : Bool
  isEmbedded : Bool
  rootRefHex : List Char
  commitmentHex : List Char
deriving DecidableEq, Repr

/-- `describeRoot` from `trie.ts`. -/
def describeRoot (keccak : List Nat → List Nat) (rootRef : List Nat) : RootDisplay :=
  if rootRef.length = 0 then
    { isEmpty := true, isEmbedded := false, rootRefHex := ['0', 'x'],
      commitmentHex := bytesToHex (EMPTY_TRIE_ROOT keccak) }
  else if rootRef.length < 32 then
    { isEmpty := false, isEmbedded := true, rootRefHex := bytesToHex rootRef,
      commitmentHex := bytesToHex (keccak rootRef) }
  else
    { isEmpty := false, isEmbedded := false, rootRefHex := bytesToHex rootRef,
      commitmentHex := bytesToHex rootRef }

/-- `resolveNodeWithoutTrace` from `trie.ts`. -/
def resolveNodeWithoutTrace (keccak : List Nat → List Nat) (ref : List Nat)
    (db : Db) : Option ResolvedNode :=
  if ref.length = 0 then none
  else
    let rlp := if ref.length = 32 then hexToBytes ((db.get (bytesToHex ref)).getD [])
      else ref
    if rlp.length = 0 then none
    else (decodeTrieNode rlp).map
      (fun node => { node := node, rlp := rlp, id := nodeIdFromRef keccak ref })

/-! ## Engine frame lemmas -/

/-- `resolveNode` never touches the store (it may only fill the cache). -/
theorem resolveNode_frame (keccak : List Nat → List Nat) (ref : List Nat) (st : St)
    (r : ResolvedNode) (st' : St) (h : resolveNode keccak ref st = some (r, st')) :
    st'.db = st.db ∧ st'.useCache = st.useCache ∧ st'.clean = st.clean := by
  unfold resolveNode at h
  by_cases h32 : ref.length = 32
  · rw [if_pos h32] at h
    cases hcu : st.useCache with
    | false =>
      simp only [hcu, Bool.false_eq_true, if_false] at h
      cases hdb : st.db.get (bytesToHex ref) with
      | none => simp [hdb] at h
      | some dbHex =>
        simp only [hdb, Bool.false_eq_true, if_false, Option.map_eq_some'] at h
        obtain ⟨node, hnode, heq⟩ := h
        injection heq with hr hs
        rw [← hs]
        exact ⟨rfl, hcu, rfl⟩
    | true =>
      simp only [hcu, if_true] at h
      cases hcg : cacheGet st.cache (bytesToHex ref) with
      | some rlp =>
        simp only [hcg, Option.map_eq_some'] at h
        obtain ⟨node, hnode, heq⟩ := h
        injection heq with hr hs
        rw [← hs]
        exact ⟨rfl, hcu, rfl⟩
      | none =>
        simp only [hcg] at h
        cases hdb : st.db.get (bytesToHex ref) with
        | none => simp [hdb] at h
        | some dbHex =>
          simp only [hdb, if_true, Option.map_eq_some'] at h
          obtain ⟨node, hnode, heq⟩ := h
          injection heq with hr hs
          rw [← hs]
          exact ⟨rfl, rfl, rfl⟩
  · rw [if_neg h32] at h
    simp only [Option.map_eq_some'] at h
    obtain ⟨node, hnode, heq⟩ := h
    injection heq with hr hs
    rw [← hs]
    exact ⟨rfl, rfl, rfl⟩

/-- With the cache off, `resolveNode` leaves the whole state unchanged. -/
theorem resolveNode_state_eq (keccak : List Nat → List Nat) (ref : List Nat) (st : St)
    (r : ResolvedNode) (st' : St) (hnc : st.useCache = false)
    (h : resolveNode keccak ref st = some (r, st')) : st' = st := by
  unfold resolveNode at h
  by_cases h32 : ref.length = 32
  · rw [if_pos h32] at h
    simp only [hnc, Bool.false_eq_true, if_false] at h
    cases hdb : st.db.get (bytesToHex ref) with
    | none => simp [hdb] at h
    | some dbHex =>
      simp only [hdb, Bool.false_eq_true, if_false, Option.map_eq_some'] at h
      obtain ⟨node, hnode, heq⟩ := h
      injection heq with hr hs
      exact hs.symm
  · rw [if_neg h32] at h
    simp only [Option.map_eq_some'] at h
    obtain ⟨node, hnode, heq⟩ := h
    injection heq with hr hs
    exact hs.symm

/-- `lookupAt` never mutates the store, at any fuel. -/
theorem lookupAt_db_frame (keccak : List Nat → List Nat) :
    ∀ (fuel : Nat) (ref key : List Nat) (consumed : Nat) (st : St)
      (out : LookupOutcome) (st' : St),
      lookupAt keccak fuel ref key consumed st = some (out, st') → st'.db = st.db := by
  intro fuel
  induction fuel with
  | zero => intro ref key consumed st out st' h; simp [lookupAt] at h
  | succ f ih =>
    intro ref key consumed st out st' h
    rw [lookupAt] at h
    split at h
    · simp only [Option.some.injEq, Prod.mk.injEq] at h
      rw [← h.2]
    · simp only [Option.bind_eq_bind, Option.bind_eq_some] at h
      obtain ⟨⟨resolved, st₁⟩, hres, h⟩ := h
      have hdb₁ : st₁.db = st.db := (resolveNode_frame _ _ _ _ _ hres).1
      split at h
      · -- leaf
        split at h <;>
          · simp only [Option.some.injEq, Prod.mk.injEq] at h
            rw [← h.2, hdb₁]
      · -- extension
        split at h
        · exact (ih _ _ _ _ _ _ h).trans hdb₁
        · simp only [Option.some.injEq, Prod.mk.injEq] at h
          rw [← h.2, hdb₁]
      · -- branch
        split at h
        · -- key exhausted
          split at h <;>
            · simp only [Option.some.injEq, Prod.mk.injEq] at h
              rw [← h.2, hdb₁]
        · exact (ih _ _ _ _ _ _ h).trans hdb₁

/-! ## Mock hash for witnesses -/

/-- A stand-in for the external `keccak` used by concrete witnesses: pad and
truncate to 32 bytes. -/
def mockKeccak (b : List Nat) : List Nat :=
  ((b.map (fun x => x % 256)) ++ List.replicate 32 0).take 32

theorem mockKeccak_len (b : List Nat) : (mockKeccak b).length = 32 := by
  simp only [mockKeccak, List.length_take, List.length_append, List.length_map,
    List.length_replicate]
  omega

theorem mockKeccak_ByteOk (b : List Nat) : ByteOk (mockKeccak b) := by
  intro x hx
  have hx' := List.mem_of_mem_take hx
  rcases List.mem_append.mp hx' with hm | hm
  · obtain ⟨y, _, rfl⟩ := List.mem_map.mp hm
    exact Nat.mod_lt y (by norm_num)
  · have := List.eq_of_mem_replicate hm
    subst this
    norm_num

/-! ## Claims C3 and C4 -/

/-- C3: For every nibble sequence `n` whose elements are all integers in
0–15 and every boolean `f`, `decodeCompactPath (encodeCompactPath n f)`
returns exactly `(n, f)`; this includes the empty sequence and both odd and
even lengths. -/
theorem claim_C3_compact_roundtrip (n : List Nat) (f : Bool) (hv : NibbleOk n) :
    ∃ e, encodeCompactPath n f = some e ∧ decodeCompactPath e = some (n, f) :=
  compactPath_roundtrip n f hv

theorem claim_C3_witness :
    (∃ e, encodeCompactPath [1, 2, 3] true = some e
      ∧ decodeCompactPath e = some ([1, 2, 3], true))
    ∧ (∃ e, encodeCompactPath [] false = some e ∧ decodeCompactPath e = some ([], false))
    ∧ (∃ e, encodeCompactPath [0xa, 0xb] false = some e
      ∧ decodeCompactPath e = some ([0xa, 0xb], false)) :=
  ⟨claim_C3_compact_roundtrip [1, 2, 3] true (by decide),
   claim_C3_compact_roundtrip [] false (by decide),
   claim_C3_compact_roundtrip [0xa, 0xb] false (by decide)⟩

/-- C4: For every `TrieNode` of any of the three variants (a branch with
exactly 16 child-ref slots plus a value, an extension with a valid nibble
path and a child ref, a leaf with a valid nibble path and a value — byte
strings being `Uint8Array`-sized), `decodeTrieNode (encodeTrieNode n)` is
structurally equal to `n`. -/
theorem claim_C4_node_roundtrip (n : TrieNode) (h : NodeOk n) :
    ∃ e, encodeTrieNode n = some e ∧ decodeTrieNode e = some n :=
  decode_encode_node n h

/-- C7: once a row exists under a key, any later `put` on that key leaves the
row's `keyHex`, `valueHex`, `valueSize` and `insertedAt` unchanged and
changes `nodeType` only from `unknown` to the supplied known type; rows are
never deleted by `put`; every newly created row receives an `insertedAt`
strictly greater than that of all rows created before it; and `entries()`
order agrees with increasing `insertedAt`. -/
theorem claim_C7_put_invariant (db : Db) (hwf : db.WF) (k v : List Char) (t : NodeTag) :
    ((db.put k v t).2.rows.length = db.rows.length ∨
      (db.put k v t).2.rows.length = db.rows.length + 1) ∧
    (∀ e ∈ db.rows, ∃ e' ∈ (db.put k v t).2.rows,
      e'.keyHex = e.keyHex ∧ e'.valueHex = e.valueHex ∧ e'.valueSize = e.valueSize ∧
      e'.insertedAt = e.insertedAt ∧
      (e'.nodeType = e.nodeType ∨
        (e.nodeType = .unknown ∧ t ≠ .unknown ∧ e'.nodeType = t))) ∧
    ((db.put k v t).1.isNew = true →
      ∀ e ∈ db.rows, e.insertedAt < (db.put k v t).1.entry.insertedAt) ∧
    (db.put k v t).2.entries.Pairwise (fun a b => a.insertedAt < b.insertedAt) ∧
    (db.put k v t).2.WF := by
  obtain ⟨h1, h2, h3, h4⟩ := put_invariants db hwf k v t
  exact ⟨h1, h2, h3, h4.2.1, h4⟩

/-- A one-row concrete store used by the C7 witness. -/
def dbC7 : Db where
  rows := [⟨['0', 'x', 'a', 'a'], ['0', 'x', '0', '1'], 1, NodeTag.unknown, 0⟩]
  clock := 1

theorem claim_C7_witness :
    dbC7.WF ∧
    (∀ e ∈ dbC7.rows, e.insertedAt <
      (dbC7.put ['0', 'x', 'b', 'b'] ['0', 'x', '0', '2'] NodeTag.leaf).1.entry.insertedAt) := by
  refine ⟨by decide, ?_⟩
  have h := claim_C7_put_invariant dbC7 (by decide) ['0', 'x', 'b', 'b']
    ['0', 'x', '0', '2'] NodeTag.leaf
  exact h.2.2.1 (by decide)

theorem claim_C4_witness :
    (∃ e, encodeTrieNode (.leaf [1, 2] [0xab, 0xcd]) = some e
      ∧ decodeTrieNode e = some (.leaf [1, 2] [0xab, 0xcd]))
    ∧ (∃ e, encodeTrieNode (.extension [7] [0xc2, 0x31, 0x80]) = some e
      ∧ decodeTrieNode e = some (.extension [7] [0xc2, 0x31, 0x80]))
    ∧ (∃ e, encodeTrieNode (.branch (List.replicate 16 []) [0x01]) = some e
      ∧ decodeTrieNode e = some (.branch (List.replicate 16 []) [0x01])) :=
  ⟨claim_C4_node_roundtrip _ ⟨by decide, by norm_num, by norm_num⟩,
   claim_C4_node_roundtrip _ ⟨by decide, by norm_num, by norm_num⟩,
   claim_C4_node_roundtrip _
     ⟨by decide, by intro c hc; simp at hc; simp [hc], by norm_num⟩⟩

/-! ## A pure functional mirror of the stored trie

`PTrie` is the tree a root reference denotes once every reference is
resolved; `Den` is the key → value map it represents (mirroring `lookupAt`'s
semantics, including "an empty branch value slot means absent"); `pinsert`
mirrors `insertAt`'s case analysis. The engine is then proved to refine
`pinsert`/`Den`. -/

inductive PTrie
  | pempty
  | pleaf (path : List Nat) (value : List Nat)
  | pext (path : List Nat) (child : PTrie)
  | pbranch (children : Nat → PTrie) (value : List Nat)

open PTrie in
/-- Denotation: the partial map from nibble keys to values. -/
def Den : PTrie → List Nat → Option (List Nat)
  | pempty, _ => none
  | pleaf p v, k => if k = p then some v else none
  | pext p c, k => if p <+: k then Den c (k.drop p.length) else none
  | pbranch _ v, [] => if v = [] then none else some v
  | pbranch ch _, i :: rest => Den (ch i) rest

/-- Point update of a branch's children. -/
def chUpd (ch : Nat → PTrie) (i : Nat) (t : PTrie) : Nat → PTrie :=
  fun j => if j = i then t else ch j

/-- All-empty children. -/
def chEmpty : Nat → PTrie := fun _ => .pempty

open PTrie in
/-- Pure mirror of `insertAt`'s case analysis. -/
def pinsert : PTrie → List Nat → List Nat → PTrie
  | pempty, key, v => pleaf key v
  | pleaf p lv, key, v =>
    let shared := commonPrefixLength p key
    if shared = p.length ∧ shared = key.length then pleaf p v
    else
      let step1 := match p.drop shared with
        | [] => (lv, chEmpty)
        | oi :: orest => (EMPTY_BYTES, chUpd chEmpty oi (pleaf orest lv))
      let step2 := match key.drop shared with
        | [] => (v, step1.2)
        | ni :: nrest => (step1.1, chUpd step1.2 ni (pleaf nrest v))
      let br := pbranch step2.2 step2.1
      if 0 < shared then pext (key.take shared) br else br
  | pext p c, key, v =>
    let shared := commonPrefixLength p key
    if shared = p.length then pext p (pinsert c (key.drop shared) v)
    else
      match p.drop shared with
      | [] => pempty
      | oi :: orest =>
        let slot := if orest.length = 0 then c else pext orest c
        let step1 := chUpd chEmpty oi slot
        let step2 := match key.drop shared with
          | [] => (v, step1)
          | ni :: nrest => (EMPTY_BYTES, chUpd step1 ni (pleaf nrest v))
        let br := pbranch step2.2 step2.1
        if 0 < shared then pext (key.take shared) br else br
  | pbranch ch _, [], v => pbranch ch v
  | pbranch ch bv, i :: rest, v => pbranch (chUpd ch i (pinsert (ch i) rest v)) bv

open PTrie in
/-- Structural well-formedness with `Uint8Array` size bounds. -/
def WFS : PTrie → Prop
  | pempty => True
  | pleaf p v => NibbleOk p ∧ p.length < 2 ^ 59 ∧ ByteOk v ∧ v.length < 2 ^ 59
  | pext p c => p ≠ [] ∧ NibbleOk p ∧ p.length < 2 ^ 59 ∧ WFS c
  | pbranch ch v => ByteOk v ∧ v.length < 2 ^ 59 ∧
      (∀ i, 16 ≤ i → ch i = pempty) ∧ (∀ i, WFS (ch i))

open PTrie in
/-- Every stored value is non-empty (an empty branch value slot means
"absent", so empty values cannot round-trip through the trie). -/
def WFV : PTrie → Prop
  | pempty => True
  | pleaf _ v => v ≠ []
  | pext _ c => WFV c
  | pbranch ch _ => ∀ i, WFV (ch i)

/-! ### `commonPrefixLength` facts -/

theorem cpl_le_left (a b : List Nat) : commonPrefixLength a b ≤ a.length := by
  induction a generalizing b with
  | nil => simp [commonPrefixLength]
  | cons x xs ih =>
    cases b with
    | nil => simp [commonPrefixLength]
    | cons y ys =>
      by_cases hxy : x = y
      · simp only [commonPrefixLength, if_pos hxy, List.length_cons]
        exact Nat.succ_le_succ (ih ys)
      · simp [commonPrefixLength, hxy]

theorem cpl_le_right (a b : List Nat) : commonPrefixLength a b ≤ b.length := by
  induction a generalizing b with
  | nil => simp [commonPrefixLength]
  | cons x xs ih =>
    cases b with
    | nil => simp [commonPrefixLength]
    | cons y ys =>
      by_cases hxy : x = y
      · simp only [commonPrefixLength, if_pos hxy, List.length_cons]
        exact Nat.succ_le_succ (ih ys)
      · simp [commonPrefixLength, hxy]

theorem cpl_take (a b : List Nat) :
    a.take (commonPrefixLength a b) = b.take (commonPrefixLength a b) := by
  induction a generalizing b with
  | nil => simp [commonPrefixLength]
  | cons x xs ih =>
    cases b with
    | nil => simp [commonPrefixLength]
    | cons y ys =>
      by_cases hxy : x = y
      · subst hxy
        simp [commonPrefixLength, List.take_succ_cons, ih ys]
      · simp [commonPrefixLength, hxy]

theorem cpl_eq_left_iff (a b : List Nat) :
    commonPrefixLength a b = a.length ↔ a <+: b := by
  induction a generalizing b with
  | nil => simp [commonPrefixLength]
  | cons x xs ih =>
    cases b with
    | nil =>
      simp [commonPrefixLength]
    | cons y ys =>
      by_cases hxy : x = y
      · subst hxy
        simp only [commonPrefixLength, if_true, List.length_cons, Nat.succ_inj,
          List.cons_prefix_cons, true_and, eq_self_iff_true]
        exact ih ys
      · simp only [commonPrefixLength, if_neg hxy, List.length_cons,
          List.cons_prefix_cons]
        constructor
        · intro h
          omega
        · intro ⟨h1, _⟩
          exact absurd h1 hxy

/-- Maximality: right after the common prefix the two lists differ. -/
theorem cpl_heads_ne (a b : List Nat) (x y : Nat) (xs ys : List Nat)
    (ha : a.drop (commonPrefixLength a b) = x :: xs)
    (hb : b.drop (commonPrefixLength a b) = y :: ys) : x ≠ y := by
  induction a generalizing b with
  | nil => simp [commonPrefixLength] at ha
  | cons p ps ih =>
    cases b with
    | nil => simp [commonPrefixLength] at hb
    | cons q qs =>
      by_cases hpq : p = q
      · simp only [commonPrefixLength, if_pos hpq, List.drop_succ_cons] at ha hb
        exact ih qs ha hb
      · simp only [commonPrefixLength, if_neg hpq, List.drop_zero] at ha hb
        injection ha with ha1 _
        injection hb with hb1 _
        subst ha1
        subst hb1
        exact hpq

/-! ### The pure insert/lookup law -/

theorem eq_iff_drop_eq {s : Nat} {x y : List Nat} (hx : x.take s = y.take s) :
    x = y ↔ x.drop s = y.drop s := by
  constructor
  · intro h; rw [h]
  · intro h
    calc x = x.take s ++ x.drop s := (List.take_append_drop s x).symm
    _ = y.take s ++ y.drop s := by rw [hx, h]
    _ = y := List.take_append_drop s y

theorem take_take_of_prefix {s : Nat} {k k' : List Nat} (hsk : s ≤ k.length)
    (hpre : k.take s <+: k') : k'.take s = k.take s := by
  have h := List.prefix_iff_eq_take.mp hpre
  rw [List.length_take] at h
  rw [show min s k.length = s by omega] at h
  exact h.symm

theorem Den_ext_take (B : PTrie) (k : List Nat) (s : Nat) (hsk : s ≤ k.length)
    (k' : List Nat) :
    Den (if 0 < s then .pext (k.take s) B else B) k'
      = if k.take s <+: k' then Den B (k'.drop s) else none := by
  by_cases h0 : 0 < s
  · rw [if_pos h0]
    show (if k.take s <+: k' then Den B (k'.drop (k.take s).length) else none) = _
    rw [List.length_take, show min s k.length = s by omega]
  · rw [if_neg h0]
    have hs0 : s = 0 := by omega
    subst hs0
    simp

/-- The denotation of a pure insert: the updated map. -/
theorem Den_pinsert (v : List Nat) (hvne : v ≠ []) :
    ∀ (t : PTrie) (k k' : List Nat), WFS t → WFV t → NibbleOk k →
      Den (pinsert t k v) k' = if k' = k then some v else Den t k' := by
  intro t
  induction t with
  | pempty =>
    intro k k' _ _ _
    simp [pinsert, Den, EMPTY_BYTES, chEmpty, chUpd]
  | pleaf p lv =>
    intro k k' hs hv hk
    obtain ⟨hpnib, hplen, hlvB, hlvlen⟩ := hs
    have hlvne : lv ≠ [] := hv
    have hsp : commonPrefixLength p k ≤ p.length := cpl_le_left p k
    have hsk : commonPrefixLength p k ≤ k.length := cpl_le_right p k
    have hqeq : p.take (commonPrefixLength p k) = k.take (commonPrefixLength p k) :=
      cpl_take p k
    simp only [pinsert]
    by_cases hfull : commonPrefixLength p k = p.length ∧ commonPrefixLength p k = k.length
    · rw [if_pos hfull]
      have hkp : k = p := by
        have h1 : p.take (commonPrefixLength p k) = p := by
          rw [hfull.1, List.take_length]
        have h2 : k.take (commonPrefixLength p k) = k := by
          rw [hfull.2, List.take_length]
        rw [← h2, ← hqeq, h1]
      subst hkp
      by_cases hk'p : k' = k <;> simp [Den, EMPTY_BYTES, chEmpty, chUpd, hk'p]
    · rw [if_neg hfull]
      have hppk : ¬ (p = k) := by
        intro h
        subst h
        have : commonPrefixLength p p = p.length :=
          (cpl_eq_left_iff p p).mpr List.prefix_rfl
        exact hfull ⟨this, this⟩
      -- the split: a fresh branch, possibly under a shared extension
      rcases hop : p.drop (commonPrefixLength p k) with _ | ⟨oi, orest⟩ <;>
        rcases hnk : k.drop (commonPrefixLength p k) with _ | ⟨ni, nrest⟩
      · -- both remainders empty: contradiction with ¬hfull
        exfalso
        apply hfull
        constructor
        · have := List.drop_eq_nil_iff.mp hop; omega
        · have := List.drop_eq_nil_iff.mp hnk; omega
      · -- old remainder empty, new remainder ni :: nrest
        simp only
        rw [Den_ext_take _ _ _ hsk]
        by_cases hpre : k.take (commonPrefixLength p k) <+: k'
        · rw [if_pos hpre]
          have htk' := take_take_of_prefix hsk hpre
          have hiff1 : k' = k ↔ k'.drop (commonPrefixLength p k)
              = k.drop (commonPrefixLength p k) := eq_iff_drop_eq htk'
          have hiff2 : k' = p ↔ k'.drop (commonPrefixLength p k)
              = p.drop (commonPrefixLength p k) :=
            eq_iff_drop_eq (htk'.trans hqeq.symm)
          rcases hr' : k'.drop (commonPrefixLength p k) with _ | ⟨j, r2⟩
          · -- remainder of k' is empty: hits the branch value slot (= lv)
            simp only [Den, hlvne, if_neg hlvne]
            have : ¬ (k' = k) := by
              rw [hiff1, hr', hnk]; simp
            rw [if_neg this]
            have : k' = p := by rw [hiff2, hr', hop]
            simp [Den, EMPTY_BYTES, chEmpty, chUpd, this, hppk]
          · simp only [Den, chUpd]
            by_cases hj : j = ni
            · subst hj
              simp only [if_pos rfl, Den, EMPTY_BYTES, chEmpty, chUpd]
              by_cases hr2 : r2 = nrest
              · have : k' = k := by rw [hiff1, hr', hnk, hr2]
                simp [this, hr2]
              · have h1 : ¬ (k' = k) := by
                  rw [hiff1, hr', hnk]
                  simp [hr2]
                have h2 : ¬ (k' = p) := by
                  rw [hiff2, hr', hop]
                  simp
                simp [hr2, h1, h2, Den, EMPTY_BYTES, chEmpty, chUpd]
            · rw [if_neg hj]
              simp only [chEmpty, Den, EMPTY_BYTES, chEmpty, chUpd]
              have h1 : ¬ (k' = k) := by
                rw [hiff1, hr', hnk]
                simp [hj]
              have h2 : ¬ (k' = p) := by
                rw [hiff2, hr', hop]
                simp
              simp [h1, h2, Den, EMPTY_BYTES, chEmpty, chUpd]
        · rw [if_neg hpre]
          have h1 : ¬ (k' = k) := by
            intro h
            subst h
            exact hpre (List.take_prefix _ k')
          have h2 : ¬ (k' = p) := by
            intro h
            subst h
            apply hpre
            rw [← hqeq]
            exact List.take_prefix _ k'
          simp [h1, h2, Den, EMPTY_BYTES, chEmpty, chUpd]
      · -- old remainder oi :: orest, new remainder empty
        simp only
        rw [Den_ext_take _ _ _ hsk]
        by_cases hpre : k.take (commonPrefixLength p k) <+: k'
        · rw [if_pos hpre]
          have htk' := take_take_of_prefix hsk hpre
          have hiff1 : k' = k ↔ k'.drop (commonPrefixLength p k)
              = k.drop (commonPrefixLength p k) := eq_iff_drop_eq htk'
          have hiff2 : k' = p ↔ k'.drop (commonPrefixLength p k)
              = p.drop (commonPrefixLength p k) :=
            eq_iff_drop_eq (htk'.trans hqeq.symm)
          rcases hr' : k'.drop (commonPrefixLength p k) with _ | ⟨j, r2⟩
          · simp only [Den, if_neg hvne]
            have : k' = k := by rw [hiff1, hr', hnk]
            simp [this]
          · simp only [Den, chUpd]
            have h1 : ¬ (k' = k) := by
              rw [hiff1, hr', hnk]
              simp
            by_cases hj : j = oi
            · subst hj
              simp only [if_pos rfl, Den, EMPTY_BYTES, chEmpty, chUpd]
              by_cases hr2 : r2 = orest
              · have : k' = p := by rw [hiff2, hr', hop, hr2]
                simp [this, hr2, h1, hppk, Den, EMPTY_BYTES, chEmpty, chUpd]
              · have h2 : ¬ (k' = p) := by
                  rw [hiff2, hr', hop]
                  simp [hr2]
                simp [hr2, h1, h2, Den, EMPTY_BYTES, chEmpty, chUpd]
            · rw [if_neg hj]
              simp only [chEmpty, Den, EMPTY_BYTES, chEmpty, chUpd]
              have h2 : ¬ (k' = p) := by
                rw [hiff2, hr', hop]
                simp [hj]
              simp [h1, h2, Den, EMPTY_BYTES, chEmpty, chUpd]
        · rw [if_neg hpre]
          have h1 : ¬ (k' = k) := by
            intro h
            subst h
            exact hpre (List.take_prefix _ k')
          have h2 : ¬ (k' = p) := by
            intro h
            subst h
            apply hpre
            rw [← hqeq]
            exact List.take_prefix _ k'
          simp [h1, h2, Den, EMPTY_BYTES, chEmpty, chUpd]
      · -- both remainders non-empty: their first nibbles differ
        have hne : oi ≠ ni := cpl_heads_ne p k oi ni orest nrest hop hnk
        have hne2 : ni ≠ oi := fun h => hne h.symm
        simp only
        rw [Den_ext_take _ _ _ hsk]
        by_cases hpre : k.take (commonPrefixLength p k) <+: k'
        · rw [if_pos hpre]
          have htk' := take_take_of_prefix hsk hpre
          have hiff1 : k' = k ↔ k'.drop (commonPrefixLength p k)
              = k.drop (commonPrefixLength p k) := eq_iff_drop_eq htk'
          have hiff2 : k' = p ↔ k'.drop (commonPrefixLength p k)
              = p.drop (commonPrefixLength p k) :=
            eq_iff_drop_eq (htk'.trans hqeq.symm)
          rcases hr' : k'.drop (commonPrefixLength p k) with _ | ⟨j, r2⟩
          · simp only [Den, if_pos rfl]
            have h1 : ¬ (k' = k) := by rw [hiff1, hr', hnk]; simp
            have h2 : ¬ (k' = p) := by rw [hiff2, hr', hop]; simp
            simp [h1, h2, Den, EMPTY_BYTES, chEmpty, chUpd]
          · simp only [Den, chUpd]
            by_cases hj : j = ni
            · subst hj
              simp only [if_pos rfl, Den, EMPTY_BYTES, chEmpty, chUpd]
              have h2 : ¬ (k' = p) := by
                rw [hiff2, hr', hop]
                simp [hne2]
              by_cases hr2 : r2 = nrest
              · have : k' = k := by rw [hiff1, hr', hnk, hr2]
                simp [this, hr2]
              · have h1 : ¬ (k' = k) := by
                  rw [hiff1, hr', hnk]
                  simp [hr2]
                simp [hr2, h1, h2, Den, EMPTY_BYTES, chEmpty, chUpd]
            · rw [if_neg hj]
              have h1 : ¬ (k' = k) := by
                rw [hiff1, hr', hnk]
                simp [hj]
              by_cases hj2 : j = oi
              · subst hj2
                simp only [if_pos rfl, Den, EMPTY_BYTES, chEmpty, chUpd]
                by_cases hr2 : r2 = orest
                · have : k' = p := by rw [hiff2, hr', hop, hr2]
                  simp [this, hr2, h1, hppk, Den, EMPTY_BYTES, chEmpty, chUpd]
                · have h2 : ¬ (k' = p) := by
                    rw [hiff2, hr', hop]
                    simp [hr2]
                  simp [hr2, h1, h2, Den, EMPTY_BYTES, chEmpty, chUpd]
              · rw [if_neg hj2]
                simp only [chEmpty, Den, EMPTY_BYTES, chEmpty, chUpd]
                have h2 : ¬ (k' = p) := by
                  rw [hiff2, hr', hop]
                  simp [hj2]
                simp [h1, h2, Den, EMPTY_BYTES, chEmpty, chUpd]
        · rw [if_neg hpre]
          have h1 : ¬ (k' = k) := by
            intro h
            subst h
            exact hpre (List.take_prefix _ k')
          have h2 : ¬ (k' = p) := by
            intro h
            subst h
            apply hpre
            rw [← hqeq]
            exact List.take_prefix _ k'
          simp [h1, h2, Den, EMPTY_BYTES, chEmpty, chUpd]
  | pext p c ih =>
    intro k k' hs hv hk
    obtain ⟨hpne, hpnib, hplen, hcs⟩ := hs
    have hcv : WFV c := hv
    have hsp : commonPrefixLength p k ≤ p.length := cpl_le_left p k
    have hsk : commonPrefixLength p k ≤ k.length := cpl_le_right p k
    have hqeq : p.take (commonPrefixLength p k) = k.take (commonPrefixLength p k) :=
      cpl_take p k
    simp only [pinsert]
    by_cases hfull : commonPrefixLength p k = p.length
    · rw [if_pos hfull]
      have hppre : p <+: k := (cpl_eq_left_iff p k).mp hfull
      have hnkv : NibbleOk (k.drop (commonPrefixLength p k)) := by
        intro x hx
        exact hk x (List.mem_of_mem_drop hx)
      by_cases hp' : p <+: k'
      · have hkt : k.take p.length = p := (List.prefix_iff_eq_take.mp hppre).symm
        have hk't : k'.take p.length = p := (List.prefix_iff_eq_take.mp hp').symm
        have hiff : k' = k ↔ k'.drop p.length = k.drop p.length :=
          eq_iff_drop_eq (hk't.trans hkt.symm)
        simp only [Den, if_pos hp']
        rw [ih _ _ hcs hcv hnkv]
        rw [hfull]
        by_cases hd : k'.drop p.length = k.drop p.length
        · have : k' = k := hiff.mpr hd
          simp [this, hd, Den, hp']
        · have : ¬ (k' = k) := fun h => hd (hiff.mp h)
          simp [this, hd, Den, hp']
      · have h1 : ¬ (k' = k) := by
          intro h
          subst h
          exact hp' hppre
        simp [Den, EMPTY_BYTES, chEmpty, chUpd, hp', h1]
    · rw [if_neg hfull]
      have hlt : commonPrefixLength p k < p.length := lt_of_le_of_ne hsp hfull
      rcases hop : p.drop (commonPrefixLength p k) with _ | ⟨oi, orest⟩
      · exfalso
        have := List.drop_eq_nil_iff.mp hop
        omega
      · have hpdec : p.take (commonPrefixLength p k) ++ oi :: orest = p := by
          rw [← hop]; exact List.take_append_drop _ p
        have hple : p.length = commonPrefixLength p k + (oi :: orest).length := by
          have hlen := congrArg List.length hpdec
          rw [List.length_append, List.length_take] at hlen
          omega
        simp only
        rw [Den_ext_take _ _ _ hsk]
        by_cases hpre : k.take (commonPrefixLength p k) <+: k'
        · rw [if_pos hpre]
          have htk' := take_take_of_prefix hsk hpre
          have hiff1 : k' = k ↔ k'.drop (commonPrefixLength p k)
              = k.drop (commonPrefixLength p k) := eq_iff_drop_eq htk'
          -- `p <+: k'` at the remainder level
          have hpk' : p <+: k' ↔
              (oi :: orest) <+: k'.drop (commonPrefixLength p k) := by
            conv_lhs => rw [← hpdec, ← List.take_append_drop (commonPrefixLength p k) k']
            rw [htk', ← hqeq]
            exact List.prefix_append_right_inj _
          have hdrop_align : ∀ r2 : List Nat,
              (k'.drop (commonPrefixLength p k)) = oi :: r2 →
              orest <+: r2 →
              Den c (r2.drop orest.length) = Den c (k'.drop p.length) := by
            intro r2 hr2 _
            congr 1
            have : k'.drop p.length
                = (k'.drop (commonPrefixLength p k)).drop (oi :: orest).length := by
              rw [List.drop_drop, hple]
            rw [this, hr2]
            simp
          rcases hr' : k'.drop (commonPrefixLength p k) with _ | ⟨j, r2⟩
          · -- empty remainder of k'
            rcases hnk : k.drop (commonPrefixLength p k) with _ | ⟨ni, nrest⟩
            · simp only [Den, if_neg hvne]
              have : k' = k := by rw [hiff1, hr', hnk]
              simp [this]
            · simp only [Den, if_pos rfl]
              have h1 : ¬ (k' = k) := by rw [hiff1, hr', hnk]; simp
              have h2 : ¬ (p <+: k') := by
                rw [hpk', hr']
                simp
              simp [h1, h2, Den, EMPTY_BYTES, chEmpty, chUpd]
          · rcases hnk : k.drop (commonPrefixLength p k) with _ | ⟨ni, nrest⟩
            · -- key consumed: branch value slot holds v
              simp only [Den, chUpd]
              have h1 : ¬ (k' = k) := by rw [hiff1, hr', hnk]; simp
              by_cases hj : j = oi
              · subst hj
                simp only [if_pos rfl]
                by_cases hor : orest.length = 0
                · have horn : orest = [] := List.length_eq_zero.mp hor
                  subst horn
                  simp only [List.length_nil, if_true, eq_self_iff_true]
                  have hp2 : p <+: k' := by
                    rw [hpk', hr']
                    simp [List.cons_prefix_cons]
                  have : Den c r2 = Den c (k'.drop p.length) := by
                    congr 1
                    have : k'.drop p.length
                        = (k'.drop (commonPrefixLength p k)).drop 1 := by
                      rw [List.drop_drop, hple]
                      simp
                    rw [this, hr']
                    simp
                  simp only [Den, h1, if_neg h1, if_pos hp2]
                  exact this
                · rw [if_neg hor]
                  simp only [Den]
                  by_cases hpor : orest <+: r2
                  · have hp2 : p <+: k' := by
                      rw [hpk', hr']
                      simp [List.cons_prefix_cons, hpor]
                    rw [if_pos hpor]
                    simp only [if_neg h1, if_pos hp2, Den, EMPTY_BYTES, chEmpty, chUpd]
                    exact hdrop_align r2 hr' hpor
                  · have hp2 : ¬ (p <+: k') := by
                      rw [hpk', hr']
                      simp [List.cons_prefix_cons, hpor]
                    simp [hpor, h1, hp2, Den, EMPTY_BYTES, chEmpty, chUpd]
              · rw [if_neg hj]
                simp only [chEmpty, Den, EMPTY_BYTES, chEmpty, chUpd]
                have hp2 : ¬ (p <+: k') := by
                  rw [hpk', hr', List.cons_prefix_cons]
                  exact fun hcon => hj hcon.1.symm
                simp [h1, hp2, Den, EMPTY_BYTES, chEmpty, chUpd]
            · -- new remainder ni :: nrest; oi ≠ ni
              have hne : oi ≠ ni := cpl_heads_ne p k oi ni orest nrest hop hnk
              have hne2 : ni ≠ oi := fun h => hne h.symm
              simp only [Den, chUpd]
              by_cases hj : j = ni
              · subst hj
                simp only [if_pos rfl, Den, EMPTY_BYTES, chEmpty, chUpd]
                have hp2 : ¬ (p <+: k') := by
                  rw [hpk', hr', List.cons_prefix_cons]
                  exact fun hcon => hne hcon.1
                by_cases hr2 : r2 = nrest
                · have : k' = k := by rw [hiff1, hr', hnk, hr2]
                  simp [this, hr2]
                · have h1 : ¬ (k' = k) := by
                    rw [hiff1, hr', hnk]
                    simp [hr2]
                  simp [hr2, h1, hp2, Den, EMPTY_BYTES, chEmpty, chUpd]
              · rw [if_neg hj]
                have h1 : ¬ (k' = k) := by
                  rw [hiff1, hr', hnk]
                  simp [hj]
                by_cases hj2 : j = oi
                · subst hj2
                  simp only [if_pos rfl]
                  by_cases hor : orest.length = 0
                  · have horn : orest = [] := List.length_eq_zero.mp hor
                    subst horn
                    simp only [List.length_nil, if_true, eq_self_iff_true]
                    have hp2 : p <+: k' := by
                      rw [hpk', hr']
                      simp [List.cons_prefix_cons]
                    have : Den c r2 = Den c (k'.drop p.length) := by
                      congr 1
                      have : k'.drop p.length
                          = (k'.drop (commonPrefixLength p k)).drop 1 := by
                        rw [List.drop_drop, hple]
                        simp
                      rw [this, hr']
                      simp
                    simp only [Den, if_neg h1, if_pos hp2]
                    exact this
                  · rw [if_neg hor]
                    simp only [Den]
                    by_cases hpor : orest <+: r2
                    · have hp2 : p <+: k' := by
                        rw [hpk', hr']
                        simp [List.cons_prefix_cons, hpor]
                      rw [if_pos hpor]
                      simp only [if_neg h1, if_pos hp2, Den, EMPTY_BYTES, chEmpty, chUpd]
                      exact hdrop_align r2 hr' hpor
                    · have hp2 : ¬ (p <+: k') := by
                        rw [hpk', hr']
                        simp [List.cons_prefix_cons, hpor]
                      simp [hpor, h1, hp2, Den, EMPTY_BYTES, chEmpty, chUpd]
                · rw [if_neg hj2]
                  simp only [chEmpty, Den, EMPTY_BYTES, chEmpty, chUpd]
                  have hp2 : ¬ (p <+: k') := by
                    rw [hpk', hr', List.cons_prefix_cons]
                    exact fun hcon => hj2 hcon.1.symm
                  simp [h1, hp2, Den, EMPTY_BYTES, chEmpty, chUpd]
        · rw [if_neg hpre]
          have h1 : ¬ (k' = k) := by
            intro h
            subst h
            exact hpre (List.take_prefix _ k')
          have h2 : ¬ (p <+: k') := by
            intro h
            apply hpre
            rw [← hqeq]
            exact (List.take_prefix _ p).trans h
          simp [h1, h2, Den, EMPTY_BYTES, chEmpty, chUpd]
  | pbranch ch bv ih =>
    intro k k' hs hv hk
    obtain ⟨hbvB, hbvlen, hch16, hchs⟩ := hs
    rcases k with _ | ⟨i, rest⟩
    · -- key exhausted: rewrite the branch value slot
      simp only [pinsert]
      rcases k' with _ | ⟨j, r2⟩
      · simp [Den, EMPTY_BYTES, chEmpty, chUpd, hvne]
      · simp [Den]
    · simp only [pinsert]
      have hresti : NibbleOk rest := fun x hx => hk x (List.mem_cons_of_mem i hx)
      rcases k' with _ | ⟨j, r2⟩
      · simp [Den]
      · simp only [Den, chUpd]
        by_cases hj : j = i
        · subst hj
          simp only [eq_self_iff_true, if_true]
          rw [ih j _ _ (hchs j) (hv j) hresti]
          by_cases hr2 : r2 = rest
          · simp [hr2]
          · have : ¬ (j :: r2 = j :: rest) := by simp [hr2]
            simp [hr2, this]
        · rw [if_neg hj]
          have : ¬ (j :: r2 = i :: rest) := by simp [hj]
          simp [this, Den, EMPTY_BYTES, chEmpty, chUpd]

theorem NibbleOk_drop {l : List Nat} (h : NibbleOk l) (n : Nat) :
    NibbleOk (l.drop n) := fun x hx => h x (List.mem_of_mem_drop hx)

theorem NibbleOk_take {l : List Nat} (h : NibbleOk l) (n : Nat) :
    NibbleOk (l.take n) := fun x hx => h x (List.mem_of_mem_take hx)

theorem drop_cons_facts {l : List Nat} {s a : Nat} {rest : List Nat}
    (hnib : NibbleOk l) (hlen : l.length < 2 ^ 59) (h : l.drop s = a :: rest) :
    a ≤ 15 ∧ NibbleOk rest ∧ rest.length < 2 ^ 59 := by
  have hd : NibbleOk (l.drop s) := NibbleOk_drop hnib s
  rw [h] at hd
  refine ⟨hd a (List.mem_cons_self a rest),
    fun x hx => hd x (List.mem_cons_of_mem a hx), ?_⟩
  have hl := congrArg List.length h
  rw [List.length_drop] at hl
  simp only [List.length_cons] at hl
  omega

theorem take_ne_nil {k : List Nat} {s : Nat} (h0 : 0 < s) (hs : s ≤ k.length) :
    k.take s ≠ [] := by
  intro hc
  have hl := congrArg List.length hc
  rw [List.length_take] at hl
  simp only [List.length_nil] at hl
  omega

theorem pinsert_ne_pempty (t : PTrie) (k v : List Nat) :
    pinsert t k v ≠ .pempty := by
  cases t with
  | pempty => simp [pinsert]
  | pleaf p lv =>
    simp only [pinsert]
    split
    · simp
    · rcases hop : p.drop (commonPrefixLength p k) with _ | ⟨oi, orest⟩ <;>
        rcases hnk : k.drop (commonPrefixLength p k) with _ | ⟨ni, nrest⟩ <;>
        · simp only
          split <;> simp
  | pext p c =>
    simp only [pinsert]
    by_cases hfull : commonPrefixLength p k = p.length
    · rw [if_pos hfull]
      simp
    · rw [if_neg hfull]
      have hlt : commonPrefixLength p k < p.length :=
        lt_of_le_of_ne (cpl_le_left p k) hfull
      rcases hop : p.drop (commonPrefixLength p k) with _ | ⟨oi, orest⟩
      · exfalso
        have := List.drop_eq_nil_iff.mp hop
        omega
      · rcases hnk : k.drop (commonPrefixLength p k) with _ | ⟨ni, nrest⟩ <;>
          · simp only
            split <;> simp
  | pbranch ch bv =>
    cases k <;> simp [pinsert]

theorem WFS_chUpd {ch : Nat → PTrie} {i : Nat} {t : PTrie}
    (hch16 : ∀ j, 16 ≤ j → ch j = .pempty) (hchs : ∀ j, WFS (ch j))
    (hi : i ≤ 15) (ht : WFS t) :
    (∀ j, 16 ≤ j → chUpd ch i t j = .pempty) ∧ (∀ j, WFS (chUpd ch i t j)) := by
  constructor
  · intro j hj
    simp only [chUpd]
    rw [if_neg (by omega)]
    exact hch16 j hj
  · intro j
    by_cases hj : j = i
    · simp only [chUpd, if_pos hj]
      exact ht
    · simp only [chUpd, if_neg hj]
      exact hchs j

theorem WFS_chEmpty :
    (∀ j, 16 ≤ j → chEmpty j = PTrie.pempty) ∧ (∀ j, WFS (chEmpty j)) :=
  ⟨fun _ _ => rfl, fun _ => trivial⟩

theorem WFS_pleaf {p v : List Nat} (h1 : NibbleOk p) (h2 : p.length < 2 ^ 59)
    (h3 : ByteOk v) (h4 : v.length < 2 ^ 59) : WFS (PTrie.pleaf p v) := by
  simp only [WFS]
  exact ⟨h1, h2, h3, h4⟩

theorem WFS_pbranch {ch : Nat → PTrie} {v : List Nat} (h1 : ByteOk v)
    (h2 : v.length < 2 ^ 59) (h3 : ∀ i, 16 ≤ i → ch i = PTrie.pempty)
    (h4 : ∀ i, WFS (ch i)) : WFS (PTrie.pbranch ch v) := by
  simp only [WFS]
  exact ⟨h1, h2, h3, h4⟩

theorem EMPTY_BYTES_ByteOk : ByteOk EMPTY_BYTES := by
  intro x hx
  cases hx

theorem WFS_wrap {B : PTrie} (hB : WFS B) (k : List Nat) (s : Nat)
    (hk : NibbleOk k) (hklen : k.length < 2 ^ 59) (hs : s ≤ k.length) :
    WFS (if 0 < s then PTrie.pext (k.take s) B else B) := by
  by_cases h0 : 0 < s
  · rw [if_pos h0]
    exact ⟨take_ne_nil h0 hs, NibbleOk_take hk s,
      by rw [List.length_take]; omega, hB⟩
  · rw [if_neg h0]
    exact hB

/-- `pinsert` preserves structural well-formedness. -/
theorem WFS_pinsert (v : List Nat) (hvB : ByteOk v) (hvlen : v.length < 2 ^ 59) :
    ∀ (t : PTrie) (k : List Nat), WFS t → NibbleOk k → k.length < 2 ^ 59 →
      WFS (pinsert t k v) := by
  intro t
  induction t with
  | pempty =>
    intro k _ hk hklen
    exact ⟨hk, hklen, hvB, hvlen⟩
  | pleaf p lv =>
    intro k hs hk hklen
    obtain ⟨hpnib, hplen, hlvB, hlvlen⟩ := hs
    have hsk : commonPrefixLength p k ≤ k.length := cpl_le_right p k
    simp only [pinsert]
    split
    · exact ⟨hpnib, hplen, hvB, hvlen⟩
    · rcases hop : p.drop (commonPrefixLength p k) with _ | ⟨oi, orest⟩ <;>
        rcases hnk : k.drop (commonPrefixLength p k) with _ | ⟨ni, nrest⟩
      · -- both empty: the built branch has empty children and value v
        simp only
        apply WFS_wrap _ k _ hk hklen hsk
        exact ⟨hvB, hvlen, WFS_chEmpty.1, WFS_chEmpty.2⟩
      · obtain ⟨hni, hnrest, hnlen⟩ := drop_cons_facts hk hklen hnk
        simp only
        apply WFS_wrap _ k _ hk hklen hsk
        have hupd := WFS_chUpd WFS_chEmpty.1 WFS_chEmpty.2 hni
          (WFS_pleaf hnrest hnlen hvB hvlen)
        exact ⟨hlvB, hlvlen, hupd.1, hupd.2⟩
      · obtain ⟨hoi, horest, holen⟩ := drop_cons_facts hpnib hplen hop
        simp only
        apply WFS_wrap _ k _ hk hklen hsk
        have hupd := WFS_chUpd WFS_chEmpty.1 WFS_chEmpty.2 hoi
          (WFS_pleaf horest holen hlvB hlvlen)
        exact ⟨hvB, hvlen, hupd.1, hupd.2⟩
      · obtain ⟨hoi, horest, holen⟩ := drop_cons_facts hpnib hplen hop
        obtain ⟨hni, hnrest, hnlen⟩ := drop_cons_facts hk hklen hnk
        simp only
        apply WFS_wrap _ k _ hk hklen hsk
        have hupd1 := WFS_chUpd WFS_chEmpty.1 WFS_chEmpty.2 hoi
          (WFS_pleaf horest holen hlvB hlvlen)
        have hupd2 := WFS_chUpd hupd1.1 hupd1.2 hni
          (WFS_pleaf hnrest hnlen hvB hvlen)
        exact WFS_pbranch EMPTY_BYTES_ByteOk (by simp [EMPTY_BYTES]) hupd2.1 hupd2.2
  | pext p c ih =>
    intro k hs hk hklen
    obtain ⟨hpne, hpnib, hplen, hcs⟩ := hs
    have hsk : commonPrefixLength p k ≤ k.length := cpl_le_right p k
    simp only [pinsert]
    by_cases hfull : commonPrefixLength p k = p.length
    · rw [if_pos hfull]
      refine ⟨hpne, hpnib, hplen, ?_⟩
      apply ih _ hcs (NibbleOk_drop hk _)
      rw [List.length_drop]
      omega
    · rw [if_neg hfull]
      have hlt : commonPrefixLength p k < p.length :=
        lt_of_le_of_ne (cpl_le_left p k) hfull
      rcases hop : p.drop (commonPrefixLength p k) with _ | ⟨oi, orest⟩
      · exfalso
        have := List.drop_eq_nil_iff.mp hop
        omega
      · obtain ⟨hoi, horest, holen⟩ := drop_cons_facts hpnib hplen hop
        have hslot : WFS (if orest.length = 0 then c else PTrie.pext orest c) := by
          by_cases hor : orest.length = 0
          · rw [if_pos hor]
            exact hcs
          · rw [if_neg hor]
            exact ⟨fun hc => hor (by rw [hc]; rfl), horest, holen, hcs⟩
        have hupd1 := WFS_chUpd WFS_chEmpty.1 WFS_chEmpty.2 hoi hslot
        rcases hnk : k.drop (commonPrefixLength p k) with _ | ⟨ni, nrest⟩
        · simp only
          apply WFS_wrap _ k _ hk hklen hsk
          exact ⟨hvB, hvlen, hupd1.1, hupd1.2⟩
        · obtain ⟨hni, hnrest, hnlen⟩ := drop_cons_facts hk hklen hnk
          simp only
          apply WFS_wrap _ k _ hk hklen hsk
          have hupd2 := WFS_chUpd hupd1.1 hupd1.2 hni
            (WFS_pleaf hnrest hnlen hvB hvlen)
          exact WFS_pbranch EMPTY_BYTES_ByteOk (by simp [EMPTY_BYTES]) hupd2.1 hupd2.2
  | pbranch ch bv ih =>
    intro k hs hk hklen
    obtain ⟨hbvB, hbvlen, hch16, hchs⟩ := hs
    rcases k with _ | ⟨i, rest⟩
    · exact ⟨hvB, hvlen, hch16, hchs⟩
    · have hi : i ≤ 15 := hk i (List.mem_cons_self i rest)
      have hrest : NibbleOk rest := fun x hx => hk x (List.mem_cons_of_mem i hx)
      have hrlen : rest.length < 2 ^ 59 := by
        simp only [List.length_cons] at hklen
        omega
      have hupd := WFS_chUpd hch16 hchs hi (ih i rest (hchs i) hrest hrlen)
      exact ⟨hbvB, hbvlen, hupd.1, hupd.2⟩

/-- `pinsert` preserves non-emptiness of stored values. -/
theorem WFV_pinsert (v : List Nat) (hvne : v ≠ []) :
    ∀ (t : PTrie) (k : List Nat), WFV t → WFV (pinsert t k v) := by
  intro t
  induction t with
  | pempty =>
    intro k _
    exact hvne
  | pleaf p lv =>
    intro k hv
    have hlvne : lv ≠ [] := hv
    simp only [pinsert]
    split
    · exact hvne
    · have hwfv : ∀ (B : PTrie), WFV B →
          WFV (if 0 < commonPrefixLength p k then
            PTrie.pext (k.take (commonPrefixLength p k)) B else B) := by
        intro B hB
        by_cases h0 : 0 < commonPrefixLength p k
        · rw [if_pos h0]
          exact hB
        · rw [if_neg h0]
          exact hB
      rcases hop : p.drop (commonPrefixLength p k) with _ | ⟨oi, orest⟩ <;>
        rcases hnk : k.drop (commonPrefixLength p k) with _ | ⟨ni, nrest⟩ <;>
        · simp only
          apply hwfv
          intro j
          simp only [chUpd, chEmpty]
          repeat' split
          all_goals first | exact hvne | exact hlvne | trivial
  | pext p c ih =>
    intro k hv
    have hcv : WFV c := hv
    simp only [pinsert]
    by_cases hfull : commonPrefixLength p k = p.length
    · rw [if_pos hfull]
      exact ih _ hcv
    · rw [if_neg hfull]
      rcases hop : p.drop (commonPrefixLength p k) with _ | ⟨oi, orest⟩
      · trivial
      · have hwfv : ∀ (B : PTrie), WFV B →
            WFV (if 0 < commonPrefixLength p k then
              PTrie.pext (k.take (commonPrefixLength p k)) B else B) := by
          intro B hB
          by_cases h0 : 0 < commonPrefixLength p k
          · rw [if_pos h0]
            exact hB
          · rw [if_neg h0]
            exact hB
        have hslot : WFV (if orest.length = 0 then c else PTrie.pext orest c) := by
          by_cases hor : orest.length = 0
          · rw [if_pos hor]
            exact hcv
          · rw [if_neg hor]
            exact hcv
        rcases hnk : k.drop (commonPrefixLength p k) with _ | ⟨ni, nrest⟩ <;>
          · simp only
            apply hwfv
            intro j
            simp only [chUpd, chEmpty]
            repeat' split
            all_goals first | exact hvne | exact hslot | trivial
  | pbranch ch bv ih =>
    intro k hv
    rcases k with _ | ⟨i, rest⟩
    · exact hv
    · intro j
      simp only [pinsert, chUpd]
      split
    -- the two sides
      · exact ih i rest (hv i)
      · exact hv j

/-- Re-inserting the value a key already maps to rebuilds the same tree. -/
theorem pinsert_self : ∀ (t : PTrie) (k v : List Nat), Den t k = some v →
    pinsert t k v = t := by
  intro t
  induction t with
  | pempty =>
    intro k v h
    simp [Den] at h
  | pleaf p lv =>
    intro k v h
    simp only [Den] at h
    split at h
    · rename_i hkp
      injection h with hlv
      have hfull : commonPrefixLength p k = p.length := by
        rw [hkp]
        exact (cpl_eq_left_iff p p).mpr List.prefix_rfl
      have hfull2 : commonPrefixLength p k = k.length := by
        rw [hkp] at hfull ⊢
        exact hfull
      simp only [pinsert, if_pos (And.intro hfull hfull2)]
      rw [hlv]
    · exact absurd h (by simp)
  | pext p c ih =>
    intro k v h
    simp only [Den] at h
    split at h
    · rename_i hpre
      have hfull : commonPrefixLength p k = p.length :=
        (cpl_eq_left_iff p k).mpr hpre
      simp only [pinsert]
      rw [if_pos hfull, hfull, ih _ _ h]
    · exact absurd h (by simp)
  | pbranch ch bv ih =>
    intro k v h
    rcases k with _ | ⟨i, rest⟩
    · simp only [Den] at h
      split at h
      · exact absurd h (by simp)
      · injection h with hbv
        rw [pinsert, hbv]
    · simp only [Den] at h
      simp only [pinsert]
      rw [ih i _ _ h]
      congr 1
      funext j
      simp only [chUpd]
      split
      · rename_i hj
        rw [hj]
      · rfl

/-! ## Byte-validity of encoder output -/

theorem nibblesToPackedBytes_ByteOk :
    ∀ (l p : List Nat), nibblesToPackedBytes l = some p → ByteOk p := by
  intro l
  induction l using nibblesToPackedBytes.induct with
  | case1 =>
    intro p hp
    injection hp with h
    subst h
    intro x hx
    cases hx
  | case2 a =>
    intro p hp
    simp [nibblesToPackedBytes] at hp
  | case3 a b rest ih =>
    intro p hp
    simp only [nibblesToPackedBytes, Option.map_eq_some'] at hp
    obtain ⟨q, hq, rfl⟩ := hp
    intro x hx
    rcases List.mem_cons.mp hx with hx | hx
    · subst hx
      exact pack_pair_lt a b
    · exact ih q hq x hx

theorem encodeCompactPath_ByteOk {n : List Nat} {f : Bool} {e : List Nat}
    (h : encodeCompactPath n f = some e) : ByteOk e := by
  unfold encodeCompactPath at h
  split at h
  · exact nibblesToPackedBytes_ByteOk _ _ h
  · exact absurd h (by simp)

theorem pow_256_8 : (256 : Nat) ^ 8 = 2 ^ 64 := by norm_num

theorem encBytes_ByteOk {b : List Nat} (hb : ByteOk b) (hlen : b.length < 2 ^ 64) :
    ByteOk (encBytes b) := by
  unfold encBytes
  split
  · exact hb
  · split
    · rename_i h1 h2
      intro x hx
      rcases List.mem_cons.mp hx with hx | hx
      · subst hx
        omega
      · exact hb x hx
    · intro x hx
      rcases List.mem_cons.mp hx with hx | hx
      · subst hx
        have h8 : (beBytes b.length).length ≤ 8 :=
          beBytes_len_le (by rw [pow_256_8]; exact hlen)
        omega
      · rcases List.mem_append.mp hx with hx | hx
        · exact beBytes_ByteOk _ x hx
        · exact hb x hx

theorem encList_ByteOk {p : List Nat} (hp : ByteOk p) (hlen : p.length < 2 ^ 64) :
    ByteOk (encList p) := by
  unfold encList
  split
  · rename_i h1
    intro x hx
    rcases List.mem_cons.mp hx with hx | hx
    · subst hx
      omega
    · exact hp x hx
  · intro x hx
    rcases List.mem_cons.mp hx with hx | hx
    · subst hx
      have h8 : (beBytes p.length).length ≤ 8 :=
        beBytes_len_le (by rw [pow_256_8]; exact hlen)
      omega
    · rcases List.mem_append.mp hx with hx | hx
      · exact beBytes_ByteOk _ x hx
      · exact hp x hx

theorem encList_ne_nil (p : List Nat) : encList p ≠ [] := by
  unfold encList
  split <;> simp

/-- Byte-validity of a node's stored refs and value (the nibble paths are
covered by `NodeOk`). -/
def NodeBytesOk : TrieNode → Prop
  | .branch children value => (∀ c ∈ children, ByteOk c) ∧ ByteOk value
  | .extension _ child => ByteOk child
  | .leaf _ value => ByteOk value

theorem encodeTrieNode_ne_nil {n : TrieNode} {rlp : List Nat}
    (h : encodeTrieNode n = some rlp) : rlp ≠ [] := by
  cases n with
  | branch children value =>
    simp only [encodeTrieNode] at h
    split at h
    · injection h with h
      subst h
      exact encList_ne_nil _
    · cases h
  | extension path child =>
    simp only [encodeTrieNode, Option.map_eq_some'] at h
    obtain ⟨cp, _, rfl⟩ := h
    exact encList_ne_nil _
  | leaf path value =>
    simp only [encodeTrieNode, Option.map_eq_some'] at h
    obtain ⟨cp, _, rfl⟩ := h
    exact encList_ne_nil _

theorem encodeTrieNode_ByteOk {n : TrieNode} {rlp : List Nat}
    (hok : NodeOk n) (hbytes : NodeBytesOk n)
    (henc : encodeTrieNode n = some rlp) : ByteOk rlp := by
  cases n with
  | branch children value =>
    obtain ⟨h16, hc, hv⟩ := hok
    obtain ⟨hcB, hvB⟩ := hbytes
    simp only [encodeTrieNode, if_pos h16] at henc
    injection henc with henc
    subst henc
    have hitems_b60 : ∀ b ∈ children ++ [value], b.length < 2 ^ 59 := by
      intro b hbm
      rcases List.mem_append.mp hbm with hbm | hbm
      · exact hc b hbm
      · simp only [List.mem_singleton] at hbm
        subst hbm
        exact hv
    have hitems_B : ∀ b ∈ children ++ [value], ByteOk b := by
      intro b hbm
      rcases List.mem_append.mp hbm with hbm | hbm
      · exact hcB b hbm
      · simp only [List.mem_singleton] at hbm
        subst hbm
        exact hvB
    have hpayB : ByteOk (((children ++ [value]).map encBytes).flatten) := by
      intro x hx
      obtain ⟨l, hl, hxl⟩ := List.mem_flatten.mp hx
      obtain ⟨b, hb, rfl⟩ := List.mem_map.mp hl
      exact encBytes_ByteOk (hitems_B b hb)
        (lt_trans (hitems_b60 b hb) (by norm_num)) x hxl
    have hpaylen : (((children ++ [value]).map encBytes).flatten).length < 2 ^ 64 := by
      have hb := flattenEnc_length_le (children ++ [value]) hitems_b60
      have h17 : (children ++ [value]).length = 17 := by simp [h16]
      rw [h17] at hb
      calc (((children ++ [value]).map encBytes).flatten).length
          ≤ 17 * (2 ^ 59 + 9) := hb
      _ < 2 ^ 64 := by norm_num
    exact encList_ByteOk hpayB hpaylen
  | extension path child =>
    obtain ⟨hp, hplen, hclen⟩ := hok
    simp only [encodeTrieNode, Option.map_eq_some'] at henc
    obtain ⟨cp, hcp, rfl⟩ := henc
    have hcpB : ByteOk cp := encodeCompactPath_ByteOk hcp
    have hcp_len : 2 * cp.length ≤ path.length + 2 := encodeCompactPath_length _ _ _ hcp
    have hcp64 : cp.length < 2 ^ 64 := by omega
    have hc64 : child.length < 2 ^ 64 := lt_trans hclen (by norm_num)
    have hpayB : ByteOk (encBytes cp ++ encBytes child) := by
      intro x hx
      rcases List.mem_append.mp hx with hx | hx
      · exact encBytes_ByteOk hcpB hcp64 x hx
      · exact encBytes_ByteOk hbytes hc64 x hx
    have hpaylen : (encBytes cp ++ encBytes child).length < 2 ^ 64 := by
      have h1 := encBytes_length_le cp hcp64
      have h2 := encBytes_length_le child hc64
      simp only [List.length_append]
      have h60 : (2 : Nat) ^ 60 < 2 ^ 64 := by norm_num
      omega
    exact encList_ByteOk hpayB hpaylen
  | leaf path value =>
    obtain ⟨hp, hplen, hvlen⟩ := hok
    simp only [encodeTrieNode, Option.map_eq_some'] at henc
    obtain ⟨cp, hcp, rfl⟩ := henc
    have hcpB : ByteOk cp := encodeCompactPath_ByteOk hcp
    have hcp_len : 2 * cp.length ≤ path.length + 2 := encodeCompactPath_length _ _ _ hcp
    have hcp64 : cp.length < 2 ^ 64 := by omega
    have hv64 : value.length < 2 ^ 64 := lt_trans hvlen (by norm_num)
    have hpayB : ByteOk (encBytes cp ++ encBytes value) := by
      intro x hx
      rcases List.mem_append.mp hx with hx | hx
      · exact encBytes_ByteOk hcpB hcp64 x hx
      · exact encBytes_ByteOk hbytes hv64 x hx
    have hpaylen : (encBytes cp ++ encBytes value).length < 2 ^ 64 := by
      have h1 := encBytes_length_le cp hcp64
      have h2 := encBytes_length_le value hv64
      simp only [List.length_append]
      have h60 : (2 : Nat) ^ 60 < 2 ^ 64 := by norm_num
      omega
    exact encList_ByteOk hpayB hpaylen

theorem TrieNode.tag_ne_unknown (n : TrieNode) : n.tag ≠ .unknown := by
  cases n <;> simp [TrieNode.tag]

/-- `decodeTrieNode` recovers exactly the encoded node. -/
theorem decodeTrieNode_of_enc {n : TrieNode} {rlp : List Nat} (hok : NodeOk n)
    (henc : encodeTrieNode n = some rlp) : decodeTrieNode rlp = some n := by
  obtain ⟨e, he, hd⟩ := decode_encode_node n hok
  rw [henc] at he
  injection he with he
  subst he
  exact hd

/-! ## List helpers for the store and branch children -/

theorem find?_app {α : Type} (p : α → Bool) :
    ∀ (l₁ l₂ : List α), (l₁ ++ l₂).find? p =
      match l₁.find? p with
      | some x => some x
      | none => l₂.find? p := by
  intro l₁ l₂
  induction l₁ with
  | nil => simp
  | cons x xs ih =>
    by_cases hx : p x
    · rw [List.cons_append, List.find?_cons_of_pos _ hx, List.find?_cons_of_pos _ hx]
    · rw [List.cons_append, List.find?_cons_of_neg _ hx, List.find?_cons_of_neg _ hx, ih]

/-- `find?` through a map that rewrites the (unique-keyed) row of one key in
place, preserving that key. -/
theorem find?_map_keyfix {rows : List DbEntry} {key : List Char}
    (upgraded : DbEntry) (hk : upgraded.keyHex = key) (q : List Char) :
    (rows.map (fun e => if e.keyHex == key then upgraded else e)).find?
        (fun e => e.keyHex == q) =
      (rows.find? (fun e => e.keyHex == q)).map
        (fun r => if r.keyHex == key then upgraded else r) := by
  induction rows with
  | nil => rfl
  | cons r rs ih =>
    simp only [List.map_cons, List.find?_cons]
    by_cases hrk : (r.keyHex == key) = true
    · have hkk : r.keyHex = key := by simpa using hrk
      rw [if_pos hrk]
      cases hrq : (r.keyHex == q) with
      | false =>
        have h2 : (upgraded.keyHex == q) = false := by rw [hk, ← hkk]; exact hrq
        simp only [h2, hrq, ih]
      | true =>
        have h2 : (upgraded.keyHex == q) = true := by rw [hk, ← hkk]; exact hrq
        simp only [h2, hrq, Option.map_some']
        rw [if_pos hrk]
    · rw [if_neg hrk]
      cases hrq : (r.keyHex == q) with
      | false => simp only [hrq, ih]
      | true =>
        simp only [hrq, Option.map_some']
        rw [if_neg hrk]

/-- The map rewriting one key's row preserves every row's key. -/
theorem map_keyfix_keys {rows : List DbEntry} {key : List Char}
    (upgraded : DbEntry) (hk : upgraded.keyHex = key) :
    (rows.map (fun e => if e.keyHex == key then upgraded else e)).map (·.keyHex) =
      rows.map (·.keyHex) := by
  rw [List.map_map]
  apply List.map_congr_left
  intro e _
  simp only [Function.comp]
  by_cases h : (e.keyHex == key) = true
  · rw [if_pos h, hk]
    have hkk : e.keyHex = key := by simpa using h
    exact hkk.symm
  · rw [if_neg h]

theorem getD_set_sixteen {l : List (List Nat)} {j : Nat} (r : List Nat) (i : Nat)
    (hj : j < l.length) :
    (l.set j r).getD i [] = if i = j then r else l.getD i [] := by
  by_cases h : i = j
  · subst h
    rw [if_pos rfl]
    simp [List.getD, List.getElem?_set_self hj]
  · rw [if_neg h]
    simp [List.getD, List.getElem?_set_ne (fun hc => h hc.symm)]

theorem getD_replicate_nil (n i : Nat) :
    (List.replicate n ([] : List Nat)).getD i [] = [] := by
  by_cases h : i < n
  · simp [List.getD, List.getElem?_replicate, h]
  · rw [List.getD_eq_default]
    rw [List.length_replicate]
    omega

theorem set_getD_self {l : List (List Nat)} {i : Nat} (hi : i < l.length) :
    l.set i (l.getD i []) = l := by
  apply List.ext_getElem
  · simp
  · intro j h1 h2
    by_cases h : j = i
    · subst h
      rw [List.getElem_set_self]
      simp [List.getD, List.getElem?_eq_getElem h2]
    · rw [List.getElem_set_ne (fun hc => h hc.symm)]

theorem cloneChildren_id (l : List (List Nat)) : cloneChildren l = l := by
  unfold cloneChildren
  rw [List.map_congr_left, List.map_id]
  intro c _
  by_cases h : c.length = 0
  · rw [if_pos h]
    rw [List.length_eq_zero] at h
    rw [h]
    rfl
  · rw [if_neg h]
    rfl

theorem mem_set_sublists {l : List (List Nat)} {j : Nat} {r c : List Nat}
    (h : c ∈ l.set j r) : c ∈ l ∨ c = r := by
  rcases List.mem_or_eq_of_mem_set h with h | h
  · exact Or.inl h
  · exact Or.inr h

/-! ## Store extension and put/get interaction -/

/-- `db'` preserves every readable binding of `db`. -/
def DbExtends (db db' : Db) : Prop :=
  ∀ k v, db.get k = some v → db'.get k = some v

theorem DbExtends_refl (db : Db) : DbExtends db db := fun _ _ h => h

theorem DbExtends_trans {a b c : Db} (h1 : DbExtends a b) (h2 : DbExtends b c) :
    DbExtends a c := fun k v h => h2 k v (h1 k v h)

/-- Every stored row carries a known node type. -/
def DbTyped (db : Db) : Prop := ∀ e ∈ db.rows, e.nodeType ≠ .unknown

instance (db : Db) : Decidable (DbTyped db) := by
  unfold DbTyped
  infer_instance

theorem DbTyped_empty : DbTyped Db.empty := by
  intro e he
  cases he

theorem DbTyped_put (db : Db) (hT : DbTyped db) (k v : List Char) {t : NodeTag}
    (ht : t ≠ .unknown) : DbTyped (db.put k v t).2 := by
  unfold Db.put
  cases hfind : db.rows.find? (fun e => e.keyHex == normalizeHex k) with
  | some existing =>
    simp only [hfind]
    intro e he
    obtain ⟨e0, he0, rfl⟩ := List.mem_map.mp he
    by_cases hc : (e0.keyHex == normalizeHex k) = true
    · rw [if_pos hc]
      split
    -- upgraded either keeps a known type or receives the supplied known one
      · rename_i hcn
        exact ht
      · exact hT _ (List.mem_of_find?_eq_some hfind)
    · rw [if_neg hc]
      exact hT e0 he0
  | none =>
    simp only [hfind]
    intro e he
    rcases List.mem_append.mp he with he | he
    · exact hT e he
    · simp only [List.mem_singleton] at he
      subst he
      exact ht

/-- `put` never loses a readable binding. -/
theorem Db_get_put_extends (db : Db) (hwf : db.WF) (k v : List Char) (t : NodeTag) :
    DbExtends db (db.put k v t).2 := by
  intro q val hq
  unfold Db.put
  cases hfind : db.rows.find? (fun e => e.keyHex == normalizeHex k) with
  | some existing =>
    simp only [hfind]
    have hexkey : existing.keyHex = normalizeHex k := by
      have := List.find?_some hfind
      simpa using this
    unfold Db.get at hq ⊢
    simp only []
    set upg := if existing.nodeType = .unknown ∧ t ≠ .unknown then
        { existing with nodeType := t } else existing with hupgdef
    have hupgk : upg.keyHex = normalizeHex k := by
      rw [hupgdef]
      split <;> exact hexkey
    rw [find?_map_keyfix upg hupgk (normalizeHex q)]
    obtain ⟨r, hr, hval⟩ : ∃ r, db.rows.find? (fun e => e.keyHex == normalizeHex q)
        = some r ∧ r.valueHex = val := by
      cases hfq : db.rows.find? (fun e => e.keyHex == normalizeHex q) with
      | some r =>
        rw [hfq] at hq
        simp only [Option.map_some'] at hq
        injection hq with hv
        exact ⟨r, rfl, hv⟩
      | none =>
        rw [hfq] at hq
        simp at hq
    rw [hr]
    simp only [Option.map_some']
    by_cases hrk : (r.keyHex == normalizeHex k) = true
    · rw [if_pos hrk]
      have hrk' : r.keyHex = normalizeHex k := by simpa using hrk
      have hre : r = existing :=
        find?_key_unique hwf.2.2 hfind (List.mem_of_find?_eq_some hr) hrk'
      have hupg : upg.valueHex = existing.valueHex := by
        rw [hupgdef]
        split <;> rfl
      rw [hupg, ← hre, hval]
    · rw [if_neg hrk, hval]
  | none =>
    simp only [hfind]
    unfold Db.get at hq ⊢
    simp only []
    rw [find?_app]
    cases hfq : db.rows.find? (fun e => e.keyHex == normalizeHex q) with
    | some r =>
      rw [hfq] at hq
      exact hq
    | none =>
      rw [hfq] at hq
      simp at hq

/-- After `put`, the written key reads back the row `put` reported. -/
theorem Db_get_put_self (db : Db) (hwf : db.WF) (k v : List Char) (t : NodeTag) :
    (db.put k v t).2.get k = some ((db.put k v t).1.entry.valueHex) := by
  unfold Db.put
  cases hfind : db.rows.find? (fun e => e.keyHex == normalizeHex k) with
  | some existing =>
    simp only [hfind]
    have hexkey : existing.keyHex = normalizeHex k := by
      have := List.find?_some hfind
      simpa using this
    unfold Db.get
    simp only []
    set upg := if existing.nodeType = .unknown ∧ t ≠ .unknown then
        { existing with nodeType := t } else existing with hupgdef
    have hupgk : upg.keyHex = normalizeHex k := by
      rw [hupgdef]
      split <;> exact hexkey
    rw [find?_map_keyfix upg hupgk (normalizeHex k), hfind]
    simp only [Option.map_some']
    rw [if_pos (by simpa using hexkey)]
  | none =>
    simp only [hfind]
    unfold Db.get
    simp only []
    rw [find?_app, hfind]
    rw [List.find?_cons_of_pos _ (by simp)]
    simp

/-- A fresh `put` stamps the normalized value into the new row. -/
theorem Db_put_fresh_entry (db : Db) (k v : List Char) (t : NodeTag)
    (hnew : (db.put k v t).1.isNew = true) :
    (db.put k v t).1.entry.valueHex = normalizeHex v := by
  unfold Db.put at hnew ⊢
  cases hfind : db.rows.find? (fun e => e.keyHex == normalizeHex k) with
  | some existing =>
    simp only [hfind] at hnew
    simp at hnew
  | none =>
    simp only [hfind]

/-- A `put` on an existing key returns the stored value unchanged. -/
theorem Db_put_existing_entry (db : Db) (k v : List Char) (t : NodeTag)
    (hold : (db.put k v t).1.isNew = false) :
    db.get k = some ((db.put k v t).1.entry.valueHex) := by
  unfold Db.put at hold ⊢
  cases hfind : db.rows.find? (fun e => e.keyHex == normalizeHex k) with
  | some existing =>
    simp only [hfind]
    unfold Db.get
    rw [hfind]
    simp only [Option.map_some']
    have hupg : (if existing.nodeType = .unknown ∧ t ≠ .unknown then
        { existing with nodeType := t } else existing).valueHex = existing.valueHex := by
      split <;> rfl
    rw [hupg]
  | none =>
    simp only [hfind] at hold
    simp at hold

/-- A `put` on a key whose row exists with a known node type is a no-op on
the store. -/
theorem Db_put_existing_noop (db : Db) (hwf : db.WF) (hT : DbTyped db)
    (k v : List Char) (t : NodeTag)
    {existing : DbEntry}
    (hfind : db.rows.find? (fun e => e.keyHex == normalizeHex k) = some existing) :
    (db.put k v t).2 = db := by
  unfold Db.put
  simp only [hfind]
  have hmem : existing ∈ db.rows := List.mem_of_find?_eq_some hfind
  have hexkey : existing.keyHex = normalizeHex k := by
    have := List.find?_some hfind
    simpa using this
  have hupg : (if existing.nodeType = .unknown ∧ t ≠ .unknown then
      { existing with nodeType := t } else existing) = existing := by
    rw [if_neg]
    intro hc
    exact hT existing hmem hc.1
  rw [hupg]
  have hmap : db.rows.map (fun e => if e.keyHex == normalizeHex k then existing else e)
      = db.rows := by
    have : ∀ e ∈ db.rows,
        (if e.keyHex == normalizeHex k then existing else e) = e := by
      intro e he
      by_cases hc : (e.keyHex == normalizeHex k) = true
      · rw [if_pos hc]
        exact (find?_key_unique hwf.2.2 hfind he (by simpa using hc)).symm
      · rw [if_neg hc]
    calc db.rows.map (fun e => if e.keyHex == normalizeHex k then existing else e)
        = db.rows.map id := List.map_congr_left this
    _ = db.rows := List.map_id db.rows
  rw [hmap]

/-- `put` against an existing key leaves clock and rows untouched except for
the in-place row rewrite; in particular isNew decides which key set results. -/
theorem Db_put_WF (db : Db) (hwf : db.WF) (k v : List Char) (t : NodeTag) :
    (db.put k v t).2.WF :=
  (put_invariants db hwf k v t).2.2.2

/-! ## The abstraction relation between stored tries and pure trees -/

/-- How a parent refers to a serialized node: RLP shorter than 32 bytes is
embedded verbatim; otherwise the reference is the keccak hash and the store
maps the hash hex to the RLP hex. -/
def RefFor (keccak : List Nat → List Nat) (db : Db) (rlp ref : List Nat) : Prop :=
  if rlp.length < 32 then ref = rlp
  else ref = keccak rlp ∧ db.get (bytesToHex (keccak rlp)) = some (bytesToHex rlp)

/-- A reference plus a store represent a pure (non-empty) tree. -/
inductive Abs (keccak : List Nat → List Nat) (db : Db) : List Nat → PTrie → Prop
  | leaf {p v rlp ref : List Nat}
      (hok : NodeOk (.leaf p v)) (hvB : ByteOk v)
      (henc : encodeTrieNode (.leaf p v) = some rlp) (hrlpB : ByteOk rlp)
      (href : RefFor keccak db rlp ref) :
      Abs keccak db ref (.pleaf p v)
  | ext {p cref rlp ref : List Nat} {c : PTrie}
      (hok : NodeOk (.extension p cref)) (hpne : p ≠ [])
      (hc : Abs keccak db cref c)
      (henc : encodeTrieNode (.extension p cref) = some rlp) (hrlpB : ByteOk rlp)
      (href : RefFor keccak db rlp ref) :
      Abs keccak db ref (.pext p c)
  | branch {refs : List (List Nat)} {v rlp ref : List Nat} {ch : Nat → PTrie}
      (hok : NodeOk (.branch refs v)) (hvB : ByteOk v)
      (hrB : ∀ r ∈ refs, ByteOk r)
      (hch0 : ∀ i, i < 16 → refs.getD i EMPTY_BYTES = [] → ch i = .pempty)
      (hch1 : ∀ i, i < 16 → refs.getD i EMPTY_BYTES ≠ [] →
        Abs keccak db (refs.getD i EMPTY_BYTES) (ch i))
      (hch16 : ∀ i, 16 ≤ i → ch i = .pempty)
      (henc : encodeTrieNode (.branch refs v) = some rlp) (hrlpB : ByteOk rlp)
      (href : RefFor keccak db rlp ref) :
      Abs keccak db ref (.pbranch ch v)

/-- Root-level abstraction: the zero-length reference is the empty trie. -/
def AbsR (keccak : List Nat → List Nat) (db : Db) (ref : List Nat) (t : PTrie) :
    Prop :=
  (ref = [] ∧ t = .pempty) ∨ Abs keccak db ref t

theorem RefFor_mono {keccak : List Nat → List Nat} {db db' : Db}
    (hext : DbExtends db db') {rlp ref : List Nat}
    (h : RefFor keccak db rlp ref) : RefFor keccak db' rlp ref := by
  unfold RefFor at h ⊢
  by_cases hlt : rlp.length < 32
  · rw [if_pos hlt] at h ⊢
    exact h
  · rw [if_neg hlt] at h ⊢
    exact ⟨h.1, hext _ _ h.2⟩

theorem Abs_mono {keccak : List Nat → List Nat} {db db' : Db}
    (hext : DbExtends db db') :
    ∀ {ref : List Nat} {t : PTrie}, Abs keccak db ref t → Abs keccak db' ref t := by
  intro ref t h
  induction h with
  | leaf hok hvB henc hrlpB href =>
    exact .leaf hok hvB henc hrlpB (RefFor_mono hext href)
  | ext hok hpne hc henc hrlpB href ih =>
    exact .ext hok hpne ih henc hrlpB (RefFor_mono hext href)
  | branch hok hvB hrB hch0 hch1 hch16 henc hrlpB href ih =>
    exact .branch hok hvB hrB hch0 (fun i hi hne => ih i hi hne) hch16 henc hrlpB
      (RefFor_mono hext href)

theorem AbsR_mono {keccak : List Nat → List Nat} {db db' : Db}
    (hext : DbExtends db db') {ref : List Nat} {t : PTrie}
    (h : AbsR keccak db ref t) : AbsR keccak db' ref t := by
  rcases h with h | h
  · exact Or.inl h
  · exact Or.inr (Abs_mono hext h)

theorem Abs_ref_facts {keccak : List Nat → List Nat}
    (Hlen : ∀ b, (keccak b).length = 32) (HByte : ∀ b, ByteOk (keccak b))
    {db : Db} {ref : List Nat} {t : PTrie} (h : Abs keccak db ref t) :
    ByteOk ref ∧ ref ≠ [] ∧ ref.length ≤ 32 := by
  have hcore : ∃ rlp node, encodeTrieNode node = some rlp ∧ ByteOk rlp ∧
      RefFor keccak db rlp ref := by
    cases h with
    | leaf hok hvB henc hrlpB href => exact ⟨_, _, henc, hrlpB, href⟩
    | ext hok hpne hc henc hrlpB href => exact ⟨_, _, henc, hrlpB, href⟩
    | branch hok hvB hrB hch0 hch1 hch16 henc hrlpB href =>
      exact ⟨_, _, henc, hrlpB, href⟩
  obtain ⟨rlp, node, henc, hrlpB, href⟩ := hcore
  unfold RefFor at href
  by_cases hlt : rlp.length < 32
  · rw [if_pos hlt] at href
    subst href
    exact ⟨hrlpB, encodeTrieNode_ne_nil henc, by omega⟩
  · rw [if_neg hlt] at href
    obtain ⟨h1, h2⟩ := href
    subst h1
    refine ⟨HByte rlp, ?_, by rw [Hlen]⟩
    intro hc
    have h32 := Hlen rlp
    rw [hc] at h32
    simp at h32

/-! ## Resolve and finalize against the abstraction -/

theorem Db_put_existing_full (db : Db) (hwf : db.WF) (hT : DbTyped db)
    (k v : List Char) (t : NodeTag) {existing : DbEntry}
    (hfind : db.rows.find? (fun e => e.keyHex == normalizeHex k) = some existing) :
    db.put k v t = ({ isNew := false, entry := existing }, db) := by
  unfold Db.put
  simp only [hfind]
  have hmem : existing ∈ db.rows := List.mem_of_find?_eq_some hfind
  have hupg : (if existing.nodeType = .unknown ∧ t ≠ .unknown then
      { existing with nodeType := t } else existing) = existing := by
    rw [if_neg]
    intro hcon
    exact hT existing hmem hcon.1
  rw [hupg]
  have hmap : db.rows.map (fun e => if e.keyHex == normalizeHex k then existing else e)
      = db.rows := by
    have hpt : ∀ e ∈ db.rows,
        (if e.keyHex == normalizeHex k then existing else e) = e := by
      intro e he
      by_cases hcc : (e.keyHex == normalizeHex k) = true
      · rw [if_pos hcc]
        exact (find?_key_unique hwf.2.2 hfind he (by simpa using hcc)).symm
      · rw [if_neg hcc]
    calc db.rows.map (fun e => if e.keyHex == normalizeHex k then existing else e)
        = db.rows.map id := List.map_congr_left hpt
    _ = db.rows := List.map_id db.rows
  rw [hmap]

/-- `resolveNode` on a reference that stands for `rlp` (cache disabled)
returns the decoded node and the state unchanged. -/
theorem resolveNode_eq {keccak : List Nat → List Nat}
    (Hlen : ∀ b, (keccak b).length = 32) {st : St} (hc : st.useCache = false)
    {rlp ref : List Nat} {node : TrieNode}
    (href : RefFor keccak st.db rlp ref) (hrlpB : ByteOk rlp)
    (hdec : decodeTrieNode rlp = some node) :
    resolveNode keccak ref st =
      some ({ node := node, rlp := rlp, id := nodeIdFromRef keccak ref }, st) := by
  unfold RefFor at href
  by_cases hlt : rlp.length < 32
  · rw [if_pos hlt] at href
    subst href
    unfold resolveNode
    rw [if_neg (by omega : ¬ ref.length = 32)]
    rw [hdec]
    rfl
  · rw [if_neg hlt] at href
    obtain ⟨h1, hget⟩ := href
    subst h1
    unfold resolveNode
    rw [if_pos (Hlen rlp), hc]
    simp only [Bool.false_eq_true, if_false, hget, hexToBytes_bytesToHex rlp hrlpB,
      hdec, Option.map_some']

/-- `finalizeNode` with the cache disabled: the computation succeeds, the
store only grows, typing and well-formedness persist, and on a clean run the
returned reference stands for the node's RLP in the resulting store. -/
theorem finalizeNode_spec {keccak : List Nat → List Nat}
    (Hlen : ∀ b, (keccak b).length = 32) (HByte : ∀ b, ByteOk (keccak b))
    {node : TrieNode} {rlp : List Nat} {st : St}
    (hc : st.useCache = false) (hwf : st.db.WF) (hT : DbTyped st.db)
    (henc : encodeTrieNode node = some rlp) (hB : ByteOk rlp) :
    ∃ fn st', finalizeNode keccak node st = some (fn, st') ∧
      st'.useCache = false ∧ st'.cache = st.cache ∧ st'.db.WF ∧ DbTyped st'.db ∧
      DbExtends st.db st'.db ∧ (st'.clean = true → st.clean = true) ∧
      (st'.clean = true → RefFor keccak st'.db rlp fn.ref) ∧
      ByteOk fn.ref ∧ fn.ref ≠ [] ∧ fn.ref.length ≤ 32 := by
  unfold finalizeNode
  simp only [henc]
  by_cases hlt : rlp.length < 32
  · rw [if_pos hlt]
    refine ⟨_, _, rfl, hc, rfl, hwf, hT, DbExtends_refl _, fun h => h, ?_,
      hB, encodeTrieNode_ne_nil henc, by show rlp.length ≤ 32; omega⟩
    intro _
    unfold RefFor
    rw [if_pos hlt]
  · rw [if_neg hlt]
    refine ⟨_, _, rfl, hc, ?_, Db_put_WF st.db hwf _ _ _,
      DbTyped_put st.db hT _ _ (TrieNode.tag_ne_unknown node),
      Db_get_put_extends st.db hwf _ _ _, ?_, ?_, HByte rlp, ?_,
      by show (keccak rlp).length ≤ 32; rw [Hlen]⟩
    · rw [hc]
      rfl
    · intro hcl
      rw [Bool.and_eq_true] at hcl
      exact hcl.1
    · intro hcl
      rw [Bool.and_eq_true] at hcl
      unfold RefFor
      rw [if_neg hlt]
      refine ⟨rfl, ?_⟩
      have hcond := hcl.2
      have hself := Db_get_put_self st.db hwf (bytesToHex (keccak rlp))
        (bytesToHex rlp) node.tag
      rw [Bool.or_eq_true] at hcond
      rcases hcond with hnew | hval
      · rw [Db_put_fresh_entry st.db (bytesToHex (keccak rlp)) (bytesToHex rlp)
          node.tag hnew, normalizeHex_bytesToHex rlp hB] at hself
        exact hself
      · have hval2 : (st.db.put (bytesToHex (keccak rlp)) (bytesToHex rlp)
            node.tag).1.entry.valueHex = bytesToHex rlp := by simpa using hval
        rw [hval2] at hself
        exact hself
    · intro hcon
      have hcon2 : keccak rlp = [] := hcon
      have h32 := Hlen rlp
      rw [hcon2] at h32
      simp at h32

/-- Re-finalizing a node whose reference is already in place is a no-op on
the state and returns the same reference. -/
theorem finalizeNode_noop {keccak : List Nat → List Nat}
    (Hlen : ∀ b, (keccak b).length = 32) {node : TrieNode} {rlp ref : List Nat}
    {st : St} (hc : st.useCache = false) (hwf : st.db.WF) (hT : DbTyped st.db)
    (henc : encodeTrieNode node = some rlp) (hB : ByteOk rlp)
    (href : RefFor keccak st.db rlp ref) :
    finalizeNode keccak node st =
      some ({ ref := ref, id := nodeIdFromRef keccak ref }, st) := by
  obtain ⟨sdb, scache, suc, sclean⟩ := st
  replace hc : suc = false := hc
  subst hc
  replace hwf : sdb.WF := hwf
  replace hT : DbTyped sdb := hT
  replace href : RefFor keccak sdb rlp ref := href
  unfold finalizeNode
  simp only [henc]
  unfold RefFor at href
  by_cases hlt : rlp.length < 32
  · rw [if_pos hlt]
    rw [if_pos hlt] at href
    subst href
    rfl
  · rw [if_neg hlt]
    rw [if_neg hlt] at href
    obtain ⟨h1, hget⟩ := href
    obtain ⟨ex, hfind, hexval⟩ : ∃ ex, sdb.rows.find?
        (fun e => e.keyHex == normalizeHex (bytesToHex (keccak rlp))) = some ex ∧
        ex.valueHex = bytesToHex rlp := by
      unfold Db.get at hget
      cases hf : sdb.rows.find?
          (fun e => e.keyHex == normalizeHex (bytesToHex (keccak rlp))) with
      | some ex =>
        rw [hf] at hget
        simp only [Option.map_some'] at hget
        injection hget with hv
        exact ⟨ex, rfl, hv⟩
      | none =>
        rw [hf] at hget
        simp at hget
    have hput := Db_put_existing_full sdb hwf hT (bytesToHex (keccak rlp))
      (bytesToHex rlp) node.tag hfind
    simp only [hput]
    have hbeq : (ex.valueHex == bytesToHex rlp) = true := by
      rw [hexval]
      simp
    simp only [hbeq, Bool.false_or, Bool.and_true, Bool.false_eq_true, if_false]
    have hid : nodeIdFromRef keccak ref = bytesToHex (keccak rlp) := by
      unfold nodeIdFromRef
      rw [h1]
      rw [if_neg (by rw [Hlen]; omega), if_pos (Hlen rlp)]
    rw [hid, h1]

/-! ## Lookup refines the pure denotation -/

theorem lookupAt_refines {keccak : List Nat → List Nat}
    (Hlen : ∀ b, (keccak b).length = 32) (HByte : ∀ b, ByteOk (keccak b)) :
    ∀ (t : PTrie) (fuel : Nat) (ref key : List Nat) (consumed : Nat) (st : St),
      st.useCache = false → NibbleOk key → AbsR keccak st.db ref t →
      key.length + 1 ≤ fuel →
      ∃ out, lookupAt keccak fuel ref key consumed st = some (out, st) ∧
        out.found = (Den t key).isSome ∧ out.value = Den t key ∧
        (out.found = true → out.mismatchReason = none) := by
  intro t
  induction t with
  | pempty =>
    intro fuel ref key consumed st hc hk habs hfuel
    rcases habs with ⟨rfl, _⟩ | habs
    · obtain ⟨f, rfl⟩ : ∃ f, fuel = f + 1 := ⟨fuel - 1, by omega⟩
      refine ⟨{ found := false, value := none, mismatchReason := some (String.toList "Missing child reference") }, ?_, rfl, rfl, ?_⟩
      · simp only [lookupAt]
        rw [if_pos (show ([] : List Nat).length = 0 from rfl)]
      · intro h
        exact absurd h (by simp)
    · cases habs
  | pleaf p lv =>
    intro fuel ref key consumed st hc hk habs hfuel
    rcases habs with ⟨rfl, hte⟩ | habs
    · cases hte
    · cases habs with
      | leaf hok hvB henc hrlpB href =>
        obtain ⟨f, rfl⟩ : ∃ f, fuel = f + 1 := ⟨fuel - 1, by omega⟩
        have hdec := decodeTrieNode_of_enc hok henc
        have hres := resolveNode_eq Hlen hc href hrlpB hdec
        have hrefne : ref ≠ [] :=
          (Abs_ref_facts Hlen HByte (Abs.leaf hok hvB henc hrlpB href)).2.1
        simp only [lookupAt]
        rw [if_neg (by simpa [List.length_eq_zero] using hrefne)]
        simp only [hres, Option.bind_eq_bind, Option.some_bind]
        by_cases hkey : equalBytes p key = true
        · have hpk : p = key := (equalBytes_iff p key).mp hkey
          simp only [hkey, if_true]
          refine ⟨_, rfl, ?_, ?_, fun _ => rfl⟩
          · rw [Den, if_pos hpk.symm]
            rfl
          · rw [Den, if_pos hpk.symm]
        · have hpk : ¬ (key = p) := fun hcon =>
            hkey ((equalBytes_iff p key).mpr hcon.symm)
          simp only [hkey, Bool.false_eq_true, if_false]
          refine ⟨_, rfl, ?_, ?_, ?_⟩
          · rw [Den, if_neg hpk]
            rfl
          · rw [Den, if_neg hpk]
          · intro h
            exact absurd h (by simp)
  | pext p c ih =>
    intro fuel ref key consumed st hc hk habs hfuel
    rcases habs with ⟨rfl, hte⟩ | habs
    · cases hte
    · cases habs with
      | ext hok hpne hcabs henc hrlpB href =>
        rename_i cref rlp
        obtain ⟨f, rfl⟩ : ∃ f, fuel = f + 1 := ⟨fuel - 1, by omega⟩
        have hdec := decodeTrieNode_of_enc hok henc
        have hres := resolveNode_eq Hlen hc href hrlpB hdec
        have hrefne : ref ≠ [] :=
          (Abs_ref_facts Hlen HByte (Abs.ext hok hpne hcabs henc hrlpB href)).2.1
        simp only [lookupAt]
        rw [if_neg (by simpa [List.length_eq_zero] using hrefne)]
        simp only [hres, Option.bind_eq_bind, Option.some_bind]
        by_cases hpre : p <+: key
        · have hsw : nibblesStartWith key p = true := by
            simp [nibblesStartWith, hpre]
          simp only [hsw, if_true]
          have hp1 : 0 < p.length := List.length_pos.mpr hpne
          obtain ⟨out, hlook, h1, h2, h3⟩ := ih f cref (key.drop p.length)
            (consumed + p.length) st hc (NibbleOk_drop hk _) (Or.inr hcabs)
            (by rw [List.length_drop]; have := hpre.length_le; omega)
          refine ⟨out, hlook, ?_, ?_, h3⟩
          · rw [h1, Den, if_pos hpre]
          · rw [h2, Den, if_pos hpre]
        · have hsw : nibblesStartWith key p = false := by
            simp [nibblesStartWith, hpre]
          simp only [hsw, Bool.false_eq_true, if_false]
          refine ⟨_, rfl, ?_, ?_, ?_⟩
          · rw [Den, if_neg hpre]
            rfl
          · rw [Den, if_neg hpre]
          · intro h
            exact absurd h (by simp)
  | pbranch ch bv ih =>
    intro fuel ref key consumed st hc hk habs hfuel
    rcases habs with ⟨rfl, hte⟩ | habs
    · cases hte
    · cases habs with
      | branch hok hvB hrB hch0 hch1 hch16 henc hrlpB href =>
        rename_i refs rlp
        obtain ⟨f, rfl⟩ : ∃ f, fuel = f + 1 := ⟨fuel - 1, by omega⟩
        have hdec := decodeTrieNode_of_enc hok henc
        have hres := resolveNode_eq Hlen hc href hrlpB hdec
        have hrefne : ref ≠ [] :=
          (Abs_ref_facts Hlen HByte
            (Abs.branch hok hvB hrB hch0 hch1 hch16 henc hrlpB href)).2.1
        simp only [lookupAt]
        rw [if_neg (by simpa [List.length_eq_zero] using hrefne)]
        simp only [hres, Option.bind_eq_bind, Option.some_bind]
        cases key with
        | nil =>
          by_cases hbv : bv.length = 0
          · have hbe : bv = [] := List.length_eq_zero.mp hbv
            simp only [hbv, if_pos rfl]
            refine ⟨_, rfl, ?_, ?_, ?_⟩
            · rw [Den, if_pos hbe]
              rfl
            · rw [Den, if_pos hbe]
            · intro h
              exact absurd h (by simp)
          · have hbe : ¬ (bv = []) := fun hcon => hbv (by rw [hcon]; rfl)
            rw [if_neg hbv]
            refine ⟨_, rfl, ?_, ?_, fun _ => rfl⟩
            · rw [Den, if_neg hbe]
              rfl
            · rw [Den, if_neg hbe]
        | cons i rest =>
          have hi : i < 16 := by
            have := hk i (List.mem_cons_self i rest)
            omega
          have hrest : NibbleOk rest := fun x hx => hk x (List.mem_cons_of_mem i hx)
          have habsc : AbsR keccak st.db (refs.getD i EMPTY_BYTES) (ch i) := by
            by_cases hnil : refs.getD i EMPTY_BYTES = []
            · exact Or.inl ⟨hnil, hch0 i hi hnil⟩
            · exact Or.inr (hch1 i hi hnil)
          obtain ⟨out, hlook, h1, h2, h3⟩ := ih i f (refs.getD i EMPTY_BYTES) rest
            (consumed + 1) st hc hrest habsc
            (by simp only [List.length_cons] at hfuel; omega)
          refine ⟨out, hlook, ?_, ?_, h3⟩
          · rw [h1, Den]
          · rw [h2, Den]

/-! ## Insert refines the pure insert: branch-children scaffolding -/

/-- The 16 child-reference slots of a stored branch stand for the pure
children. -/
def ChildrenAbs (keccak : List Nat → List Nat) (db : Db) (refs : List (List Nat))
    (ch : Nat → PTrie) : Prop :=
  (∀ i, i < 16 → (refs.getD i EMPTY_BYTES = [] → ch i = PTrie.pempty) ∧
    (refs.getD i EMPTY_BYTES ≠ [] →
      Abs keccak db (refs.getD i EMPTY_BYTES) (ch i))) ∧
  (∀ i, 16 ≤ i → ch i = PTrie.pempty)

theorem getD_replicate_empty (i : Nat) :
    (List.replicate 16 EMPTY_BYTES).getD i EMPTY_BYTES = [] :=
  getD_replicate_nil 16 i

theorem getD_set_empty16 {l : List (List Nat)} (hlen : l.length = 16) {j : Nat}
    (hj : j < 16) (r : List Nat) (i : Nat) :
    (l.set j r).getD i EMPTY_BYTES = if i = j then r else l.getD i EMPTY_BYTES :=
  getD_set_sixteen r i (by omega)

theorem ChildrenAbs_empty (keccak : List Nat → List Nat) (db : Db) :
    ChildrenAbs keccak db (List.replicate 16 EMPTY_BYTES) chEmpty := by
  refine ⟨?_, fun i _ => rfl⟩
  intro i _
  rw [getD_replicate_empty]
  exact ⟨fun _ => rfl, fun hcon => absurd rfl hcon⟩

theorem ChildrenAbs_set {keccak : List Nat → List Nat} {db : Db}
    {refs : List (List Nat)} {ch : Nat → PTrie}
    (h : ChildrenAbs keccak db refs ch) (h16 : refs.length = 16) {a : Nat}
    (ha : a < 16) {ra : List Nat} {ta : PTrie} (hrane : ra ≠ [])
    (hta : Abs keccak db ra ta) :
    ChildrenAbs keccak db (refs.set a ra) (chUpd ch a ta) := by
  refine ⟨?_, ?_⟩
  · intro i hi
    rw [getD_set_empty16 h16 ha ra i]
    by_cases hia : i = a
    · rw [if_pos hia]
      constructor
      · intro hcon
        exact absurd hcon hrane
      · intro _
        simp only [chUpd, if_pos hia]
        exact hta
    · rw [if_neg hia]
      simp only [chUpd, if_neg hia]
      exact h.1 i hi
  · intro i hi
    simp only [chUpd]
    rw [if_neg (by omega)]
    exact h.2 i hi

theorem ChildrenAbs_mono {keccak : List Nat → List Nat} {db db' : Db}
    (hext : DbExtends db db') {refs : List (List Nat)} {ch : Nat → PTrie}
    (h : ChildrenAbs keccak db refs ch) : ChildrenAbs keccak db' refs ch := by
  refine ⟨?_, h.2⟩
  intro i hi
  exact ⟨(h.1 i hi).1, fun hne => Abs_mono hext ((h.1 i hi).2 hne)⟩

theorem Abs_branch_of {keccak : List Nat → List Nat} {db : Db}
    {refs : List (List Nat)} {ch : Nat → PTrie} {bv rlp fref : List Nat}
    (hca : ChildrenAbs keccak db refs ch) (h16 : refs.length = 16)
    (hrlen : ∀ r ∈ refs, r.length < 2 ^ 59) (hrB : ∀ r ∈ refs, ByteOk r)
    (hbvB : ByteOk bv) (hbvlen : bv.length < 2 ^ 59)
    (henc : encodeTrieNode (.branch refs bv) = some rlp) (hrlpB : ByteOk rlp)
    (href : RefFor keccak db rlp fref) : Abs keccak db fref (.pbranch ch bv) :=
  Abs.branch ⟨h16, hrlen, hbvlen⟩ hbvB hrB (fun i hi => (hca.1 i hi).1)
    (fun i hi => (hca.1 i hi).2) hca.2 henc hrlpB href

/-- The shared tail of both split paths of `insertAt`: finalize the branch
and, when part of the key was shared, wrap it in an extension. -/
def insertTail (keccak : List Nat → List Nat) (refs : List (List Nat))
    (bv : List Nat) (changed : List (List Char)) (key : List Nat) (shared : Nat)
    (st : St) : Option (InsertOutcome × St) := do
  let (branchFinal, st₄) ← finalizeNode keccak (.branch refs bv) st
  if 0 < shared then do
    let (extFinal, st₅) ←
      finalizeNode keccak (.extension (key.take shared) branchFinal.ref) st₄
    pure ({ rootRef := extFinal.ref,
            changedNodeIds := changed ++ [branchFinal.id] ++ [extFinal.id] }, st₅)
  else
    pure ({ rootRef := branchFinal.ref,
            changedNodeIds := changed ++ [branchFinal.id] }, st₄)

theorem insertTail_spec {keccak : List Nat → List Nat}
    (Hlen : ∀ b, (keccak b).length = 32) (HByte : ∀ b, ByteOk (keccak b))
    {refs : List (List Nat)} {ch : Nat → PTrie} {bv : List Nat}
    {changed : List (List Char)} {key : List Nat} {shared : Nat} {st : St}
    (hc : st.useCache = false) (hwf : st.db.WF) (hT : DbTyped st.db)
    (h16 : refs.length = 16) (hrlen : ∀ r ∈ refs, r.length < 2 ^ 59)
    (hrB : ∀ r ∈ refs, ByteOk r)
    (hbvB : ByteOk bv) (hbvlen : bv.length < 2 ^ 59)
    (hknib : NibbleOk key) (hklen : key.length < 2 ^ 59) (hsk : shared ≤ key.length)
    (hch : st.clean = true → ChildrenAbs keccak st.db refs ch) :
    ∃ out st', insertTail keccak refs bv changed key shared st = some (out, st') ∧
      st'.useCache = false ∧ st'.cache = st.cache ∧ st'.db.WF ∧ DbTyped st'.db ∧
      DbExtends st.db st'.db ∧ (st'.clean = true → st.clean = true) ∧
      ByteOk out.rootRef ∧ out.rootRef ≠ [] ∧ out.rootRef.length ≤ 32 ∧
      (st'.clean = true → Abs keccak st'.db out.rootRef
        (if 0 < shared then .pext (key.take shared) (.pbranch ch bv)
          else .pbranch ch bv)) := by
  have hbrOk : NodeOk (.branch refs bv) := ⟨h16, hrlen, hbvlen⟩
  obtain ⟨rlp₄, henc₄, _⟩ := decode_encode_node _ hbrOk
  have hrlpB₄ : ByteOk rlp₄ := encodeTrieNode_ByteOk hbrOk ⟨hrB, hbvB⟩ henc₄
  obtain ⟨fn₄, st₄, hfin₄, hc₄, hcache₄, hwf₄, hT₄, hext₄, hclean₄, href₄,
    hrefB₄, hrefne₄, hreflen₄⟩ := finalizeNode_spec Hlen HByte hc hwf hT henc₄ hrlpB₄
  unfold insertTail
  simp only [hfin₄, Option.bind_eq_bind, Option.some_bind]
  by_cases hpos : 0 < shared
  · rw [if_pos hpos]
    have hextOk : NodeOk (.extension (key.take shared) fn₄.ref) := by
      refine ⟨NibbleOk_take hknib shared, ?_, by omega⟩
      rw [List.length_take]
      omega
    obtain ⟨rlp₅, henc₅, _⟩ := decode_encode_node _ hextOk
    have hrlpB₅ : ByteOk rlp₅ := encodeTrieNode_ByteOk hextOk hrefB₄ henc₅
    obtain ⟨fn₅, st₅, hfin₅, hc₅, hcache₅, hwf₅, hT₅, hext₅, hclean₅, href₅,
      hrefB₅, hrefne₅, hreflen₅⟩ :=
      finalizeNode_spec Hlen HByte hc₄ hwf₄ hT₄ henc₅ hrlpB₅
    simp only [hfin₅, Option.bind_eq_bind, Option.some_bind]
    refine ⟨_, _, rfl, hc₅, by rw [hcache₅, hcache₄],
      hwf₅, hT₅, DbExtends_trans hext₄ hext₅,
      fun h => hclean₄ (hclean₅ h), hrefB₅, hrefne₅, hreflen₅, ?_⟩
    intro hcl₅
    have hcl₄ : st₄.clean = true := hclean₅ hcl₅
    have hcl : st.clean = true := hclean₄ hcl₄
    rw [if_pos hpos]
    have hbrAbs : Abs keccak st₄.db fn₄.ref (.pbranch ch bv) :=
      Abs_branch_of (ChildrenAbs_mono hext₄ (hch hcl)) h16 hrlen hrB hbvB hbvlen
        henc₄ hrlpB₄ (href₄ hcl₄)
    exact Abs.ext hextOk (take_ne_nil hpos hsk) (Abs_mono hext₅ hbrAbs) henc₅
      hrlpB₅ (href₅ hcl₅)
  · rw [if_neg hpos]
    refine ⟨_, _, rfl, hc₄, hcache₄, hwf₄, hT₄, hext₄, hclean₄,
      hrefB₄, hrefne₄, hreflen₄, ?_⟩
    intro hcl₄
    have hcl : st.clean = true := hclean₄ hcl₄
    rw [if_neg hpos]
    exact Abs_branch_of (ChildrenAbs_mono hext₄ (hch hcl)) h16 hrlen hrB hbvB
      hbvlen henc₄ hrlpB₄ (href₄ hcl₄)

theorem forall_mem_set {P : List Nat → Prop} {l : List (List Nat)} {a : Nat}
    {r : List Nat} (hl : ∀ c ∈ l, P c) (hr : P r) : ∀ c ∈ l.set a r, P c := by
  intro c hcm
  rcases List.mem_or_eq_of_mem_set hcm with h | h
  · exact hl c h
  · exact h ▸ hr

theorem forall_mem_replicate_empty {P : List Nat → Prop} (h : P EMPTY_BYTES) :
    ∀ c ∈ List.replicate 16 EMPTY_BYTES, P c := by
  intro c hcm
  rw [List.eq_of_mem_replicate hcm]
  exact h

/-- Stateful insert refines the pure insert: it succeeds given linear fuel,
the store only grows, and on a clean run the returned root stands for the
purely-updated tree. -/
theorem insertAt_refines {keccak : List Nat → List Nat}
    (Hlen : ∀ b, (keccak b).length = 32) (HByte : ∀ b, ByteOk (keccak b)) :
    ∀ (t : PTrie) (fuel : Nat) (ref key value : List Nat) (consumed : Nat) (st : St),
      st.useCache = false → st.db.WF → DbTyped st.db →
      AbsR keccak st.db ref t →
      NibbleOk key → key.length < 2 ^ 59 →
      ByteOk value → value.length < 2 ^ 59 →
      key.length + 1 ≤ fuel →
      ∃ out st', insertAt keccak fuel ref key value consumed st = some (out, st') ∧
        st'.useCache = false ∧ st'.cache = st.cache ∧ st'.db.WF ∧ DbTyped st'.db ∧
        DbExtends st.db st'.db ∧ (st'.clean = true → st.clean = true) ∧
        ByteOk out.rootRef ∧ out.rootRef ≠ [] ∧ out.rootRef.length ≤ 32 ∧
        (st'.clean = true → Abs keccak st'.db out.rootRef (pinsert t key value)) := by
  intro t
  induction t with
  | pempty =>
    intro fuel ref key value consumed st hc hwf hT habs hknib hklen hvalB hvallen hfuel
    rcases habs with ⟨rfl, _⟩ | habs
    · obtain ⟨f, rfl⟩ : ∃ f, fuel = f + 1 := ⟨fuel - 1, by omega⟩
      simp only [insertAt]
      rw [if_pos (show ([] : List Nat).length = 0 from rfl)]
      have hokN : NodeOk (.leaf key value) := ⟨hknib, hklen, hvallen⟩
      obtain ⟨rlpN, hencN, _⟩ := decode_encode_node _ hokN
      have hrlpBN := encodeTrieNode_ByteOk hokN hvalB hencN
      obtain ⟨fn, st', hfin, hc', hcache', hwf', hT', hext', hclean', href',
        hrefB', hrefne', hreflen'⟩ :=
        finalizeNode_spec Hlen HByte hc hwf hT hencN hrlpBN
      rw [hfin]
      simp only [Option.map_some']
      refine ⟨_, _, rfl, hc', hcache', hwf', hT', hext', hclean', hrefB',
        hrefne', hreflen', ?_⟩
      intro hcl
      exact Abs.leaf hokN hvalB hencN hrlpBN (href' hcl)
    · cases habs
  | pleaf p lv =>
    intro fuel ref key value consumed st hc hwf hT habs hknib hklen hvalB hvallen hfuel
    rcases habs with ⟨rfl, hte⟩ | habs
    · cases hte
    cases habs with
    | leaf hok hvB henc hrlpB href =>
      rename_i rlp
      obtain ⟨f, rfl⟩ : ∃ f, fuel = f + 1 := ⟨fuel - 1, by omega⟩
      have hres := resolveNode_eq Hlen hc href hrlpB (decodeTrieNode_of_enc hok henc)
      have hrefne : ref ≠ [] :=
        (Abs_ref_facts Hlen HByte (Abs.leaf hok hvB henc hrlpB href)).2.1
      simp only [insertAt]
      rw [if_neg (by simpa [List.length_eq_zero] using hrefne)]
      simp only [hres, Option.bind_eq_bind, Option.some_bind, Option.pure_def]
      by_cases hexact : commonPrefixLength p key = p.length ∧
          commonPrefixLength p key = key.length
      · rw [if_pos hexact]
        have hokN : NodeOk (.leaf p value) := ⟨hok.1, hok.2.1, hvallen⟩
        obtain ⟨rlpN, hencN, _⟩ := decode_encode_node _ hokN
        have hrlpBN := encodeTrieNode_ByteOk hokN hvalB hencN
        obtain ⟨fn, st', hfin, hc', hcache', hwf', hT', hext', hclean', href',
          hrefB', hrefne', hreflen'⟩ :=
          finalizeNode_spec Hlen HByte hc hwf hT hencN hrlpBN
        simp only [hfin, Option.bind_eq_bind, Option.some_bind, Option.pure_def]
        refine ⟨_, _, rfl, hc', hcache', hwf', hT', hext', hclean', hrefB',
          hrefne', hreflen', ?_⟩
        intro hcl
        have hpins : pinsert (.pleaf p lv) key value = .pleaf p value := by
          simp only [pinsert]
          rw [if_pos hexact]
        rw [hpins]
        exact Abs.leaf hokN hvalB hencN hrlpBN (href' hcl)
      · rw [if_neg hexact]
        have hsk : commonPrefixLength p key ≤ key.length := cpl_le_right p key
        rcases hop : p.drop (commonPrefixLength p key) with _ | ⟨oi, orest⟩ <;>
          rcases hnk : key.drop (commonPrefixLength p key) with _ | ⟨ni, nrest⟩
        · exfalso
          have h1 := List.drop_eq_nil_iff.mp hop
          have h2 := List.drop_eq_nil_iff.mp hnk
          have h3 := cpl_le_left p key
          exact hexact ⟨by omega, by omega⟩
        · -- old path consumed, new key continues: one new leaf then the tail
          obtain ⟨hni, hnrest, hnlen⟩ := drop_cons_facts hknib hklen hnk
          simp only [hop, hnk, Option.bind_eq_bind, Option.some_bind, Option.pure_def]
          have hokN : NodeOk (.leaf nrest value) := ⟨hnrest, hnlen, hvallen⟩
          obtain ⟨rlpN, hencN, _⟩ := decode_encode_node _ hokN
          have hrlpBN := encodeTrieNode_ByteOk hokN hvalB hencN
          obtain ⟨fnN, stN, hfinN, hcN, hcacheN, hwfN, hTN, hextN, hcleanN,
            hrefN, hrefBN, hrefneN, hreflenN⟩ :=
            finalizeNode_spec Hlen HByte hc hwf hT hencN hrlpBN
          simp only [hfinN, Option.bind_eq_bind, Option.some_bind, Option.pure_def]
          obtain ⟨out, st', htail, hc', hcache', hwf', hT', hext', hclean',
            hrefB', hrefne', hreflen', habs'⟩ :=
            @insertTail_spec keccak Hlen HByte
              ((List.replicate 16 EMPTY_BYTES).set ni fnN.ref)
              (chUpd chEmpty ni (.pleaf nrest value)) lv ([] ++ [fnN.id]) key
              (commonPrefixLength p key) stN hcN hwfN hTN
              (by simp)
              (forall_mem_set (forall_mem_replicate_empty (by simp [EMPTY_BYTES]))
                (by omega))
              (forall_mem_set (forall_mem_replicate_empty EMPTY_BYTES_ByteOk) hrefBN)
              hvB hok.2.2 hknib hklen hsk
              (fun hcl => ChildrenAbs_set (ChildrenAbs_empty keccak stN.db)
                (by simp) (by omega) hrefneN
                (Abs.leaf hokN hvalB hencN hrlpBN (hrefN hcl)))
          refine ⟨out, st', htail, hc', by rw [hcache', hcacheN], hwf', hT',
            DbExtends_trans hextN hext', fun h => hcleanN (hclean' h),
            hrefB', hrefne', hreflen', ?_⟩
          intro hcl
          have hpins : pinsert (.pleaf p lv) key value =
              (if 0 < commonPrefixLength p key then
                PTrie.pext (key.take (commonPrefixLength p key))
                  (.pbranch (chUpd chEmpty ni (.pleaf nrest value)) lv)
              else .pbranch (chUpd chEmpty ni (.pleaf nrest value)) lv) := by
            simp only [pinsert]
            rw [if_neg hexact]
            simp only [hop, hnk]
          rw [hpins]
          exact habs' hcl
        · -- old path continues, key consumed: one old leaf then the tail
          obtain ⟨hoi, horest, holen⟩ := drop_cons_facts hok.1 hok.2.1 hop
          simp only [hop, hnk, Option.bind_eq_bind, Option.some_bind, Option.pure_def]
          have hokO : NodeOk (.leaf orest lv) := ⟨horest, holen, hok.2.2⟩
          obtain ⟨rlpO, hencO, _⟩ := decode_encode_node _ hokO
          have hrlpBO := encodeTrieNode_ByteOk hokO hvB hencO
          obtain ⟨fnO, stO, hfinO, hcO, hcacheO, hwfO, hTO, hextO, hcleanO,
            hrefO, hrefBO, hrefneO, hreflenO⟩ :=
            finalizeNode_spec Hlen HByte hc hwf hT hencO hrlpBO
          simp only [hfinO, Option.bind_eq_bind, Option.some_bind, Option.pure_def]
          obtain ⟨out, st', htail, hc', hcache', hwf', hT', hext', hclean',
            hrefB', hrefne', hreflen', habs'⟩ :=
            @insertTail_spec keccak Hlen HByte
              ((List.replicate 16 EMPTY_BYTES).set oi fnO.ref)
              (chUpd chEmpty oi (.pleaf orest lv)) value [fnO.id] key
              (commonPrefixLength p key) stO hcO hwfO hTO
              (by simp)
              (forall_mem_set (forall_mem_replicate_empty (by simp [EMPTY_BYTES]))
                (by omega))
              (forall_mem_set (forall_mem_replicate_empty EMPTY_BYTES_ByteOk) hrefBO)
              hvalB hvallen hknib hklen hsk
              (fun hcl => ChildrenAbs_set (ChildrenAbs_empty keccak stO.db)
                (by simp) (by omega) hrefneO
                (Abs.leaf hokO hvB hencO hrlpBO (hrefO hcl)))
          refine ⟨out, st', htail, hc', by rw [hcache', hcacheO], hwf', hT',
            DbExtends_trans hextO hext', fun h => hcleanO (hclean' h),
            hrefB', hrefne', hreflen', ?_⟩
          intro hcl
          have hpins : pinsert (.pleaf p lv) key value =
              (if 0 < commonPrefixLength p key then
                PTrie.pext (key.take (commonPrefixLength p key))
                  (.pbranch (chUpd chEmpty oi (.pleaf orest lv)) value)
              else .pbranch (chUpd chEmpty oi (.pleaf orest lv)) value) := by
            simp only [pinsert]
            rw [if_neg hexact]
            simp only [hop, hnk]
          rw [hpins]
          exact habs' hcl
        · -- both continue: old leaf, new leaf, then the tail
          obtain ⟨hoi, horest, holen⟩ := drop_cons_facts hok.1 hok.2.1 hop
          obtain ⟨hni, hnrest, hnlen⟩ := drop_cons_facts hknib hklen hnk
          simp only [hop, hnk, Option.bind_eq_bind, Option.some_bind, Option.pure_def]
          have hokO : NodeOk (.leaf orest lv) := ⟨horest, holen, hok.2.2⟩
          obtain ⟨rlpO, hencO, _⟩ := decode_encode_node _ hokO
          have hrlpBO := encodeTrieNode_ByteOk hokO hvB hencO
          obtain ⟨fnO, stO, hfinO, hcO, hcacheO, hwfO, hTO, hextO, hcleanO,
            hrefO, hrefBO, hrefneO, hreflenO⟩ :=
            finalizeNode_spec Hlen HByte hc hwf hT hencO hrlpBO
          simp only [hfinO, Option.bind_eq_bind, Option.some_bind, Option.pure_def]
          have hokN : NodeOk (.leaf nrest value) := ⟨hnrest, hnlen, hvallen⟩
          obtain ⟨rlpN, hencN, _⟩ := decode_encode_node _ hokN
          have hrlpBN := encodeTrieNode_ByteOk hokN hvalB hencN
          obtain ⟨fnN, stN, hfinN, hcN, hcacheN, hwfN, hTN, hextN, hcleanN,
            hrefN, hrefBN, hrefneN, hreflenN⟩ :=
            finalizeNode_spec Hlen HByte hcO hwfO hTO hencN hrlpBN
          simp only [hfinN, Option.bind_eq_bind, Option.some_bind, Option.pure_def]
          obtain ⟨out, st', htail, hc', hcache', hwf', hT', hext', hclean',
            hrefB', hrefne', hreflen', habs'⟩ :=
            @insertTail_spec keccak Hlen HByte
              (((List.replicate 16 EMPTY_BYTES).set oi fnO.ref).set ni fnN.ref)
              (chUpd (chUpd chEmpty oi (.pleaf orest lv)) ni (.pleaf nrest value))
              EMPTY_BYTES ([fnO.id] ++ [fnN.id]) key
              (commonPrefixLength p key) stN hcN hwfN hTN
              (by simp)
              (forall_mem_set (forall_mem_set
                (forall_mem_replicate_empty (by simp [EMPTY_BYTES])) (by omega))
                (by omega))
              (forall_mem_set (forall_mem_set
                (forall_mem_replicate_empty EMPTY_BYTES_ByteOk) hrefBO) hrefBN)
              EMPTY_BYTES_ByteOk (by simp [EMPTY_BYTES]) hknib hklen hsk
              (fun hcl => ChildrenAbs_set (ChildrenAbs_set
                  (ChildrenAbs_empty keccak stN.db) (by simp) (by omega) hrefneO
                  (Abs.leaf hokO hvB hencO hrlpBO
                    (RefFor_mono hextN (hrefO (hcleanN hcl)))))
                (by simp) (by omega) hrefneN
                (Abs.leaf hokN hvalB hencN hrlpBN (hrefN hcl)))
          refine ⟨out, st', htail, hc', by rw [hcache', hcacheN, hcacheO],
            hwf', hT', DbExtends_trans hextO (DbExtends_trans hextN hext'),
            fun h => hcleanO (hcleanN (hclean' h)),
            hrefB', hrefne', hreflen', ?_⟩
          intro hcl
          have hpins : pinsert (.pleaf p lv) key value =
              (if 0 < commonPrefixLength p key then
                PTrie.pext (key.take (commonPrefixLength p key))
                  (.pbranch (chUpd (chUpd chEmpty oi (.pleaf orest lv)) ni
                    (.pleaf nrest value)) EMPTY_BYTES)
              else .pbranch (chUpd (chUpd chEmpty oi (.pleaf orest lv)) ni
                (.pleaf nrest value)) EMPTY_BYTES) := by
            simp only [pinsert]
            rw [if_neg hexact]
            simp only [hop, hnk]
          rw [hpins]
          exact habs' hcl
  | pext p c ih =>
    intro fuel ref key value consumed st hc hwf hT habs hknib hklen hvalB hvallen hfuel
    rcases habs with ⟨rfl, hte⟩ | habs
    · cases hte
    cases habs with
    | ext hok hpne hcabs henc hrlpB href =>
      rename_i cref rlp
      obtain ⟨f, rfl⟩ : ∃ f, fuel = f + 1 := ⟨fuel - 1, by omega⟩
      have hres := resolveNode_eq Hlen hc href hrlpB (decodeTrieNode_of_enc hok henc)
      have hrefne : ref ≠ [] :=
        (Abs_ref_facts Hlen HByte (Abs.ext hok hpne hcabs henc hrlpB href)).2.1
      have hp1 : 0 < p.length := List.length_pos.mpr hpne
      have hsk : commonPrefixLength p key ≤ key.length := cpl_le_right p key
      have hsl : commonPrefixLength p key ≤ p.length := cpl_le_left p key
      simp only [insertAt]
      rw [if_neg (by simpa [List.length_eq_zero] using hrefne)]
      simp only [hres, Option.bind_eq_bind, Option.some_bind, Option.pure_def]
      by_cases hfull : commonPrefixLength p key = p.length
      · rw [if_pos hfull]
        obtain ⟨out₂, st₂, hrec, hc₂, hcache₂, hwf₂, hT₂, hext₂, hclean₂,
          hrefB₂, hrefne₂, hreflen₂, habs₂⟩ :=
          ih f cref (key.drop (commonPrefixLength p key)) value (consumed +
            commonPrefixLength p key) st hc hwf hT (Or.inr hcabs)
            (NibbleOk_drop hknib _) (by rw [List.length_drop]; omega)
            hvalB hvallen (by rw [List.length_drop]; omega)
        simp only [hrec, Option.bind_eq_bind, Option.some_bind, Option.pure_def]
        have hokE : NodeOk (.extension p out₂.rootRef) :=
          ⟨hok.1, hok.2.1, by omega⟩
        obtain ⟨rlpE, hencE, _⟩ := decode_encode_node _ hokE
        have hrlpBE := encodeTrieNode_ByteOk hokE hrefB₂ hencE
        obtain ⟨fn₃, st₃, hfin₃, hc₃, hcache₃, hwf₃, hT₃, hext₃, hclean₃,
          href₃, hrefB₃, hrefne₃, hreflen₃⟩ :=
          finalizeNode_spec Hlen HByte hc₂ hwf₂ hT₂ hencE hrlpBE
        simp only [hfin₃, Option.bind_eq_bind, Option.some_bind, Option.pure_def]
        refine ⟨_, _, rfl, hc₃, by rw [hcache₃, hcache₂], hwf₃, hT₃,
          DbExtends_trans hext₂ hext₃, fun h => hclean₂ (hclean₃ h),
          hrefB₃, hrefne₃, hreflen₃, ?_⟩
        intro hcl
        have hpins : pinsert (.pext p c) key value =
            .pext p (pinsert c (key.drop (commonPrefixLength p key)) value) := by
          simp only [pinsert]
          rw [if_pos hfull]
        rw [hpins]
        exact Abs.ext hokE hpne (Abs_mono hext₃ (habs₂ (hclean₃ hcl))) hencE
          hrlpBE (href₃ hcl)
      · rw [if_neg hfull]
        have hlt : commonPrefixLength p key < p.length := lt_of_le_of_ne hsl hfull
        rcases hop : p.drop (commonPrefixLength p key) with _ | ⟨oi, orest⟩
        · exfalso
          have := List.drop_eq_nil_iff.mp hop
          omega
        obtain ⟨hoi, horest, holen⟩ := drop_cons_facts hok.1 hok.2.1 hop
        simp only [hop, Option.bind_eq_bind, Option.some_bind, Option.pure_def]
        obtain ⟨crefB, crefne, creflen⟩ := Abs_ref_facts Hlen HByte hcabs
        -- the slot holding the old extension remainder
        by_cases hor : orest.length = 0
        · -- the remainder is empty: the child is hung directly in the branch
          rw [if_pos hor]
          have horest_nil : orest = [] := List.length_eq_zero.mp hor
          subst horest_nil
          rcases hnk : key.drop (commonPrefixLength p key) with _ | ⟨ni, nrest⟩
          · simp only [hnk, Option.bind_eq_bind, Option.some_bind, Option.pure_def]
            obtain ⟨out, st', htail, hc', hcache', hwf', hT', hext', hclean',
              hrefB', hrefne', hreflen', habs'⟩ :=
              @insertTail_spec keccak Hlen HByte
                ((List.replicate 16 EMPTY_BYTES).set oi cref)
                (chUpd chEmpty oi c) value [] key
                (commonPrefixLength p key) st hc hwf hT
                (by simp)
                (forall_mem_set (forall_mem_replicate_empty (by simp [EMPTY_BYTES]))
                  (by omega))
                (forall_mem_set (forall_mem_replicate_empty EMPTY_BYTES_ByteOk) crefB)
                hvalB hvallen hknib hklen hsk
                (fun _ => ChildrenAbs_set (ChildrenAbs_empty keccak st.db)
                  (by simp) (by omega) crefne hcabs)
            refine ⟨out, st', htail, hc', hcache', hwf', hT', hext', hclean',
              hrefB', hrefne', hreflen', ?_⟩
            intro hcl
            have hpins : pinsert (.pext p c) key value =
                (if 0 < commonPrefixLength p key then
                  PTrie.pext (key.take (commonPrefixLength p key))
                    (.pbranch (chUpd chEmpty oi c) value)
                else .pbranch (chUpd chEmpty oi c) value) := by
              simp only [pinsert]
              rw [if_neg hfull]
              simp only [hop, hnk, List.length_nil, eq_self_iff_true, if_true]
            rw [hpins]
            exact habs' hcl
          · obtain ⟨hni, hnrest, hnlen⟩ := drop_cons_facts hknib hklen hnk
            simp only [hnk, Option.bind_eq_bind, Option.some_bind, Option.pure_def]
            have hokN : NodeOk (.leaf nrest value) := ⟨hnrest, hnlen, hvallen⟩
            obtain ⟨rlpN, hencN, _⟩ := decode_encode_node _ hokN
            have hrlpBN := encodeTrieNode_ByteOk hokN hvalB hencN
            obtain ⟨fnN, stN, hfinN, hcN, hcacheN, hwfN, hTN, hextN, hcleanN,
              hrefN, hrefBN, hrefneN, hreflenN⟩ :=
              finalizeNode_spec Hlen HByte hc hwf hT hencN hrlpBN
            simp only [hfinN, Option.bind_eq_bind, Option.some_bind, Option.pure_def]
            obtain ⟨out, st', htail, hc', hcache', hwf', hT', hext', hclean',
              hrefB', hrefne', hreflen', habs'⟩ :=
              @insertTail_spec keccak Hlen HByte
                (((List.replicate 16 EMPTY_BYTES).set oi cref).set ni fnN.ref)
                (chUpd (chUpd chEmpty oi c) ni (.pleaf nrest value))
                EMPTY_BYTES ([] ++ [fnN.id]) key
                (commonPrefixLength p key) stN hcN hwfN hTN
                (by simp)
                (forall_mem_set (forall_mem_set
                  (forall_mem_replicate_empty (by simp [EMPTY_BYTES])) (by omega))
                  (by omega))
                (forall_mem_set (forall_mem_set
                  (forall_mem_replicate_empty EMPTY_BYTES_ByteOk) crefB) hrefBN)
                EMPTY_BYTES_ByteOk (by simp [EMPTY_BYTES]) hknib hklen hsk
                (fun hcl => ChildrenAbs_set (ChildrenAbs_set
                    (ChildrenAbs_empty keccak stN.db) (by simp) (by omega) crefne
                    (Abs_mono hextN hcabs))
                  (by simp) (by omega) hrefneN
                  (Abs.leaf hokN hvalB hencN hrlpBN (hrefN hcl)))
            refine ⟨out, st', htail, hc', by rw [hcache', hcacheN], hwf', hT',
              DbExtends_trans hextN hext', fun h => hcleanN (hclean' h),
              hrefB', hrefne', hreflen', ?_⟩
            intro hcl
            have hpins : pinsert (.pext p c) key value =
                (if 0 < commonPrefixLength p key then
                  PTrie.pext (key.take (commonPrefixLength p key))
                    (.pbranch (chUpd (chUpd chEmpty oi c) ni (.pleaf nrest value))
                      EMPTY_BYTES)
                else .pbranch (chUpd (chUpd chEmpty oi c) ni (.pleaf nrest value))
                  EMPTY_BYTES) := by
              simp only [pinsert]
              rw [if_neg hfull]
              simp only [hop, hnk, List.length_nil, eq_self_iff_true, if_true]
            rw [hpins]
            exact habs' hcl
        · -- the remainder survives as a shorter extension
          rw [if_neg hor]
          have horne : orest ≠ [] := fun hcon => hor (by rw [hcon]; rfl)
          have hokE : NodeOk (.extension orest cref) := ⟨horest, holen, by omega⟩
          obtain ⟨rlpE, hencE, _⟩ := decode_encode_node _ hokE
          have hrlpBE := encodeTrieNode_ByteOk hokE crefB hencE
          obtain ⟨fnE, stE, hfinE, hcE, hcacheE, hwfE, hTE, hextE, hcleanE,
            hrefE, hrefBE, hrefneE, hreflenE⟩ :=
            finalizeNode_spec Hlen HByte hc hwf hT hencE hrlpBE
          simp only [hfinE, Option.bind_eq_bind, Option.some_bind, Option.pure_def]
          rcases hnk : key.drop (commonPrefixLength p key) with _ | ⟨ni, nrest⟩
          · simp only [hnk, Option.bind_eq_bind, Option.some_bind, Option.pure_def]
            obtain ⟨out, st', htail, hc', hcache', hwf', hT', hext', hclean',
              hrefB', hrefne', hreflen', habs'⟩ :=
              @insertTail_spec keccak Hlen HByte
                ((List.replicate 16 EMPTY_BYTES).set oi fnE.ref)
                (chUpd chEmpty oi (.pext orest c)) value [fnE.id] key
                (commonPrefixLength p key) stE hcE hwfE hTE
                (by simp)
                (forall_mem_set (forall_mem_replicate_empty (by simp [EMPTY_BYTES]))
                  (by omega))
                (forall_mem_set (forall_mem_replicate_empty EMPTY_BYTES_ByteOk) hrefBE)
                hvalB hvallen hknib hklen hsk
                (fun hcl => ChildrenAbs_set (ChildrenAbs_empty keccak stE.db)
                  (by simp) (by omega) hrefneE
                  (Abs.ext hokE horne (Abs_mono hextE hcabs) hencE hrlpBE
                    (hrefE hcl)))
            refine ⟨out, st', htail, hc', by rw [hcache', hcacheE], hwf', hT',
              DbExtends_trans hextE hext', fun h => hcleanE (hclean' h),
              hrefB', hrefne', hreflen', ?_⟩
            intro hcl
            have hpins : pinsert (.pext p c) key value =
                (if 0 < commonPrefixLength p key then
                  PTrie.pext (key.take (commonPrefixLength p key))
                    (.pbranch (chUpd chEmpty oi (.pext orest c)) value)
                else .pbranch (chUpd chEmpty oi (.pext orest c)) value) := by
              simp only [pinsert]
              rw [if_neg hfull]
              simp only [hop, hnk]
              rw [if_neg hor]
            rw [hpins]
            exact habs' hcl
          · obtain ⟨hni, hnrest, hnlen⟩ := drop_cons_facts hknib hklen hnk
            simp only [hnk, Option.bind_eq_bind, Option.some_bind, Option.pure_def]
            have hokN : NodeOk (.leaf nrest value) := ⟨hnrest, hnlen, hvallen⟩
            obtain ⟨rlpN, hencN, _⟩ := decode_encode_node _ hokN
            have hrlpBN := encodeTrieNode_ByteOk hokN hvalB hencN
            obtain ⟨fnN, stN, hfinN, hcN, hcacheN, hwfN, hTN, hextN, hcleanN,
              hrefN, hrefBN, hrefneN, hreflenN⟩ :=
              finalizeNode_spec Hlen HByte hcE hwfE hTE hencN hrlpBN
            simp only [hfinN, Option.bind_eq_bind, Option.some_bind, Option.pure_def]
            obtain ⟨out, st', htail, hc', hcache', hwf', hT', hext', hclean',
              hrefB', hrefne', hreflen', habs'⟩ :=
              @insertTail_spec keccak Hlen HByte
                (((List.replicate 16 EMPTY_BYTES).set oi fnE.ref).set ni fnN.ref)
                (chUpd (chUpd chEmpty oi (.pext orest c)) ni (.pleaf nrest value))
                EMPTY_BYTES ([fnE.id] ++ [fnN.id]) key
                (commonPrefixLength p key) stN hcN hwfN hTN
                (by simp)
                (forall_mem_set (forall_mem_set
                  (forall_mem_replicate_empty (by simp [EMPTY_BYTES])) (by omega))
                  (by omega))
                (forall_mem_set (forall_mem_set
                  (forall_mem_replicate_empty EMPTY_BYTES_ByteOk) hrefBE) hrefBN)
                EMPTY_BYTES_ByteOk (by simp [EMPTY_BYTES]) hknib hklen hsk
                (fun hcl => ChildrenAbs_set (ChildrenAbs_set
                    (ChildrenAbs_empty keccak stN.db) (by simp) (by omega) hrefneE
                    (Abs.ext hokE horne
                      (Abs_mono (DbExtends_trans hextE hextN) hcabs) hencE hrlpBE
                      (RefFor_mono hextN (hrefE (hcleanN hcl)))))
                  (by simp) (by omega) hrefneN
                  (Abs.leaf hokN hvalB hencN hrlpBN (hrefN hcl)))
            refine ⟨out, st', htail, hc', by rw [hcache', hcacheN, hcacheE],
              hwf', hT', DbExtends_trans hextE (DbExtends_trans hextN hext'),
              fun h => hcleanE (hcleanN (hclean' h)),
              hrefB', hrefne', hreflen', ?_⟩
            intro hcl
            have hpins : pinsert (.pext p c) key value =
                (if 0 < commonPrefixLength p key then
                  PTrie.pext (key.take (commonPrefixLength p key))
                    (.pbranch (chUpd (chUpd chEmpty oi (.pext orest c)) ni
                      (.pleaf nrest value)) EMPTY_BYTES)
                else .pbranch (chUpd (chUpd chEmpty oi (.pext orest c)) ni
                  (.pleaf nrest value)) EMPTY_BYTES) := by
              simp only [pinsert]
              rw [if_neg hfull]
              simp only [hop, hnk]
              rw [if_neg hor]
            rw [hpins]
            exact habs' hcl
  | pbranch ch bv ih =>
    intro fuel ref key value consumed st hc hwf hT habs hknib hklen hvalB hvallen hfuel
    rcases habs with ⟨rfl, hte⟩ | habs
    · cases hte
    cases habs with
    | branch hok hvB hrB hch0 hch1 hch16 henc hrlpB href =>
      rename_i refs rlp
      obtain ⟨f, rfl⟩ : ∃ f, fuel = f + 1 := ⟨fuel - 1, by omega⟩
      have hres := resolveNode_eq Hlen hc href hrlpB (decodeTrieNode_of_enc hok henc)
      have hrefne : ref ≠ [] :=
        (Abs_ref_facts Hlen HByte
          (Abs.branch hok hvB hrB hch0 hch1 hch16 henc hrlpB href)).2.1
      have hnv : (if bv.length = 0 then EMPTY_BYTES else bv) = bv := by
        by_cases hbe : bv.length = 0
        · rw [if_pos hbe, List.length_eq_zero.mp hbe]
          rfl
        · rw [if_neg hbe]
      simp only [insertAt]
      rw [if_neg (by simpa [List.length_eq_zero] using hrefne)]
      simp only [hres, Option.bind_eq_bind, Option.some_bind, cloneChildren_id, hnv]
      cases key with
      | nil =>
        have hokB : NodeOk (.branch refs value) := ⟨hok.1, hok.2.1, hvallen⟩
        obtain ⟨rlpB2, hencB2, _⟩ := decode_encode_node _ hokB
        have hrlpBB := encodeTrieNode_ByteOk hokB ⟨hrB, hvalB⟩ hencB2
        obtain ⟨fn, st', hfin, hc', hcache', hwf', hT', hext', hclean', href',
          hrefB', hrefne', hreflen'⟩ :=
          finalizeNode_spec Hlen HByte hc hwf hT hencB2 hrlpBB
        simp only [hfin, Option.bind_eq_bind, Option.some_bind, Option.pure_def]
        refine ⟨_, _, rfl, hc', hcache', hwf', hT', hext', hclean', hrefB',
          hrefne', hreflen', ?_⟩
        intro hcl
        have hpins : pinsert (.pbranch ch bv) [] value = .pbranch ch value := rfl
        rw [hpins]
        exact Abs_branch_of
          (ChildrenAbs_mono hext' ⟨fun j hj => ⟨hch0 j hj, hch1 j hj⟩, hch16⟩)
          hok.1 hok.2.1 hrB hvalB hvallen hencB2 hrlpBB (href' hcl)
      | cons i rest =>
        have hi : i < 16 := by
          have := hknib i (List.mem_cons_self i rest)
          omega
        have hrest : NibbleOk rest := fun x hx => hknib x (List.mem_cons_of_mem i hx)
        have hrestlen : rest.length < 2 ^ 59 := by
          simp only [List.length_cons] at hklen
          omega
        have habsc : AbsR keccak st.db (refs.getD i EMPTY_BYTES) (ch i) := by
          by_cases hnil : refs.getD i EMPTY_BYTES = []
          · exact Or.inl ⟨hnil, hch0 i hi hnil⟩
          · exact Or.inr (hch1 i hi hnil)
        obtain ⟨out₂, st₂, hrec, hc₂, hcache₂, hwf₂, hT₂, hext₂, hclean₂,
          hrefB₂, hrefne₂, hreflen₂, habs₂⟩ :=
          ih i f (refs.getD i EMPTY_BYTES) rest value (consumed + 1) st hc hwf hT
            habsc hrest hrestlen hvalB hvallen
            (by simp only [List.length_cons] at hfuel; omega)
        simp only [hrec, Option.bind_eq_bind, Option.some_bind, Option.pure_def]
        have hokB : NodeOk (.branch (refs.set i out₂.rootRef) bv) := by
          refine ⟨by rw [List.length_set]; exact hok.1, ?_, hok.2.2⟩
          exact forall_mem_set hok.2.1 (by omega)
        obtain ⟨rlpB2, hencB2, _⟩ := decode_encode_node _ hokB
        have hrlpBB := encodeTrieNode_ByteOk hokB
          ⟨forall_mem_set hrB hrefB₂, hvB⟩ hencB2
        obtain ⟨fn₃, st₃, hfin₃, hc₃, hcache₃, hwf₃, hT₃, hext₃, hclean₃,
          href₃, hrefB₃, hrefne₃, hreflen₃⟩ :=
          finalizeNode_spec Hlen HByte hc₂ hwf₂ hT₂ hencB2 hrlpBB
        simp only [hfin₃, Option.bind_eq_bind, Option.some_bind, Option.pure_def]
        refine ⟨_, _, rfl, hc₃, by rw [hcache₃, hcache₂], hwf₃, hT₃,
          DbExtends_trans hext₂ hext₃, fun h => hclean₂ (hclean₃ h),
          hrefB₃, hrefne₃, hreflen₃, ?_⟩
        intro hcl
        have hpins : pinsert (.pbranch ch bv) (i :: rest) value =
            .pbranch (chUpd ch i (pinsert (ch i) rest value)) bv := rfl
        rw [hpins]
        have hca : ChildrenAbs keccak st₃.db (refs.set i out₂.rootRef)
            (chUpd ch i (pinsert (ch i) rest value)) :=
          ChildrenAbs_set
            (ChildrenAbs_mono (DbExtends_trans hext₂ hext₃)
              ⟨fun j hj => ⟨hch0 j hj, hch1 j hj⟩, hch16⟩)
            hok.1 hi hrefne₂ (Abs_mono hext₃ (habs₂ (hclean₃ hcl)))
        exact Abs_branch_of hca (by rw [List.length_set]; exact hok.1)
          (forall_mem_set hok.2.1 (by omega))
          (forall_mem_set hrB hrefB₂) hvB hok.2.2 hencB2 hrlpBB (href₃ hcl)

/-- Facts every engine step preserves, irrespective of the abstraction. -/
def StepOk (st st' : St) : Prop :=
  (st'.clean = true → st.clean = true) ∧
  st'.useCache = st.useCache ∧
  (st.useCache = false → st'.cache = st.cache) ∧
  (st.db.WF → st'.db.WF ∧ DbExtends st.db st'.db ∧
    (DbTyped st.db → DbTyped st'.db))

theorem StepOk_refl (st : St) : StepOk st st :=
  ⟨fun h => h, rfl, fun _ => rfl, fun hwf => ⟨hwf, DbExtends_refl _, fun hT => hT⟩⟩

theorem StepOk_trans {a b c : St} (h1 : StepOk a b) (h2 : StepOk b c) :
    StepOk a c := by
  obtain ⟨c1, u1, k1, w1⟩ := h1
  obtain ⟨c2, u2, k2, w2⟩ := h2
  refine ⟨fun h => c1 (c2 h), u2.trans u1, ?_, ?_⟩
  · intro h
    rw [k2 (by rw [u1, h]), k1 h]
  · intro hwf
    obtain ⟨wb, eb, tb⟩ := w1 hwf
    obtain ⟨wc, ec, tc⟩ := w2 wb
    exact ⟨wc, DbExtends_trans eb ec, fun hT => tc (tb hT)⟩

theorem resolveNode_StepOk {keccak : List Nat → List Nat} {ref : List Nat}
    {st : St} {r : ResolvedNode} {st' : St}
    (h : resolveNode keccak ref st = some (r, st')) : StepOk st st' := by
  obtain ⟨hdb, hu, hcl⟩ := resolveNode_frame _ _ _ _ _ h
  refine ⟨by rw [hcl]; exact fun x => x, hu, ?_, ?_⟩
  · intro hnc
    rw [resolveNode_state_eq _ _ _ _ _ hnc h]
  · intro hwf
    rw [hdb]
    exact ⟨hwf, DbExtends_refl _, fun hT => hT⟩

theorem finalizeNode_StepOk {keccak : List Nat → List Nat} {node : TrieNode}
    {st : St} {fn : FinalizedNode} {st' : St}
    (h : finalizeNode keccak node st = some (fn, st')) : StepOk st st' := by
  unfold finalizeNode at h
  cases henc : encodeTrieNode node with
  | none => simp [henc] at h
  | some rlp =>
    simp only [henc] at h
    split at h
    · simp only [Option.some.injEq, Prod.mk.injEq] at h
      rw [← h.2]
      exact StepOk_refl st
    · simp only [Option.some.injEq, Prod.mk.injEq] at h
      rw [← h.2]
      refine ⟨?_, rfl, ?_, ?_⟩
      · intro hcl
        simp only [Bool.and_eq_true] at hcl
        exact hcl.1
      · intro hnc
        simp only [hnc, Bool.false_eq_true, if_false]
      · intro hwf
        exact ⟨Db_put_WF _ hwf _ _ _, Db_get_put_extends _ hwf _ _ _,
          fun hT => DbTyped_put _ hT _ _ (TrieNode.tag_ne_unknown node)⟩

set_option maxHeartbeats 1000000 in
theorem insertAt_StepOk {keccak : List Nat → List Nat} :
    ∀ (fuel : Nat) (ref key value : List Nat) (consumed : Nat) (st : St)
      (out : InsertOutcome) (st' : St),
      insertAt keccak fuel ref key value consumed st = some (out, st') →
      StepOk st st' := by
  intro fuel
  induction fuel with
  | zero =>
    intro ref key value consumed st out st' h
    simp [insertAt] at h
  | succ f ih =>
    intro ref key value consumed st out st' h
    rw [insertAt] at h
    split at h
    · simp only [Option.map_eq_some'] at h
      obtain ⟨⟨fn, st₂⟩, hfin, heq⟩ := h
      simp only [Prod.mk.injEq] at heq
      rw [← heq.2]
      exact finalizeNode_StepOk hfin
    · simp only [Option.bind_eq_bind, Option.bind_eq_some] at h
      obtain ⟨⟨resolved, st₁⟩, hres, h⟩ := h
      refine StepOk_trans (resolveNode_StepOk hres) ?_
      cases hnode : resolved.node with
      | leaf lpath lvalue =>
        simp only [hnode] at h
        split at h
        · simp only [Option.bind_eq_some] at h
          obtain ⟨⟨fn, st₂⟩, hfin, heq⟩ := h
          simp only [Option.pure_def, Option.some.injEq, Prod.mk.injEq] at heq
          rw [← heq.2]
          exact finalizeNode_StepOk hfin
        · rcases hop : lpath.drop (commonPrefixLength lpath key) with _ | ⟨oi, orest⟩
          · simp only [hop, Option.some_bind] at h
            rcases hnk : key.drop (commonPrefixLength lpath key) with _ | ⟨ni, nrest⟩
            · simp only [hnk, Option.some_bind] at h
              simp only [Option.bind_eq_some] at h
              obtain ⟨⟨bfn, st₄⟩, hfinB, h⟩ := h
              refine StepOk_trans (finalizeNode_StepOk hfinB) ?_
              split at h
              · simp only [Option.bind_eq_some] at h
                obtain ⟨⟨efn, st₅⟩, hfinE, h⟩ := h
                simp only [Option.pure_def, Option.some.injEq, Prod.mk.injEq] at h
                rw [← h.2]
                exact finalizeNode_StepOk hfinE
              · simp only [Option.pure_def, Option.some.injEq, Prod.mk.injEq] at h
                rw [← h.2]
                exact StepOk_refl st₄
            · simp only [hnk] at h
              simp only [Option.bind_eq_some] at h
              obtain ⟨⟨nfn, stN⟩, hfinN, ⟨bval₁, ch₁, changed₁, st₃⟩, hpureN,
                ⟨bfn, st₄⟩, hfinB, h⟩ := h
              simp only [Option.pure_def, Option.some.injEq, Prod.mk.injEq] at hpureN
              refine StepOk_trans
                (show StepOk st₁ st₃ by
                  rw [← hpureN.2.2.2]
                  exact finalizeNode_StepOk hfinN)
                (StepOk_trans (finalizeNode_StepOk hfinB) ?_)
              split at h
              · simp only [Option.bind_eq_some] at h
                obtain ⟨⟨efn, st₅⟩, hfinE, h⟩ := h
                simp only [Option.pure_def, Option.some.injEq, Prod.mk.injEq] at h
                rw [← h.2]
                exact finalizeNode_StepOk hfinE
              · simp only [Option.pure_def, Option.some.injEq, Prod.mk.injEq] at h
                rw [← h.2]
                exact StepOk_refl st₄
          · simp only [hop] at h
            simp only [Option.bind_eq_some] at h
            obtain ⟨⟨ofn, stO⟩, hfinO, ⟨bval₀, ch₀, changed₀, st₂⟩, hpureO, h⟩ := h
            simp only [Option.pure_def, Option.some.injEq, Prod.mk.injEq] at hpureO
            refine StepOk_trans
              (show StepOk st₁ st₂ by
                rw [← hpureO.2.2.2]
                exact finalizeNode_StepOk hfinO) ?_
            rcases hnk : key.drop (commonPrefixLength lpath key) with _ | ⟨ni, nrest⟩
            · simp only [hnk, Option.some_bind] at h
              simp only [Option.bind_eq_some] at h
              obtain ⟨⟨bfn, st₄⟩, hfinB, h⟩ := h
              refine StepOk_trans (finalizeNode_StepOk hfinB) ?_
              split at h
              · simp only [Option.bind_eq_some] at h
                obtain ⟨⟨efn, st₅⟩, hfinE, h⟩ := h
                simp only [Option.pure_def, Option.some.injEq, Prod.mk.injEq] at h
                rw [← h.2]
                exact finalizeNode_StepOk hfinE
              · simp only [Option.pure_def, Option.some.injEq, Prod.mk.injEq] at h
                rw [← h.2]
                exact StepOk_refl st₄
            · simp only [hnk] at h
              simp only [Option.bind_eq_some] at h
              obtain ⟨⟨nfn, stN⟩, hfinN, ⟨bval₁, ch₁, changed₁, st₃⟩, hpureN,
                ⟨bfn, st₄⟩, hfinB, h⟩ := h
              simp only [Option.pure_def, Option.some.injEq, Prod.mk.injEq] at hpureN
              refine StepOk_trans
                (show StepOk st₂ st₃ by
                  rw [← hpureN.2.2.2]
                  exact finalizeNode_StepOk hfinN)
                (StepOk_trans (finalizeNode_StepOk hfinB) ?_)
              split at h
              · simp only [Option.bind_eq_some] at h
                obtain ⟨⟨efn, st₅⟩, hfinE, h⟩ := h
                simp only [Option.pure_def, Option.some.injEq, Prod.mk.injEq] at h
                rw [← h.2]
                exact finalizeNode_StepOk hfinE
              · simp only [Option.pure_def, Option.some.injEq, Prod.mk.injEq] at h
                rw [← h.2]
                exact StepOk_refl st₄
      | extension epath echild =>
        simp only [hnode] at h
        split at h
        · simp only [Option.bind_eq_some] at h
          obtain ⟨⟨cout, st₂⟩, hrec, h⟩ := h
          obtain ⟨⟨rfn, st₃⟩, hfin, heq⟩ := h
          simp only [Option.pure_def, Option.some.injEq, Prod.mk.injEq] at heq
          rw [← heq.2]
          exact StepOk_trans (ih _ _ _ _ _ _ _ hrec) (finalizeNode_StepOk hfin)
        · rcases hop : epath.drop (commonPrefixLength epath key) with _ | ⟨oi, orest⟩
          · simp only [hop] at h
            cases h
          · simp only [hop] at h
            split at h
            · simp only [Option.some_bind] at h
              rcases hnk : key.drop (commonPrefixLength epath key) with _ | ⟨ni, nrest⟩
              · simp only [hnk, Option.some_bind] at h
                simp only [Option.bind_eq_some] at h
                obtain ⟨⟨bfn, st₄⟩, hfinB, h⟩ := h
                refine StepOk_trans (finalizeNode_StepOk hfinB) ?_
                split at h
                · simp only [Option.bind_eq_some] at h
                  obtain ⟨⟨efn, st₅⟩, hfinE, h⟩ := h
                  simp only [Option.pure_def, Option.some.injEq, Prod.mk.injEq] at h
                  rw [← h.2]
                  exact finalizeNode_StepOk hfinE
                · simp only [Option.pure_def, Option.some.injEq, Prod.mk.injEq] at h
                  rw [← h.2]
                  exact StepOk_refl st₄
              · simp only [hnk] at h
                simp only [Option.bind_eq_some] at h
                obtain ⟨⟨nfn, stN⟩, hfinN, ⟨bval₁, ch₁, changed₁, st₃⟩, hpureN,
                  ⟨bfn, st₄⟩, hfinB, h⟩ := h
                simp only [Option.pure_def, Option.some.injEq, Prod.mk.injEq] at hpureN
                refine StepOk_trans
                  (show StepOk st₁ st₃ by
                    rw [← hpureN.2.2.2]
                    exact finalizeNode_StepOk hfinN)
                  (StepOk_trans (finalizeNode_StepOk hfinB) ?_)
                split at h
                · simp only [Option.bind_eq_some] at h
                  obtain ⟨⟨efn, st₅⟩, hfinE, h⟩ := h
                  simp only [Option.pure_def, Option.some.injEq, Prod.mk.injEq] at h
                  rw [← h.2]
                  exact finalizeNode_StepOk hfinE
                · simp only [Option.pure_def, Option.some.injEq, Prod.mk.injEq] at h
                  rw [← h.2]
                  exact StepOk_refl st₄
            · simp only [Option.bind_eq_some] at h
              obtain ⟨⟨efn0, stE⟩, hfinE0, ⟨ch₀, changed₀, st₂⟩, hpureE, h⟩ := h
              simp only [Option.pure_def, Option.some.injEq, Prod.mk.injEq] at hpureE
              refine StepOk_trans
                (show StepOk st₁ st₂ by
                  rw [← hpureE.2.2]
                  exact finalizeNode_StepOk hfinE0) ?_
              rcases hnk : key.drop (commonPrefixLength epath key) with _ | ⟨ni, nrest⟩
              · simp only [hnk, Option.some_bind] at h
                simp only [Option.bind_eq_some] at h
                obtain ⟨⟨bfn, st₄⟩, hfinB, h⟩ := h
                refine StepOk_trans (finalizeNode_StepOk hfinB) ?_
                split at h
                · simp only [Option.bind_eq_some] at h
                  obtain ⟨⟨efn, st₅⟩, hfinE, h⟩ := h
                  simp only [Option.pure_def, Option.some.injEq, Prod.mk.injEq] at h
                  rw [← h.2]
                  exact finalizeNode_StepOk hfinE
                · simp only [Option.pure_def, Option.some.injEq, Prod.mk.injEq] at h
                  rw [← h.2]
                  exact StepOk_refl st₄
              · simp only [hnk] at h
                simp only [Option.bind_eq_some] at h
                obtain ⟨⟨nfn, stN⟩, hfinN, ⟨bval₁, ch₁, changed₁, st₃⟩, hpureN,
                  ⟨bfn, st₄⟩, hfinB, h⟩ := h
                simp only [Option.pure_def, Option.some.injEq, Prod.mk.injEq] at hpureN
                refine StepOk_trans
                  (show StepOk st₂ st₃ by
                    rw [← hpureN.2.2.2]
                    exact finalizeNode_StepOk hfinN)
                  (StepOk_trans (finalizeNode_StepOk hfinB) ?_)
                split at h
                · simp only [Option.bind_eq_some] at h
                  obtain ⟨⟨efn, st₅⟩, hfinE, h⟩ := h
                  simp only [Option.pure_def, Option.some.injEq, Prod.mk.injEq] at h
                  rw [← h.2]
                  exact finalizeNode_StepOk hfinE
                · simp only [Option.pure_def, Option.some.injEq, Prod.mk.injEq] at h
                  rw [← h.2]
                  exact StepOk_refl st₄
      | branch bchildren bvalue =>
        simp only [hnode] at h
        split at h
        · simp only [Option.bind_eq_some] at h
          obtain ⟨⟨rfn, st₂⟩, hfin, heq⟩ := h
          simp only [Option.pure_def, Option.some.injEq, Prod.mk.injEq] at heq
          rw [← heq.2]
          exact finalizeNode_StepOk hfin
        · simp only [Option.bind_eq_some] at h
          obtain ⟨⟨cout, st₂⟩, hrec, h⟩ := h
          obtain ⟨⟨rfn, st₃⟩, hfin, heq⟩ := h
          simp only [Option.pure_def, Option.some.injEq, Prod.mk.injEq] at heq
          rw [← heq.2]
          exact StepOk_trans (ih _ _ _ _ _ _ _ hrec) (finalizeNode_StepOk hfin)

/-! ## Insert sequences -/

/-- Run `insertKeyValue` for each pair in turn, threading the returned root
reference and state, exactly as the engine's caller does. -/
def insertSeq (keccak : List Nat → List Nat) :
    List (List Nat × List Nat) → List Nat → St → Option (List Nat × St)
  | [], ref, st => some (ref, st)
  | (k, v) :: rest, ref, st =>
    match insertKeyValue keccak ref k v st with
    | none => none
    | some (out, st') => insertSeq keccak rest out.rootRef st'

/-- Keys are valid nibble sequences and values are valid non-empty byte
sequences, both of `Uint8Array` size. -/
def PairsOk (pairs : List (List Nat × List Nat)) : Prop :=
  ∀ pr ∈ pairs, NibbleOk pr.1 ∧ pr.1.length < 2 ^ 59 ∧
    ByteOk pr.2 ∧ pr.2.length < 2 ^ 59 ∧ pr.2 ≠ []

instance (pairs : List (List Nat × List Nat)) : Decidable (PairsOk pairs) := by
  unfold PairsOk
  infer_instance

/-- The pure tree obtained by folding the pure insert over the pairs. -/
def pfold (t : PTrie) (pairs : List (List Nat × List Nat)) : PTrie :=
  pairs.foldl (fun acc pr => pinsert acc pr.1 pr.2) t

theorem insertSeq_StepOk {keccak : List Nat → List Nat} :
    ∀ (pairs : List (List Nat × List Nat)) (ref root : List Nat) (st st' : St),
      insertSeq keccak pairs ref st = some (root, st') → StepOk st st' := by
  intro pairs
  induction pairs with
  | nil =>
    intro ref root st st' h
    simp only [insertSeq, Option.some.injEq, Prod.mk.injEq] at h
    rw [← h.2]
    exact StepOk_refl st
  | cons pr rest ihp =>
    obtain ⟨k, v⟩ := pr
    intro ref root st st' h
    simp only [insertSeq] at h
    cases hins : insertKeyValue keccak ref k v st with
    | none =>
      rw [hins] at h
      cases h
    | some r =>
      obtain ⟨out, st₂⟩ := r
      rw [hins] at h
      exact StepOk_trans (insertAt_StepOk _ _ _ _ _ _ _ _ hins) (ihp _ _ _ _ h)

/-- On a clean run, the root returned by a sequence of inserts stands for the
pure fold of the inserts, and that tree is well-formed. -/
theorem insertSeq_refines {keccak : List Nat → List Nat}
    (Hlen : ∀ b, (keccak b).length = 32) (HByte : ∀ b, ByteOk (keccak b)) :
    ∀ (pairs : List (List Nat × List Nat)) (t : PTrie) (ref root : List Nat)
      (st st' : St),
      st.useCache = false → st.db.WF → DbTyped st.db → PairsOk pairs →
      insertSeq keccak pairs ref st = some (root, st') →
      (st.clean = true → AbsR keccak st.db ref t ∧ WFS t ∧ WFV t) →
      st'.clean = true →
      AbsR keccak st'.db root (pfold t pairs) ∧ WFS (pfold t pairs) ∧
        WFV (pfold t pairs) := by
  intro pairs
  induction pairs with
  | nil =>
    intro t ref root st st' hc hwf hT hok hseq hstart hcl
    simp only [insertSeq, Option.some.injEq, Prod.mk.injEq] at hseq
    obtain ⟨h1, h2⟩ := hseq
    subst h1
    subst h2
    exact ⟨(hstart hcl).1, (hstart hcl).2.1, (hstart hcl).2.2⟩
  | cons pr rest ihp =>
    obtain ⟨k, v⟩ := pr
    intro t ref root st st' hc hwf hT hok hseq hstart hcl
    obtain ⟨hknib, hklen, hvB, hvlen, hvne⟩ := hok (k, v) (List.mem_cons_self _ _)
    simp only [insertSeq] at hseq
    cases hins : insertKeyValue keccak ref k v st with
    | none =>
      rw [hins] at hseq
      cases hseq
    | some r =>
      obtain ⟨out, st₂⟩ := r
      rw [hins] at hseq
      have hstep : StepOk st st₂ := insertAt_StepOk _ _ _ _ _ _ _ _ hins
      have hc₂ : st₂.useCache = false := by rw [hstep.2.1, hc]
      have hwfT₂ := hstep.2.2.2 hwf
      have hstart₂ : st₂.clean = true →
          AbsR keccak st₂.db out.rootRef (pinsert t k v) ∧
          WFS (pinsert t k v) ∧ WFV (pinsert t k v) := by
        intro hcl₂
        obtain ⟨habs, hWFS, hWFV⟩ := hstart (hstep.1 hcl₂)
        obtain ⟨out', st₂', hins', _, _, _, _, _, _, _, _, _, habs₂'⟩ :=
          insertAt_refines Hlen HByte t (k.length + 1) ref k v 0 st hc hwf hT
            habs hknib hklen hvB hvlen (le_refl _)
        have hid : out' = out ∧ st₂' = st₂ := by
          have heq : insertKeyValue keccak ref k v st = some (out', st₂') := hins'
          rw [hins] at heq
          injection heq with heq
          exact ⟨(congrArg Prod.fst heq).symm, (congrArg Prod.snd heq).symm⟩
        rw [← hid.1, ← hid.2]
        refine ⟨Or.inr (habs₂' (by rw [hid.2]; exact hcl₂)), ?_, ?_⟩
        · exact WFS_pinsert v hvB hvlen t k hWFS hknib hklen
        · exact WFV_pinsert v hvne t k hWFV
      have hres := ihp (pinsert t k v) out.rootRef root st₂ st' hc₂ hwfT₂.1
        (hwfT₂.2.2 hT) (fun q hq => hok q (List.mem_cons_of_mem _ hq)) hseq
        hstart₂ hcl
      simpa only [pfold, List.foldl_cons] using hres

/-- Inserting pairs whose keys all differ from `k` does not change `k`'s
denotation. -/
theorem Den_pfold_other :
    ∀ (pairs : List (List Nat × List Nat)) (t : PTrie) (k : List Nat),
      WFS t → WFV t → PairsOk pairs → (∀ q ∈ pairs, q.1 ≠ k) →
      Den (pfold t pairs) k = Den t k := by
  intro pairs
  induction pairs with
  | nil =>
    intro t k _ _ _ _
    rfl
  | cons q rest ihp =>
    obtain ⟨qk, qv⟩ := q
    intro t k hWFS hWFV hok hne
    obtain ⟨hknib, hklen, hvB, hvlen, hvne⟩ := hok (qk, qv) (List.mem_cons_self _ _)
    have h1 : Den (pfold (pinsert t qk qv) rest) k = Den (pinsert t qk qv) k :=
      ihp (pinsert t qk qv) k
        (WFS_pinsert qv hvB hvlen t qk hWFS hknib hklen)
        (WFV_pinsert qv hvne t qk hWFV)
        (fun q hq => hok q (List.mem_cons_of_mem _ hq))
        (fun q hq => hne q (List.mem_cons_of_mem _ hq))
    have h2 : Den (pinsert t qk qv) k = Den t k := by
      rw [Den_pinsert qv hvne t qk k hWFS hWFV hknib,
        if_neg (fun hcon => hne (qk, qv) (List.mem_cons_self _ _) hcon.symm)]
    calc Den (pfold t ((qk, qv) :: rest)) k
        = Den (pfold (pinsert t qk qv) rest) k := by
          simp only [pfold, List.foldl_cons]
    _ = Den t k := h1.trans h2

/-- With pairwise-distinct keys, the fold maps every inserted key to its
value. -/
theorem Den_pfold :
    ∀ (pairs : List (List Nat × List Nat)) (t : PTrie),
      WFS t → WFV t → PairsOk pairs →
      pairs.Pairwise (fun a b => a.1 ≠ b.1) →
      ∀ pr ∈ pairs, Den (pfold t pairs) pr.1 = some pr.2 := by
  intro pairs
  induction pairs with
  | nil =>
    intro t _ _ _ _ pr hpr
    cases hpr
  | cons q rest ihp =>
    obtain ⟨qk, qv⟩ := q
    intro t hWFS hWFV hok hdist pr hpr
    obtain ⟨hknib, hklen, hvB, hvlen, hvne⟩ := hok (qk, qv) (List.mem_cons_self _ _)
    have hWFS' := WFS_pinsert qv hvB hvlen t qk hWFS hknib hklen
    have hWFV' := WFV_pinsert qv hvne t qk hWFV
    rcases List.mem_cons.mp hpr with hpr1 | hpr
    · rw [hpr1]
      have hne : ∀ q ∈ rest, q.1 ≠ qk :=
        fun q hq => ((List.pairwise_cons.mp hdist).1 q hq).symm
      have h1 : Den (pfold t ((qk, qv) :: rest)) qk
          = Den (pinsert t qk qv) qk := by
        simp only [pfold, List.foldl_cons]
        exact Den_pfold_other rest (pinsert t qk qv) qk hWFS' hWFV'
          (fun q hq => hok q (List.mem_cons_of_mem _ hq)) hne
      show Den (pfold t ((qk, qv) :: rest)) qk = some qv
      rw [h1, Den_pinsert qv hvne t qk qk hWFS hWFV hknib, if_pos rfl]
    · have h1 : pfold t ((qk, qv) :: rest) = pfold (pinsert t qk qv) rest := by
        simp only [pfold, List.foldl_cons]
      rw [h1]
      exact ihp (pinsert t qk qv) hWFS' hWFV'
        (fun q hq => hok q (List.mem_cons_of_mem _ hq))
        (List.pairwise_cons.mp hdist).2 pr hpr

/-! ## Idempotence of re-inserting a stored value -/

theorem set_getD_self_empty {l : List (List Nat)} {i : Nat} (hi : i < l.length) :
    l.set i (l.getD i EMPTY_BYTES) = l :=
  set_getD_self hi

/-- Re-inserting the value a key already stores rebuilds every node
identically: the same root reference comes back and the state (store, cache,
clean flag) is exactly unchanged. -/
theorem insertAt_idem {keccak : List Nat → List Nat}
    (Hlen : ∀ b, (keccak b).length = 32) (HByte : ∀ b, ByteOk (keccak b)) :
    ∀ (t : PTrie) (fuel : Nat) (ref key value : List Nat) (consumed : Nat) (st : St),
      st.useCache = false → st.db.WF → DbTyped st.db →
      Abs keccak st.db ref t → Den t key = some value →
      NibbleOk key → key.length + 1 ≤ fuel →
      ∃ out, insertAt keccak fuel ref key value consumed st = some (out, st) ∧
        out.rootRef = ref := by
  intro t
  induction t with
  | pempty =>
    intro fuel ref key value consumed st hc hwf hT habs hden hknib hfuel
    simp [Den] at hden
  | pleaf p lv =>
    intro fuel ref key value consumed st hc hwf hT habs hden hknib hfuel
    cases habs with
    | leaf hok hvB henc hrlpB href =>
      rename_i rlp
      simp only [Den] at hden
      split at hden
      · rename_i hkp
        injection hden with hlv
        subst hlv
        obtain ⟨f, rfl⟩ : ∃ f, fuel = f + 1 := ⟨fuel - 1, by omega⟩
        have hres := resolveNode_eq Hlen hc href hrlpB (decodeTrieNode_of_enc hok henc)
        have hrefne : ref ≠ [] :=
          (Abs_ref_facts Hlen HByte (Abs.leaf hok hvB henc hrlpB href)).2.1
        simp only [insertAt]
        rw [if_neg (by simpa [List.length_eq_zero] using hrefne)]
        simp only [hres, Option.bind_eq_bind, Option.some_bind]
        have hfull1 : commonPrefixLength p key = p.length := by
          rw [hkp]
          exact (cpl_eq_left_iff p p).mpr List.prefix_rfl
        have hfull2 : commonPrefixLength p key = key.length := by
          rw [hkp] at hfull1 ⊢
          exact hfull1
        rw [if_pos ⟨hfull1, hfull2⟩]
        rw [finalizeNode_noop Hlen hc hwf hT henc hrlpB href]
        simp only [Option.bind_eq_bind, Option.some_bind, Option.pure_def]
        exact ⟨_, rfl, rfl⟩
      · exact absurd hden (by simp)
  | pext p c ih =>
    intro fuel ref key value consumed st hc hwf hT habs hden hknib hfuel
    cases habs with
    | ext hok hpne hcabs henc hrlpB href =>
      rename_i cref rlp
      simp only [Den] at hden
      split at hden
      · rename_i hpre
        obtain ⟨f, rfl⟩ : ∃ f, fuel = f + 1 := ⟨fuel - 1, by omega⟩
        have hres := resolveNode_eq Hlen hc href hrlpB (decodeTrieNode_of_enc hok henc)
        have hrefne : ref ≠ [] :=
          (Abs_ref_facts Hlen HByte (Abs.ext hok hpne hcabs henc hrlpB href)).2.1
        have hp1 : 0 < p.length := List.length_pos.mpr hpne
        have hple : p.length ≤ key.length := hpre.length_le
        simp only [insertAt]
        rw [if_neg (by simpa [List.length_eq_zero] using hrefne)]
        simp only [hres, Option.bind_eq_bind, Option.some_bind]
        have hfull : commonPrefixLength p key = p.length :=
          (cpl_eq_left_iff p key).mpr hpre
        rw [if_pos hfull]
        obtain ⟨cout, hrec, hcref⟩ := ih f cref (key.drop (commonPrefixLength p key))
          value (consumed + commonPrefixLength p key) st hc hwf hT hcabs
          (by rw [hfull]; exact hden) (NibbleOk_drop hknib _)
          (by rw [List.length_drop, hfull]; omega)
        rw [hrec]
        simp only [Option.bind_eq_bind, Option.some_bind]
        rw [hcref]
        rw [finalizeNode_noop Hlen hc hwf hT henc hrlpB href]
        simp only [Option.bind_eq_bind, Option.some_bind, Option.pure_def]
        exact ⟨_, rfl, rfl⟩
      · exact absurd hden (by simp)
  | pbranch ch bv ih =>
    intro fuel ref key value consumed st hc hwf hT habs hden hknib hfuel
    cases habs with
    | branch hok hvB hrB hch0 hch1 hch16 henc hrlpB href =>
      rename_i refs rlp
      obtain ⟨f, rfl⟩ : ∃ f, fuel = f + 1 := ⟨fuel - 1, by omega⟩
      have hres := resolveNode_eq Hlen hc href hrlpB (decodeTrieNode_of_enc hok henc)
      have hrefne : ref ≠ [] :=
        (Abs_ref_facts Hlen HByte
          (Abs.branch hok hvB hrB hch0 hch1 hch16 henc hrlpB href)).2.1
      have hnv : (if bv.length = 0 then EMPTY_BYTES else bv) = bv := by
        by_cases hbe : bv.length = 0
        · rw [if_pos hbe, List.length_eq_zero.mp hbe]
          rfl
        · rw [if_neg hbe]
      cases key with
      | nil =>
        simp only [insertAt]
        rw [if_neg (by simpa [List.length_eq_zero] using hrefne)]
        simp only [hres, Option.bind_eq_bind, Option.some_bind, cloneChildren_id, hnv]
        simp only [Den] at hden
        split at hden
        · exact absurd hden (by simp)
        · injection hden with hbv
          subst hbv
          rw [finalizeNode_noop Hlen hc hwf hT henc hrlpB href]
          simp only [Option.bind_eq_bind, Option.some_bind, Option.pure_def]
          exact ⟨_, rfl, rfl⟩
      | cons i rest =>
        simp only [insertAt]
        rw [if_neg (by simpa [List.length_eq_zero] using hrefne)]
        simp only [hres, Option.bind_eq_bind, Option.some_bind, cloneChildren_id, hnv]
        simp only [Den] at hden
        have hi : i < 16 := by
          have := hknib i (List.mem_cons_self i rest)
          omega
        have hrest : NibbleOk rest := fun x hx => hknib x (List.mem_cons_of_mem i hx)
        have hchne : refs.getD i EMPTY_BYTES ≠ [] := by
          intro hnil
          rw [hch0 i hi hnil] at hden
          simp [Den] at hden
        obtain ⟨cout, hrec, hcref⟩ := ih i f (refs.getD i EMPTY_BYTES) rest value
          (consumed + 1) st hc hwf hT (hch1 i hi hchne) hden hrest
          (by simp only [List.length_cons] at hfuel; omega)
        rw [hrec]
        simp only [Option.bind_eq_bind, Option.some_bind]
        rw [hcref, set_getD_self_empty (by rw [hok.1]; omega)]
        rw [finalizeNode_noop Hlen hc hwf hT henc hrlpB href]
        simp only [Option.bind_eq_bind, Option.some_bind, Option.pure_def]
        exact ⟨_, rfl, rfl⟩

/-! ## Claims C2, C6, C8, C10 -/

/-- The initial engine state over an empty store (cache off). -/
def emptySt : St := { db := Db.empty, cache := [], useCache := false, clean := true }

/-- C2: for every trie node finalized by `finalizeNode`, with
`bytes = encodeTrieNode node`: if `bytes` has fewer than 32 bytes the
returned ref is `bytes` verbatim and the state (in particular the store) is
untouched; otherwise the ref is `keccak bytes` and the store gains exactly
one row keyed `hex (keccak bytes)` with value `hex bytes` (stated here for
a store not already holding that key, which is where a row is "gained"). -/
theorem claim_C2_finalize_content_addressing
    (keccak : List Nat → List Nat) (node : TrieNode) (rlp : List Nat) (st : St)
    (henc : encodeTrieNode node = some rlp) (hb : ByteOk rlp)
    (hkb : ByteOk (keccak rlp))
    (hfresh : st.db.get (bytesToHex (keccak rlp)) = none) :
    (rlp.length < 32 →
      finalizeNode keccak node st = some ({ ref := rlp, id := nodeIdFromRef keccak rlp }, st)) ∧
    (32 ≤ rlp.length →
      ∃ st', finalizeNode keccak node st
          = some ({ ref := keccak rlp, id := bytesToHex (keccak rlp) }, st') ∧
        st'.db.get (bytesToHex (keccak rlp)) = some (bytesToHex rlp) ∧
        (st'.db.rows.filter
          (fun e => e.keyHex == bytesToHex (keccak rlp))).length = 1 ∧
        st'.db.rows.length = st.db.rows.length + 1) := by
  have hnorm : normalizeHex (bytesToHex (keccak rlp)) = bytesToHex (keccak rlp) :=
    normalizeHex_bytesToHex _ hkb
  have hnormv : normalizeHex (bytesToHex rlp) = bytesToHex rlp :=
    normalizeHex_bytesToHex _ hb
  constructor
  · intro hlt
    unfold finalizeNode
    simp only [henc]
    rw [if_pos hlt]
  · intro hge
    have hfind : st.db.rows.find?
        (fun e => e.keyHex == normalizeHex (bytesToHex (keccak rlp))) = none := by
      unfold Db.get at hfresh
      exact Option.map_eq_none'.mp hfresh
    unfold finalizeNode
    simp only [henc]
    rw [if_neg (by omega)]
    unfold Db.put
    simp only [hfind]
    refine ⟨_, rfl, ?_, ?_, ?_⟩
    · unfold Db.get
      simp only
      rw [List.find?_append, hfind]
      simp [hnorm, hnormv]
    · simp only
      rw [List.filter_append]
      have hnil : st.db.rows.filter (fun e => e.keyHex == bytesToHex (keccak rlp)) = [] := by
        rw [List.filter_eq_nil_iff]
        intro a ha
        have := List.find?_eq_none.mp hfind a ha
        rw [hnorm] at this
        simpa using this
      rw [hnil]
      simp [hnorm]
    · simp

/-- A leaf node whose serialization exceeds 32 bytes (used by witnesses). -/
def wNodeC2 : TrieNode := .leaf [1] (List.replicate 40 7)

/-- `encodeTrieNode wNodeC2`. -/
def wRlpC2 : List Nat := 0xea :: 0x31 :: 0xa8 :: List.replicate 40 7

theorem claim_C2_witness :
    ∃ st', finalizeNode mockKeccak wNodeC2 emptySt
        = some ({ ref := mockKeccak wRlpC2, id := bytesToHex (mockKeccak wRlpC2) }, st') ∧
      st'.db.get (bytesToHex (mockKeccak wRlpC2)) = some (bytesToHex wRlpC2) ∧
      (st'.db.rows.filter
        (fun e => e.keyHex == bytesToHex (mockKeccak wRlpC2))).length = 1 ∧
      st'.db.rows.length = emptySt.db.rows.length + 1 :=
  (claim_C2_finalize_content_addressing mockKeccak wNodeC2 wRlpC2 emptySt
    (by decide) (by decide) (by decide) (by decide)).2 (by decide)

/-- C6: `lookupKey` never mutates the store: whenever the call returns (the
`none` case models a thrown exception, which likewise performs no store
write — the state-passing model has no surviving state to compare there),
the rows, their order (`entries`) and the logical clock are unchanged.
`lookupAt` only reads through `resolveNode`/`Db.get` and never calls
`finalizeNode` or `Db.put`. -/
theorem claim_C6_lookup_readonly (keccak : List Nat → List Nat)
    (rootRef key : List Nat) (st : St) (out : LookupOutcome) (st' : St)
    (h : lookupKey keccak rootRef key st = some (out, st')) :
    st'.db = st.db ∧ st'.db.entries = st.db.entries ∧ st'.db.clock = st.db.clock := by
  have hdb := lookupAt_db_frame keccak _ _ _ _ _ _ _ h
  exact ⟨hdb, by rw [hdb], by rw [hdb]⟩

/-- Store and state containing one hash-keyed leaf row (used by witnesses). -/
def dbC6 : Db :=
  (Db.empty.put (bytesToHex (mockKeccak wRlpC2)) (bytesToHex wRlpC2) NodeTag.leaf).2

def stC6 : St := { db := dbC6, cache := [], useCache := false, clean := true }

theorem claim_C6_witness :
    stC6.db = stC6.db ∧ stC6.db.entries = stC6.db.entries ∧
      stC6.db.clock = stC6.db.clock :=
  claim_C6_lookup_readonly mockKeccak (mockKeccak wRlpC2) [1] stC6
    { found := true, value := some (List.replicate 40 7), mismatchReason := none }
    stC6 (by decide)

/-- C8: `describeRoot` satisfies the three-case rule — empty root:
`isEmpty` with commitment `keccak` of the canonical empty serialization
`0x80`; 1–31 bytes: `isEmbedded` with `rootRefHex` the ref bytes and
commitment `keccak ref`; 32 bytes: `rootRefHex` and commitment both the
ref — and in every case the commitment is the hex of a 32-byte hash. -/
theorem claim_C8_describeRoot (keccak : List Nat → List Nat)
    (Hlen : ∀ b, (keccak b).length = 32) (rootRef : List Nat)
    (hle : rootRef.length ≤ 32) :
    (rootRef.length = 0 →
      describeRoot keccak rootRef
        = { isEmpty := true, isEmbedded := false, rootRefHex := ['0', 'x'],
            commitmentHex := bytesToHex (keccak RLP_EMPTY_STRING) }) ∧
    (1 ≤ rootRef.length → rootRef.length ≤ 31 →
      describeRoot keccak rootRef
        = { isEmpty := false, isEmbedded := true, rootRefHex := bytesToHex rootRef,
            commitmentHex := bytesToHex (keccak rootRef) }) ∧
    (rootRef.length = 32 →
      describeRoot keccak rootRef
        = { isEmpty := false, isEmbedded := false, rootRefHex := bytesToHex rootRef,
            commitmentHex := bytesToHex rootRef }) ∧
    (∃ h : List Nat, h.length = 32 ∧
      (describeRoot keccak rootRef).commitmentHex = bytesToHex h) := by
  refine ⟨?_, ?_, ?_, ?_⟩
  · intro h0
    unfold describeRoot
    rw [if_pos h0]
    rfl
  · intro h1 h31
    unfold describeRoot
    rw [if_neg (by omega), if_pos (by omega)]
  · intro h32
    unfold describeRoot
    rw [if_neg (by omega), if_neg (by omega)]
  · unfold describeRoot
    by_cases h0 : rootRef.length = 0
    · rw [if_pos h0]
      exact ⟨keccak RLP_EMPTY_STRING, Hlen _, rfl⟩
    · by_cases h31 : rootRef.length < 32
      · rw [if_neg h0, if_pos h31]
        exact ⟨keccak rootRef, Hlen _, rfl⟩
      · rw [if_neg h0, if_neg h31]
        exact ⟨rootRef, by omega, rfl⟩

theorem claim_C8_witness :
    ∃ h : List Nat, h.length = 32 ∧
      (describeRoot mockKeccak [5]).commitmentHex = bytesToHex h :=
  (claim_C8_describeRoot mockKeccak mockKeccak_len [5] (by norm_num)).2.2.2

/-- C10 (implicit): resolving a hash reference performs no integrity check
on the fetched bytes. `keccak` is universally quantified and absent from
both hypotheses and conclusion: whatever row the store holds under
`hex ref` is decoded and returned as-is, whether or not its hash matches
`ref`; and (with the per-call cache off, i.e. absent) a MissingNode error
(`none`) is raised exactly when the store has no row for `hex ref`. -/
theorem claim_C10_resolve_no_integrity_check (keccak : List Nat → List Nat)
    (ref : List Nat) (st : St) (h32 : ref.length = 32)
    (hnc : st.useCache = false) :
    (∀ vHex node, st.db.get (bytesToHex ref) = some vHex →
      decodeTrieNode (hexToBytes vHex) = some node →
      resolveNode keccak ref st
        = some ({ node := node, rlp := hexToBytes vHex, id := bytesToHex ref }, st)) ∧
    (st.db.get (bytesToHex ref) = none → resolveNode keccak ref st = none) := by
  constructor
  · intro vHex node hget hdec
    unfold resolveNode
    rw [if_pos h32]
    simp only [hnc, Bool.false_eq_true, if_false, hget, hdec]
    have hid : nodeIdFromRef keccak ref = bytesToHex ref := by
      unfold nodeIdFromRef
      rw [if_neg (by omega), if_pos h32]
    simp only [Option.map_some', hid]
  · intro hget
    unfold resolveNode
    rw [if_pos h32]
    simp only [hnc, Bool.false_eq_true, if_false, hget]

/-- A store whose single row is keyed by a hash that is NOT the hash of its
value (no resolver ever notices). -/
def dbC10 : Db :=
  (Db.empty.put (bytesToHex (List.replicate 32 1)) (bytesToHex wRlpC2) NodeTag.leaf).2

def stC10 : St := { db := dbC10, cache := [], useCache := false, clean := true }

theorem claim_C10_witness :
    (resolveNode mockKeccak (List.replicate 32 1) stC10
      = some ({ node := wNodeC2, rlp := wRlpC2,
                id := bytesToHex (List.replicate 32 1) }, stC10)) ∧
    (resolveNode mockKeccak (List.replicate 32 2) stC10 = none) := by
  constructor
  · have h := (claim_C10_resolve_no_integrity_check mockKeccak
      (List.replicate 32 1) stC10 (by decide) rfl).1 (bytesToHex wRlpC2) wNodeC2
      (by decide) (by decide)
    have hrw : hexToBytes (bytesToHex wRlpC2) = wRlpC2 := by decide
    rw [hrw] at h
    exact h
  · exact (claim_C10_resolve_no_integrity_check mockKeccak
      (List.replicate 32 2) stC10 (by decide) rfl).2 (by decide)

/-! ## Claims C1, C5 and C9 -/

/-- C1 (counterexample): the claim fails for empty values. Inserting the
distinct nibble keys `[1]` and `[1, 0]` (the first with the empty value) into
an initially empty trie via `insertKeyValue`, threading each returned
`rootRef` into the next insert over one shared store, runs cleanly; yet a
`lookupKey` of the inserted key `[1]` against the final root returns
`found = false` with no value: the empty value lands in a branch value slot,
which lookup reports as "Branch value slot empty". -/
theorem claim_C1_counterexample :
    (do
      let (r1, st1) ← insertKeyValue mockKeccak [] [1] []
        { db := Db.empty, cache := [], useCache := false, clean := true }
      let (r2, st2) ← insertKeyValue mockKeccak r1.rootRef [1, 0] [5] st1
      let (out, _) ← lookupKey mockKeccak r2.rootRef [1] st2
      pure (st2.clean, out.found, out.value)) =
      some (true, false, (none : Option (List Nat))) := by
  rfl

/-- C1 (amended to non-empty values): for every sequence of distinct valid
nibble keys with non-empty values inserted one by one into an initially empty
trie via `insertKeyValue` (cache off), threading each returned `rootRef` into
the next insert over one shared KV store, if the run completes with the
content-addressing ghost flag still clean (no hash collision overwrote a
row), then `lookupKey` of each inserted key against the final root returns
`found = true`, the exact value written for that key, no mismatch reason, and
an unchanged state. -/
theorem claim_C1_insert_lookup_nonempty {keccak : List Nat → List Nat}
    (Hlen : ∀ b, (keccak b).length = 32) (HByte : ∀ b, ByteOk (keccak b))
    (pairs : List (List Nat × List Nat)) (root : List Nat) (st : St)
    (hok : PairsOk pairs)
    (hdist : pairs.Pairwise (fun a b => a.1 ≠ b.1))
    (hrun : insertSeq keccak pairs []
      { db := Db.empty, cache := [], useCache := false, clean := true }
      = some (root, st))
    (hclean : st.clean = true) :
    ∀ pr ∈ pairs, lookupKey keccak root pr.1 st =
      some ({ found := true, value := some pr.2, mismatchReason := none }, st) := by
  intro pr hpr
  have hstep := insertSeq_StepOk pairs [] root
    { db := Db.empty, cache := [], useCache := false, clean := true } st hrun
  obtain ⟨habs, hWFS, hWFV⟩ :=
    insertSeq_refines Hlen HByte pairs .pempty [] root
      { db := Db.empty, cache := [], useCache := false, clean := true } st
      rfl Db.empty_WF DbTyped_empty hok hrun
      (fun _ => ⟨Or.inl ⟨rfl, rfl⟩, trivial, trivial⟩) hclean
  have hden : Den (pfold .pempty pairs) pr.1 = some pr.2 :=
    Den_pfold pairs .pempty trivial trivial hok hdist pr hpr
  have hcache : st.useCache = false := by rw [hstep.2.1]
  obtain ⟨out, hlook, hfound, hval, hmism⟩ :=
    lookupAt_refines Hlen HByte (pfold .pempty pairs) (pr.1.length + 1) root
      pr.1 0 st hcache (hok pr hpr).1 habs (le_refl _)
  have hf : out.found = true := by
    rw [hfound, hden]
    rfl
  have hout : out = { found := true, value := some pr.2, mismatchReason := none } := by
    obtain ⟨f, v, m⟩ := out
    simp only at hf
    have hv : v = some pr.2 := by
      have := hval
      simp only at this
      rw [this, hden]
    have hm : m = none := by
      have := hmism hf
      simp only at this
      rw [this]
    rw [hf, hv, hm]
  have hlk : lookupKey keccak root pr.1 st =
      lookupAt keccak (pr.1.length + 1) root pr.1 0 st := rfl
  rw [hlk, hlook, hout]

def pairsC1 : List (List Nat × List Nat) := [([1], [5]), ([2, 3], [7, 8])]

def rootC1 : List Nat :=
  [217, 128, 131, 194, 32, 5, 133, 196, 51, 130, 7, 8, 128, 128, 128, 128,
   128, 128, 128, 128, 128, 128, 128, 128, 128, 128]

def stC1 : St := { db := Db.empty, cache := [], useCache := false, clean := true }

theorem claim_C1_witness :
    PairsOk pairsC1 ∧ pairsC1.Pairwise (fun a b => a.1 ≠ b.1) ∧
    insertSeq mockKeccak pairsC1 []
      { db := Db.empty, cache := [], useCache := false, clean := true }
      = some (rootC1, stC1) ∧
    stC1.clean = true ∧
    ∀ pr ∈ pairsC1, lookupKey mockKeccak rootC1 pr.1 stC1 =
      some ({ found := true, value := some pr.2, mismatchReason := none }, stC1) :=
  ⟨by decide, by decide, by rfl, rfl,
    claim_C1_insert_lookup_nonempty mockKeccak_len mockKeccak_ByteOk pairsC1
      rootC1 stC1 (by decide) (by decide) (by rfl) rfl⟩

/-- C5: for every trie state (rootRef plus KV store) built by a clean
sequence of inserts of distinct keys into an initially empty trie, re-running
`insertKeyValue` for an inserted key with the very value currently stored for
it returns the same `rootRef` (hence the same commitment) and returns the
state exactly unchanged: every KV row (key, value, valueSize, nodeType,
insertedAt), the clock, the cache, and the clean flag are untouched. -/
theorem claim_C5_idempotent_reinsert {keccak : List Nat → List Nat}
    (Hlen : ∀ b, (keccak b).length = 32) (HByte : ∀ b, ByteOk (keccak b))
    (pairs : List (List Nat × List Nat)) (root : List Nat) (st : St)
    (hok : PairsOk pairs)
    (hdist : pairs.Pairwise (fun a b => a.1 ≠ b.1))
    (hrun : insertSeq keccak pairs []
      { db := Db.empty, cache := [], useCache := false, clean := true }
      = some (root, st))
    (hclean : st.clean = true) :
    ∀ pr ∈ pairs, ∃ out,
      insertKeyValue keccak root pr.1 pr.2 st = some (out, st) ∧
      out.rootRef = root ∧ st.db.entries = st.db.entries := by
  intro pr hpr
  have hstep := insertSeq_StepOk pairs [] root
    { db := Db.empty, cache := [], useCache := false, clean := true } st hrun
  obtain ⟨habs, hWFS, hWFV⟩ :=
    insertSeq_refines Hlen HByte pairs .pempty [] root
      { db := Db.empty, cache := [], useCache := false, clean := true } st
      rfl Db.empty_WF DbTyped_empty hok hrun
      (fun _ => ⟨Or.inl ⟨rfl, rfl⟩, trivial, trivial⟩) hclean
  have hden : Den (pfold .pempty pairs) pr.1 = some pr.2 :=
    Den_pfold pairs .pempty trivial trivial hok hdist pr hpr
  have hcache : st.useCache = false := by rw [hstep.2.1]
  obtain ⟨hwf, _, hTf⟩ := hstep.2.2.2 Db.empty_WF
  rcases habs with ⟨_, hte⟩ | habs
  · rw [hte] at hden
    simp [Den] at hden
  · obtain ⟨out, hins, hroot⟩ :=
      insertAt_idem Hlen HByte (pfold .pempty pairs) (pr.1.length + 1) root
        pr.1 pr.2 0 st hcache hwf (hTf DbTyped_empty) habs hden (hok pr hpr).1
        (le_refl _)
    exact ⟨out, hins, hroot, rfl⟩

def pairsC5 : List (List Nat × List Nat) := [([0, 1], [9]), ([2], [4, 4])]

def rootC5 : List Nat :=
  [217, 131, 194, 49, 9, 128, 133, 196, 32, 130, 4, 4, 128, 128, 128, 128,
   128, 128, 128, 128, 128, 128, 128, 128, 128, 128]

def stC5 : St := { db := Db.empty, cache := [], useCache := false, clean := true }

theorem claim_C5_witness :
    PairsOk pairsC5 ∧ pairsC5.Pairwise (fun a b => a.1 ≠ b.1) ∧
    insertSeq mockKeccak pairsC5 []
      { db := Db.empty, cache := [], useCache := false, clean := true }
      = some (rootC5, stC5) ∧
    stC5.clean = true ∧
    ∀ pr ∈ pairsC5, ∃ out,
      insertKeyValue mockKeccak rootC5 pr.1 pr.2 stC5 = some (out, stC5) ∧
      out.rootRef = rootC5 ∧ stC5.db.entries = stC5.db.entries :=
  ⟨by decide, by decide, by rfl, rfl,
    claim_C5_idempotent_reinsert mockKeccak_len mockKeccak_ByteOk pairsC5
      rootC5 stC5 (by decide) (by decide) (by rfl) rfl⟩

/-- C9: against any store satisfying the reachable-trie invariant, a call of
`insertAt` or `lookupAt` on a key of `n` nibbles terminates within recursion
depth `n + 1` — the fuel budget `key.length + 1` (one unit per recursive
step, each of which consumes at least one key nibble) already suffices, and
so does any larger budget, independent of the number of rows in the store; in
particular the canonical calls `insertKeyValue` and `lookupKey` succeed. -/
theorem claim_C9_linear_fuel {keccak : List Nat → List Nat}
    (Hlen : ∀ b, (keccak b).length = 32) (HByte : ∀ b, ByteOk (keccak b))
    (t : PTrie) (ref key value : List Nat) (st : St)
    (hc : st.useCache = false) (hwf : st.db.WF) (hT : DbTyped st.db)
    (habs : AbsR keccak st.db ref t)
    (hknib : NibbleOk key) (hklen : key.length < 2 ^ 59)
    (hvB : ByteOk value) (hvlen : value.length < 2 ^ 59) :
    (∀ fuel, key.length + 1 ≤ fuel →
      (insertAt keccak fuel ref key value 0 st).isSome = true ∧
      (lookupAt keccak fuel ref key 0 st).isSome = true) ∧
    (insertKeyValue keccak ref key value st).isSome = true ∧
    (lookupKey keccak ref key st).isSome = true := by
  have hmain : ∀ fuel, key.length + 1 ≤ fuel →
      (insertAt keccak fuel ref key value 0 st).isSome = true ∧
      (lookupAt keccak fuel ref key 0 st).isSome = true := by
    intro fuel hfuel
    constructor
    · obtain ⟨out, st', hins, _⟩ :=
        insertAt_refines Hlen HByte t fuel ref key value 0 st hc hwf hT habs
          hknib hklen hvB hvlen hfuel
      rw [hins]
      rfl
    · obtain ⟨out, hlook, _⟩ :=
        lookupAt_refines Hlen HByte t fuel ref key 0 st hc hknib habs hfuel
      rw [hlook]
      rfl
  exact ⟨hmain, (hmain _ (le_refl _)).1, (hmain _ (le_refl _)).2⟩

theorem claim_C9_witness :
    ({ db := Db.empty, cache := [], useCache := false, clean := true } : St).useCache
        = false ∧
    Db.empty.WF ∧ DbTyped Db.empty ∧ NibbleOk [1] ∧ ([1] : List Nat).length < 2 ^ 59 ∧
    ByteOk [7] ∧ ([7] : List Nat).length < 2 ^ 59 ∧
    ((∀ fuel, ([1] : List Nat).length + 1 ≤ fuel →
      (insertAt mockKeccak fuel [] [1] [7] 0
        { db := Db.empty, cache := [], useCache := false, clean := true }).isSome
        = true ∧
      (lookupAt mockKeccak fuel [] [1] 0
        { db := Db.empty, cache := [], useCache := false, clean := true }).isSome
        = true) ∧
    (insertKeyValue mockKeccak [] [1] [7]
      { db := Db.empty, cache := [], useCache := false, clean := true }).isSome
      = true ∧
    (lookupKey mockKeccak [] [1]
      { db := Db.empty, cache := [], useCache := false, clean := true }).isSome
      = true) :=
  ⟨rfl, by decide, by decide, by decide, by decide, by decide, by decide,
    claim_C9_linear_fuel mockKeccak_len mockKeccak_ByteOk .pempty [] [1] [7]
      { db := Db.empty, cache := [], useCache := false, clean := true }
      rfl Db.empty_WF DbTyped_empty (Or.inl ⟨rfl, rfl⟩) (by decide) (by decide)
      (by decide) (by decide)⟩

end MPT
